import Mathlib

/-!
ConcurrentFileSystem: a tree of directories with per-node readers/writers monitors.

Shallow embedding of `src/Tree.c` and `src/readerswriters.c`.

* A `Tree` node is the C `struct Tree`: its child map. The monitor of a node
  is modelled separately (`Monitor`, second half of the definitions): the tree
  operations below are the operations run by one thread on idle monitors,
  where every `begin_read` / `begin_write` is admitted at once and every
  `end_read` / `end_write` gives the monitor back idle, so the monitor calls
  do not influence the returned code or the resulting tree.
* `HashMap.h` and `path_utils.h` are not among the sources; they are modelled
  from the contracts the specification gives for them.
* The operations with the suffix `_trace` are the same operations together
  with the monitor calls and map mutations they issue, in order; their results
  are proved equal to those of the plain operations.
* `malloc` is taken to succeed (no `ENOMEM` path).
* A C operation that mutates the tree in place and returns an `int` becomes a
  function returning the pair (code, tree afterwards).
-/

namespace ConcurrentFS

/-! ## errno values (`<errno.h>`, Linux) -/

def ENOENT : Nat := 2
def EBUSY : Nat := 16
def EEXIST : Nat := 17
def EINVAL : Nat := 22
def ENOTEMPTY : Nat := 39

/-! ## HashMap (external) -/

/-- Modelled from the spec: `HashMap.h` is not among the sources. The Map
contract is new / insert(key,val) / get(key) / remove(key) / size / iterator,
with component strings as keys. The map is an association list in iteration
order. -/
abbrev HashMap (α : Type) := List (String × α)

/-- Modelled from the spec: `hmap_new` of the absent `HashMap.h`, the empty map. -/
def hmap_new {α : Type} : HashMap α := []

/-- Modelled from the spec: `hmap_get` of the absent `HashMap.h`, the value
stored under `key`, `none` for the C null pointer. -/
def hmap_get {α : Type} : HashMap α → String → Option α
  | [], _ => none
  | (k, v) :: rest, key => if k = key then some v else hmap_get rest key

/-- Modelled from the spec: `hmap_insert` of the absent `HashMap.h`. A key
that is already present is not inserted again (child names are unique per
node). -/
def hmap_insert {α : Type} (m : HashMap α) (key : String) (value : α) : HashMap α :=
  if (hmap_get m key).isSome then m else m ++ [(key, value)]

/-- Modelled from the spec: `hmap_remove` of the absent `HashMap.h`. -/
def hmap_remove {α : Type} (m : HashMap α) (key : String) : HashMap α :=
  m.filter (fun e => decide (e.1 ≠ key))

/-- Modelled from the spec: `hmap_size` of the absent `HashMap.h`. -/
def hmap_size {α : Type} (m : HashMap α) : Nat := m.length

/-- Modelled from the spec: the keys of the absent `HashMap.h` map in the
order its iterator (`hmap_iterator` / `hmap_next`) yields them. -/
def hmap_keys {α : Type} (m : HashMap α) : List String := m.map Prod.fst

/-- The value under `key` is the C pointer to a child node. A mutation done
through that pointer changes the child in place; in the value model the entry
of `key` is rebound to the changed child, keeping its position. -/
def hmap_rebind {α : Type} : HashMap α → String → α → HashMap α
  | [], _, _ => []
  | (k, v) :: rest, key, new =>
    if k = key then (k, new) :: rest else (k, v) :: hmap_rebind rest key new

/-! ## Tree nodes -/

/-- The `struct Tree { HashMap* hmap; Monitor* monitor; }` of `Tree.c`: the child
map of one directory (the monitor is modelled by `Monitor`). -/
inductive Tree where
  | mk (hmap : List (String × Tree)) : Tree

/-- Field access `tree->hmap`. -/
def Tree.hmap : Tree → HashMap Tree
  | Tree.mk m => m

/-- Function `tree_new` of `Tree.c`: a node with an empty child map. -/
def tree_new : Tree := Tree.mk hmap_new

/-! ## Paths (external `path_utils.h`) -/

/-- Modelled from the spec: the text between the slashes of a C string, for
the absent `path_utils.h`. `"/a/b/"` gives `["", "a", "b", ""]`. -/
def split_slash : List Char → List (List Char)
  | [] => [[]]
  | c :: cs =>
    if c = '/' then [] :: split_slash cs
    else
      match split_slash cs with
      | [] => [[c]]
      | w :: ws => (c :: w) :: ws

/-- Modelled from the spec: one component of a valid path is `[a-z]{1..MAX}`
(`path_utils.h` is absent; `MAX` is its bound on the length of a name). -/
def is_component_valid (MAX : Nat) (c : List Char) : Bool :=
  decide (1 ≤ c.length) && decide (c.length ≤ MAX) &&
    c.all (fun ch => decide ('a' ≤ ch) && decide (ch ≤ 'z'))

/-- Modelled from the spec: `is_path_valid(p)` of the absent `path_utils.h`
is true iff `p` matches `(/[a-z]{1..MAX}){0,MAX_DEPTH}/`. -/
def is_path_valid (MAX MAX_DEPTH : Nat) (p : String) : Bool :=
  let parts := split_slash p.data
  decide (2 ≤ parts.length) && decide (parts.head? = some []) &&
    decide (parts.getLast? = some []) &&
    parts.tail.dropLast.all (is_component_valid MAX) &&
    decide (parts.tail.dropLast.length ≤ MAX_DEPTH)

/-- A valid path string `/c₁/…/cₙ/` is represented by the sequence of its
components; a `const char*` that points at a slash inside such a string is
represented by the components that follow that slash. -/
abbrev Path := List String

/-- Modelled from the spec: the components of a path string, the names
between its slashes (the absent `path_utils.h` splits a path into them). -/
def components (p : String) : Path :=
  (split_slash p.data).tail.dropLast.map String.mk

/-- The constant `#define ROOT "/"` of `Tree.c`: the path without components. -/
def ROOT : Path := []

/-- Modelled from the spec: `split_path(p, out)` of the absent `path_utils.h`
returns the suffix after the first component, writing that component into
`out`; it returns null when only `/` remains. -/
def split_path : Path → Option (String × Path)
  | [] => none
  | component :: subpath => some (component, subpath)

/-- Modelled from the spec: `make_path_to_parent(p, out)` of the absent
`path_utils.h` returns the parent path and writes the last component into
`out`; it returns null when `p` is `/`. -/
def make_path_to_parent (p : Path) : Option (Path × String) :=
  match p.getLast? with
  | none => none
  | some component => some (p.dropLast, component)

/-- Modelled from the spec: the longest sequence of components that starts
both paths, the common path that `find_common_path` of the absent
`path_utils.h` computes. -/
def common_components : Path → Path → Path
  | a :: as, b :: bs => if a = b then a :: common_components as bs else []
  | _, _ => []

/-- Modelled from the spec: `find_common_path(a, b, out)` of the absent
`path_utils.h` writes the longest slash-terminated common prefix into `out`
and returns its length. The result is (`out`, returned length); the length
counts components, so that `a + idx` is the rest of `a` after the common
part, which is `/` exactly when `a` is the common part (the way `Tree.c`
uses it in `strcmp(source + idx, ROOT)`). -/
def find_common_path (a b : Path) : Path × Nat :=
  (common_components a b, (common_components a b).length)

/-- Modelled from the spec: `make_map_contents_string(map)` of the absent
`path_utils.h`, the comma-joined listing of the map keys in iteration order. -/
def make_map_contents_string {α : Type} (m : HashMap α) : String :=
  ",".intercalate (hmap_keys m)

/-! ## Tree.c -/

/-- Function `node_find_safe` of `Tree.c`: walk `path` from `tree` through the child
maps without taking any lock; `none` is the null pointer. -/
def node_find_safe (tree : Tree) : Path → Option Tree
  | [] => some tree
  | component :: path =>
    match hmap_get tree.hmap component with
    | none => none
    | some child => node_find_safe child path

/-- Function `node_find` of `Tree.c`: descend along `path`, `begin_read` on every node
passed and `begin_write` (when `write`) or `begin_read` on the last one. When
a component is missing the locks taken so far are released by
`free_mon_path` and null is returned. Run alone on idle monitors every lock
is granted at once, so the node reached does not depend on `write`. -/
def node_find (tree : Tree) (path : Path) (write : Bool) : Option Tree :=
  match path with
  | [] => some tree
  | component :: path =>
    match hmap_get tree.hmap component with
    | none => none
    | some current => node_find current path write

/-- A mutation `f` of the child map of the node reached from `tree` along
`path` (in C: `hmap_insert(node->hmap, …)` or `hmap_remove(node->hmap, …)`
through the pointer `node` that the descent returned). The nodes above it
keep pointing to the same, now changed, node. -/
def node_modify (tree : Tree) (path : Path) (f : HashMap Tree → HashMap Tree) : Tree :=
  match path with
  | [] => Tree.mk (f tree.hmap)
  | component :: path =>
    match hmap_get tree.hmap component with
    | none => tree
    | some child => Tree.mk (hmap_rebind tree.hmap component (node_modify child path f))

/-- Function `tree_list` of `Tree.c`: the returned string (`none` is the null result)
and the tree afterwards. -/
def tree_list (MAX MAX_DEPTH : Nat) (tree : Tree) (path : String) : Option String × Tree :=
  if !is_path_valid MAX MAX_DEPTH path then (none, tree)
  else
    match node_find tree (components path) false with
    | none => (none, tree)
    | some node => (some (make_map_contents_string node.hmap), tree)

/-- Function `tree_create` of `Tree.c`: the returned code and the tree afterwards. -/
def tree_create (MAX MAX_DEPTH : Nat) (tree : Tree) (path : String) : Nat × Tree :=
  if !is_path_valid MAX MAX_DEPTH path then (EINVAL, tree)
  else
    match make_path_to_parent (components path) with
    | none => (EEXIST, tree)
    | some (parent_path, component) =>
      match node_find tree parent_path true with
      | none => (ENOENT, tree)
      | some parent =>
        if (hmap_get parent.hmap component).isSome then (EEXIST, tree)
        else (0, node_modify tree parent_path (fun m => hmap_insert m component tree_new))

/-- Function `tree_remove` of `Tree.c`: the returned code and the tree afterwards. -/
def tree_remove (MAX MAX_DEPTH : Nat) (tree : Tree) (path : String) : Nat × Tree :=
  if !is_path_valid MAX MAX_DEPTH path then (EINVAL, tree)
  else
    match make_path_to_parent (components path) with
    | none => (EBUSY, tree)
    | some (parent_path, component) =>
      match node_find tree parent_path true with
      | none => (ENOENT, tree)
      | some parent =>
        match hmap_get parent.hmap component with
        | none => (ENOENT, tree)
        | some node =>
          if hmap_size node.hmap ≠ 0 then (ENOTEMPTY, tree)
          else (0, node_modify tree parent_path (fun m => hmap_remove m component))

/-- Function `move_check_cases` of `Tree.c`: the code of the illegal and special cases
of a move, `0` when the paths separate. `source + idx` and `target + idx` are
the paths after the common part. -/
def move_check_cases (tree : Tree) (source target : Path) (idx : Nat) : Nat :=
  if source = ROOT then EBUSY
  else if target = ROOT then EEXIST
  else
    let source_eq : Bool := decide (source.drop idx = ROOT)
    let target_eq : Bool := decide (target.drop idx = ROOT)
    if source_eq && target_eq then
      match node_find tree source false with
      | none => ENOENT
      | some _ => EEXIST
    else if source_eq then ENOENT
    else if target_eq then
      match node_find tree target false with
      | none => ENOENT
      | some _ => EEXIST
    else 0

/-- Function `tree_move` of `Tree.c`: the returned code and the tree afterwards. The
two map mutations at the end are done through the pointers `t_parent` and
`s_parent`, that is at the nodes reached along `common_path` followed by
`tp_path` and by `sp_path`. When `make_path_to_parent` gives null the C code
would pass a null path on; `move_check_cases` returning `0` excludes it. -/
def tree_move (MAX MAX_DEPTH : Nat) (tree : Tree) (source target : String) : Nat × Tree :=
  if !is_path_valid MAX MAX_DEPTH source || !is_path_valid MAX MAX_DEPTH target then
    (EINVAL, tree)
  else
    let src := components source
    let tgt := components target
    let (common_path, idx) := find_common_path src tgt
    let c := move_check_cases tree src tgt idx
    if c ≠ 0 then (c, tree)
    else
      match node_find tree common_path true with
      | none => (ENOENT, tree)
      | some lca =>
        let source_rest := src.drop idx
        match make_path_to_parent source_rest with
        | none => (ENOENT, tree)
        | some (sp_path, s_last) =>
          match (node_find_safe lca sp_path).bind (fun s_parent => hmap_get s_parent.hmap s_last) with
          | none => (ENOENT, tree)
          | some s_node =>
            let target_rest := tgt.drop idx
            match make_path_to_parent target_rest with
            | none => (ENOENT, tree)
            | some (tp_path, t_last) =>
              match node_find_safe lca tp_path with
              | none => (ENOENT, tree)
              | some t_parent =>
                if (hmap_get t_parent.hmap t_last).isSome then (EEXIST, tree)
                else
                  let inserted := node_modify tree (common_path ++ tp_path)
                    (fun m => hmap_insert m t_last s_node)
                  (0, node_modify inserted (common_path ++ sp_path)
                    (fun m => hmap_remove m s_last))

/-- A path exists in a tree when the walk from the root along it finds a node. -/
def path_exists (tree : Tree) (p : Path) : Prop :=
  (node_find_safe tree p).isSome = true

instance (tree : Tree) (p : Path) : Decidable (path_exists tree p) := by
  unfold path_exists; infer_instance

/-- The names of the children of the node at `q` (none when `q` does not exist). -/
def child_names (tree : Tree) (q : Path) : List String :=
  match node_find_safe tree q with
  | none => []
  | some node => hmap_keys node.hmap

/-- The main case of `tree_move` (the paths separate below their common part),
written with the paths from the root: `sp` and `tp` are the parents of source
and target, `s_last` and `t_last` their last components. -/
def move_separate (tree : Tree) (sp : Path) (s_last : String) (tp : Path) (t_last : String) :
    Nat × Tree :=
  match node_find_safe tree (sp ++ [s_last]) with
  | none => (ENOENT, tree)
  | some s_node =>
    match node_find_safe tree tp with
    | none => (ENOENT, tree)
    | some t_parent =>
      if (hmap_get t_parent.hmap t_last).isSome then (EEXIST, tree)
      else
        (0, node_modify (node_modify tree tp (fun m => hmap_insert m t_last s_node)) sp
          (fun m => hmap_remove m s_last))

/-- Uniqueness of child names (invariant 2 of the data model): at every node
of the tree the keys of the child map are pairwise different. -/
def unique_names (tree : Tree) : Prop :=
  ∀ q node, node_find_safe tree q = some node → (hmap_keys node.hmap).Nodup

/-- The trees a caller can hold: `tree_new` followed by any sequence of the
four operations with any arguments. -/
inductive TreeReachable (MAX MAX_DEPTH : Nat) : Tree → Prop where
  | new : TreeReachable MAX MAX_DEPTH tree_new
  | list (tree : Tree) (path : String) : TreeReachable MAX MAX_DEPTH tree →
      TreeReachable MAX MAX_DEPTH (tree_list MAX MAX_DEPTH tree path).2
  | create (tree : Tree) (path : String) : TreeReachable MAX MAX_DEPTH tree →
      TreeReachable MAX MAX_DEPTH (tree_create MAX MAX_DEPTH tree path).2
  | remove (tree : Tree) (path : String) : TreeReachable MAX MAX_DEPTH tree →
      TreeReachable MAX MAX_DEPTH (tree_remove MAX MAX_DEPTH tree path).2
  | move (tree : Tree) (source target : String) : TreeReachable MAX MAX_DEPTH tree →
      TreeReachable MAX MAX_DEPTH (tree_move MAX MAX_DEPTH tree source target).2

/-! ## readerswriters.c -/

/-- The `struct Monitor` of `readerswriters.c` without the mutex and the two
condition variables. The counters are `size_t`; they count threads, so they
are natural numbers here (a wrap-around needs 2^64 threads at once). -/
structure Monitor where
  read_count : Nat
  write_count : Nat
  read_wait : Nat
  write_wait : Nat
  woke_write : Bool
  woke_read : Nat

/-- Function `init_monitor` of `readerswriters.c`. -/
def init_monitor : Monitor :=
  { read_count := 0, write_count := 0, read_wait := 0, write_wait := 0,
    woke_write := false, woke_read := 0 }

/-- Function `begin_write` from the test of the `while` condition on: when the
condition holds the thread counts itself in `write_wait` and blocks in
`pthread_cond_wait` (which gives up the mutex), otherwise it leaves the loop,
does `write_count++` and returns. This is the section run under the mutex by
a call of `begin_write`. -/
def begin_write_test (m : Monitor) : Monitor :=
  if m.write_count > 0 ∨ m.read_count > 0 ∨ m.write_wait > 0 ∨ m.read_wait > 0 then
    { m with write_wait := m.write_wait + 1 }
  else
    { m with write_count := m.write_count + 1 }

/-- Function `begin_write` from the return of `pthread_cond_wait` on (the thread was
signalled or woke up spuriously and holds the mutex again): `write_wait--`,
then with `woke_write` set it clears the flag, breaks out of the loop and
does `write_count++`; without it the `while` condition is tested again. -/
def begin_write_wake (m : Monitor) : Monitor :=
  let m1 := { m with write_wait := m.write_wait - 1 }
  if m1.woke_write then
    { m1 with woke_write := false, write_count := m1.write_count + 1 }
  else
    begin_write_test m1

/-- Function `end_write` of `readerswriters.c`. The caller holds the monitor as
writer, so `write_count` is positive and `write_count--` does not wrap. -/
def end_write (m : Monitor) : Monitor :=
  let m1 := { m with write_count := m.write_count - 1 }
  if m1.read_wait > 0 ∧ m1.write_count = 0 ∧ m1.read_count = 0 then
    { m1 with woke_read := m1.read_wait }
  else if m1.write_wait > 0 ∧ m1.write_count = 0 ∧ m1.read_count = 0 then
    { m1 with woke_write := true }
  else m1

/-- Function `begin_read` from the test of the `while` condition on: when the
condition holds the thread counts itself in `read_wait` and blocks in
`pthread_cond_wait`, otherwise it does `read_count++` and returns. This is
the section run under the mutex by a call of `begin_read`. -/
def begin_read_test (m : Monitor) : Monitor :=
  if m.write_wait > 0 ∨ m.write_count > 0 then
    { m with read_wait := m.read_wait + 1 }
  else
    { m with read_count := m.read_count + 1 }

/-- Function `begin_read` from the return of `pthread_cond_wait` on: `read_wait--`,
then with `woke_read > 0` it takes one slot (`woke_read--`), breaks out of
the loop and does `read_count++`; without it the `while` condition is tested
again. -/
def begin_read_wake (m : Monitor) : Monitor :=
  let m1 := { m with read_wait := m.read_wait - 1 }
  if m1.woke_read > 0 then
    { m1 with woke_read := m1.woke_read - 1, read_count := m1.read_count + 1 }
  else
    begin_read_test m1

/-- Function `end_read` of `readerswriters.c`. The caller holds the monitor as
reader, so `read_count` is positive and `read_count--` does not wrap. -/
def end_read (m : Monitor) : Monitor :=
  let m1 := { m with read_count := m.read_count - 1 }
  if m1.read_count = 0 ∧ m1.write_count = 0 ∧ m1.write_wait > 0 ∧ m1.woke_read = 0 then
    { m1 with woke_write := true }
  else if m1.write_count = 0 ∧ m1.read_count = 0 then
    { m1 with woke_read := m1.read_wait }
  else m1

/-- The atomic steps of one monitor, each a section of the code run under the
mutex: a call of `begin_read` / `begin_write` (enters or enqueues itself), the
wake-up of an enqueued thread (signalled or spurious; there is one only when
the wait counter is positive), and `end_read` / `end_write` by a thread that
holds the monitor in that mode (the count is positive). -/
inductive MonitorStep : Monitor → Monitor → Prop where
  | begin_read_call (m : Monitor) : MonitorStep m (begin_read_test m)
  | begin_read_wakeup (m : Monitor) : 0 < m.read_wait → MonitorStep m (begin_read_wake m)
  | begin_write_call (m : Monitor) : MonitorStep m (begin_write_test m)
  | begin_write_wakeup (m : Monitor) : 0 < m.write_wait → MonitorStep m (begin_write_wake m)
  | end_read_call (m : Monitor) : 0 < m.read_count → MonitorStep m (end_read m)
  | end_write_call (m : Monitor) : 0 < m.write_count → MonitorStep m (end_write m)

/-- The states a monitor can be in: `init_monitor` followed by atomic steps. -/
inductive MonitorReachable : Monitor → Prop where
  | init : MonitorReachable init_monitor
  | step (m m2 : Monitor) : MonitorReachable m → MonitorStep m m2 → MonitorReachable m2

/-- The invariant that carries writer exclusion through every step. -/
def monitor_inv (m : Monitor) : Prop :=
  m.write_count ≤ 1 ∧ (0 < m.write_count → m.read_count = 0) ∧
    m.woke_read ≤ m.read_wait ∧ (0 < m.woke_read → m.write_count = 0) ∧
    (m.woke_write = true →
      1 ≤ m.write_wait ∧ m.woke_read = 0 ∧ m.read_count = 0 ∧ m.write_count = 0)

/-- No waiter is left without a reserved hand-off on an idle monitor. -/
def handoff_reserved (m : Monitor) : Prop :=
  m.read_count = 0 → m.write_count = 0 → (0 < m.read_wait ∨ 0 < m.write_wait) →
    (0 < m.woke_read ∨ m.woke_write = true)

/-! ## The calls an operation issues -/

/-- What an operation does to the monitors and child maps on its way, in
order. A node is named by its path from the root at the time of the call:
`begin_read n` is `begin_read(node->monitor)` for the node at `n`, and
`hmap_insert n key` is `hmap_insert(node->hmap, key, …)` for that node. -/
inductive Event where
  | begin_read (node : Path) : Event
  | begin_write (node : Path) : Event
  | end_read (node : Path) : Event
  | end_write (node : Path) : Event
  | hmap_insert (node : Path) (key : String) : Event
  | hmap_remove (node : Path) (key : String) : Event
  deriving DecidableEq

/-- Function `free_mon_path` of `Tree.c`, the calls it issues for the first
`path_len` entries of `mon_path` (given as the list `mon_path`): `end_write`
on the last entry when `last_write`, then `end_read` on the entries before
it, last first. -/
def free_mon_path (mon_path : List Path) (last_write : Bool) : List Event :=
  match mon_path.reverse with
  | [] => []
  | last :: before =>
    (if last_write then Event.end_write last else Event.end_read last) ::
      before.map Event.end_read

/-- Function `node_find` of `Tree.c` with the calls it issues. `current` is
the node the loop stands at, `here` its path from the root and `mon_path` the
monitors stored so far. The result is the list of calls and, when the node is
found, the node with the filled `mon_path`; on a missing component the locks
taken so far are given back through `free_mon_path` and the result is null. -/
def node_find_trace (current : Tree) (here : Path) (mon_path : List Path) :
    Path → Bool → List Event × Option (Tree × List Path)
  | [], write =>
    ([if write then Event.begin_write here else Event.begin_read here],
      some (current, mon_path))
  | component :: path, write =>
    match hmap_get current.hmap component with
    | none => (Event.begin_read here :: free_mon_path mon_path false, none)
    | some child =>
      let found := node_find_trace child (here ++ [component])
        (mon_path ++ [here ++ [component]]) path write
      (Event.begin_read here :: found.1, found.2)

/-- Function `tree_list` of `Tree.c` with the calls it issues. -/
def tree_list_trace (MAX MAX_DEPTH : Nat) (tree : Tree) (path : String) :
    (Option String × Tree) × List Event :=
  if !is_path_valid MAX MAX_DEPTH path then ((none, tree), [])
  else
    match node_find_trace tree [] [[]] (components path) false with
    | (calls, none) => ((none, tree), calls)
    | (calls, some (node, mon_path)) =>
      ((some (make_map_contents_string node.hmap), tree),
        calls ++ free_mon_path mon_path false)

/-- Function `tree_create` of `Tree.c` with the calls it issues. -/
def tree_create_trace (MAX MAX_DEPTH : Nat) (tree : Tree) (path : String) :
    (Nat × Tree) × List Event :=
  if !is_path_valid MAX MAX_DEPTH path then ((EINVAL, tree), [])
  else
    match make_path_to_parent (components path) with
    | none => ((EEXIST, tree), [])
    | some (parent_path, component) =>
      match node_find_trace tree [] [[]] parent_path true with
      | (calls, none) => ((ENOENT, tree), calls)
      | (calls, some (parent, mon_path)) =>
        if (hmap_get parent.hmap component).isSome then
          ((EEXIST, tree), calls ++ free_mon_path mon_path true)
        else
          ((0, node_modify tree parent_path (fun m => hmap_insert m component tree_new)),
            calls ++ [Event.hmap_insert parent_path component] ++ free_mon_path mon_path true)

/-- Function `tree_remove` of `Tree.c` with the calls it issues. -/
def tree_remove_trace (MAX MAX_DEPTH : Nat) (tree : Tree) (path : String) :
    (Nat × Tree) × List Event :=
  if !is_path_valid MAX MAX_DEPTH path then ((EINVAL, tree), [])
  else
    match make_path_to_parent (components path) with
    | none => ((EBUSY, tree), [])
    | some (parent_path, component) =>
      match node_find_trace tree [] [[]] parent_path true with
      | (calls, none) => ((ENOENT, tree), calls)
      | (calls, some (parent, mon_path)) =>
        match hmap_get parent.hmap component with
        | none => ((ENOENT, tree), calls ++ free_mon_path mon_path true)
        | some node =>
          if hmap_size node.hmap ≠ 0 then
            ((ENOTEMPTY, tree), calls ++ free_mon_path mon_path true)
          else
            ((0, node_modify tree parent_path (fun m => hmap_remove m component)),
              calls ++ [Event.hmap_remove parent_path component] ++
                free_mon_path mon_path true)

/-- Function `move_check_cases` of `Tree.c` with the calls it issues. -/
def move_check_cases_trace (tree : Tree) (source target : Path) (idx : Nat) :
    Nat × List Event :=
  if source = ROOT then (EBUSY, [])
  else if target = ROOT then (EEXIST, [])
  else
    let source_eq : Bool := decide (source.drop idx = ROOT)
    let target_eq : Bool := decide (target.drop idx = ROOT)
    if source_eq && target_eq then
      match node_find_trace tree [] [[]] source false with
      | (calls, none) => (ENOENT, calls)
      | (calls, some (_, mon_path)) => (EEXIST, calls ++ free_mon_path mon_path false)
    else if source_eq then (ENOENT, [])
    else if target_eq then
      match node_find_trace tree [] [[]] target false with
      | (calls, none) => (ENOENT, calls)
      | (calls, some (_, mon_path)) => (EEXIST, calls ++ free_mon_path mon_path false)
    else (0, [])

/-- Function `tree_move` of `Tree.c` with the calls it issues. The two map
mutations are named by the nodes they change, `t_parent` and `s_parent`. -/
def tree_move_trace (MAX MAX_DEPTH : Nat) (tree : Tree) (source target : String) :
    (Nat × Tree) × List Event :=
  if !is_path_valid MAX MAX_DEPTH source || !is_path_valid MAX MAX_DEPTH target then
    ((EINVAL, tree), [])
  else
    let src := components source
    let tgt := components target
    let (common_path, idx) := find_common_path src tgt
    let checked := move_check_cases_trace tree src tgt idx
    if checked.1 ≠ 0 then ((checked.1, tree), checked.2)
    else
      match node_find_trace tree [] [[]] common_path true with
      | (calls, none) => ((ENOENT, tree), checked.2 ++ calls)
      | (calls, some (lca, mon_path)) =>
        let source_rest := src.drop idx
        match make_path_to_parent source_rest with
        | none => ((ENOENT, tree), checked.2 ++ calls ++ free_mon_path mon_path true)
        | some (sp_path, s_last) =>
          match (node_find_safe lca sp_path).bind (fun s_parent => hmap_get s_parent.hmap s_last) with
          | none => ((ENOENT, tree), checked.2 ++ calls ++ free_mon_path mon_path true)
          | some s_node =>
            let target_rest := tgt.drop idx
            match make_path_to_parent target_rest with
            | none => ((ENOENT, tree), checked.2 ++ calls ++ free_mon_path mon_path true)
            | some (tp_path, t_last) =>
              match node_find_safe lca tp_path with
              | none => ((ENOENT, tree), checked.2 ++ calls ++ free_mon_path mon_path true)
              | some t_parent =>
                if (hmap_get t_parent.hmap t_last).isSome then
                  ((EEXIST, tree), checked.2 ++ calls ++ free_mon_path mon_path true)
                else
                  let inserted := node_modify tree (common_path ++ tp_path)
                    (fun m => hmap_insert m t_last s_node)
                  ((0, node_modify inserted (common_path ++ sp_path)
                      (fun m => hmap_remove m s_last)),
                    checked.2 ++ calls ++
                      [Event.hmap_insert (common_path ++ tp_path) t_last,
                        Event.hmap_remove (common_path ++ sp_path) s_last] ++
                      free_mon_path mon_path true)

/-- The nodes passed on the way down `path` from the node at `here`, that
node first: the paths of `here` followed by each beginning of `path`. -/
def path_nodes (here : Path) : Path → List Path
  | [] => [here]
  | component :: path => here :: path_nodes (here ++ [component]) path

/-- The part of `path` that can be descended in `tree`: its components up to
the first one that is missing. -/
def descended (tree : Tree) : Path → Path
  | [] => []
  | component :: path =>
    match hmap_get tree.hmap component with
    | none => []
    | some child => component :: descended child path

/-- The monitor calls among the events. -/
def is_lock_call : Event → Bool
  | Event.hmap_insert _ _ => false
  | Event.hmap_remove _ _ => false
  | _ => true

/-- The sequence of monitor calls of a run. -/
def lock_calls (events : List Event) : List Event := events.filter is_lock_call

/-- The lock discipline, acquiring half, in the words of the specification:
`begin_read` on the nodes in the given (root-to-leaf) order, with
`begin_write` instead of `begin_read` on the deepest node when `write`. -/
def acquire (nodes : List Path) (write : Bool) : List Event :=
  nodes.dropLast.map Event.begin_read ++
    match nodes.getLast? with
    | none => []
    | some deepest => [if write then Event.begin_write deepest else Event.begin_read deepest]

/-- The lock discipline, releasing half, in the words of the specification:
the deepest lock is released with the matching `end_write` / `end_read`, then
each ancestor with `end_read`, innermost first. -/
def release (nodes : List Path) (write : Bool) : List Event :=
  (match nodes.getLast? with
    | none => []
    | some deepest => [if write then Event.end_write deepest else Event.end_read deepest]) ++
    nodes.dropLast.reverse.map Event.end_read

/-- The lock discipline in the words of the specification: the locks are
taken root-to-leaf and given back in exactly the reverse order. -/
def lock_discipline (nodes : List Path) (write : Bool) : List Event :=
  acquire nodes write ++ release nodes write

/-- The lock discipline of a descent towards `target`: the nodes are those of
the part of `target` that exists, and the deepest one is taken as writer only
when the operation writes and the whole of `target` was found. -/
def descent_discipline (tree : Tree) (target : Path) (write : Bool) : List Event :=
  lock_discipline (path_nodes [] (descended tree target))
    (write && decide (descended tree target = target))

/-- One call seen by the monitors of a tree whose operation runs alone
(`monitors n` is the state of the monitor of the node at `n`). A `begin_read`
or `begin_write` that would enqueue itself blocks for ever, and an `end_read`
or `end_write` needs the caller to hold the monitor; both give `none`. -/
def monitor_call (monitors : Path → Monitor) : Event → Option (Path → Monitor)
  | Event.begin_read n =>
    if (begin_read_test (monitors n)).read_wait = (monitors n).read_wait then
      some (Function.update monitors n (begin_read_test (monitors n)))
    else none
  | Event.begin_write n =>
    if (begin_write_test (monitors n)).write_wait = (monitors n).write_wait then
      some (Function.update monitors n (begin_write_test (monitors n)))
    else none
  | Event.end_read n =>
    if 0 < (monitors n).read_count then
      some (Function.update monitors n (end_read (monitors n)))
    else none
  | Event.end_write n =>
    if 0 < (monitors n).write_count then
      some (Function.update monitors n (end_write (monitors n)))
    else none
  | Event.hmap_insert _ _ => some monitors
  | Event.hmap_remove _ _ => some monitors

/-- The monitors after a sequence of calls of one operation running alone. -/
def run_calls (monitors : Path → Monitor) : List Event → Option (Path → Monitor)
  | [] => some monitors
  | e :: rest =>
    match monitor_call monitors e with
    | none => none
    | some next => run_calls next rest

/-- All monitors idle, as `init_monitor` leaves them. -/
def idle_monitors : Path → Monitor := fun _ => init_monitor

/-- Whether path `n` starts with path `a`: the node at `a` is the node at `n`
or one of its ancestors. -/
def starts_with (a n : Path) : Bool := decide (n.take a.length = a)

/-- Lock coverage of a run: `held` are the nodes whose monitor the operation
holds as writer; every `hmap_insert` / `hmap_remove` on the child map of a
node must satisfy `covered held node`. -/
def coverage (covered : List Path → Path → Bool) (held : List Path) : List Event → Bool
  | [] => true
  | Event.begin_write n :: rest => coverage covered (n :: held) rest
  | Event.end_write n :: rest => coverage covered (held.erase n) rest
  | Event.hmap_insert n _ :: rest => covered held n && coverage covered held rest
  | Event.hmap_remove n _ :: rest => covered held n && coverage covered held rest
  | _ :: rest => coverage covered held rest

/-- The mutated node's own monitor is held as writer. -/
def own_lock (held : List Path) (n : Path) : Bool := decide (n ∈ held)

/-- The monitor of the mutated node or of one of its ancestors is held as writer. -/
def ancestor_lock (held : List Path) (n : Path) : Bool := held.any (fun a => starts_with a n)

/-! ## Example trees -/

/-- The tree built by `example_move_test` of `main.c` before its move. -/
def example_tree : Tree :=
  ["/a/", "/b/", "/a/b/", "/a/b/c/", "/a/b/d/", "/b/a/", "/b/a/d/"].foldl
    (fun t p => (tree_create 255 2047 t p).2) tree_new

/-- The tree after `tree_create("/a/")` on a fresh tree. -/
def one_dir_tree : Tree := (tree_create 255 2047 tree_new "/a/").2

/-- The tree after `tree_create("/a/")` and `tree_create("/a/b/")`. -/
def two_dir_tree : Tree := (tree_create 255 2047 one_dir_tree "/a/b/").2

/-! ## Lemmas on the map model -/

@[simp] theorem Tree.hmap_mk (m : List (String × Tree)) : (Tree.mk m).hmap = m := rfl

theorem Tree.mk_hmap (t : Tree) : Tree.mk t.hmap = t := by
  cases t; rfl

theorem hmap_get_append_single {α : Type} (m : HashMap α) (k : String) (v : α) (c : String) :
    hmap_get (m ++ [(k, v)]) c =
      match hmap_get m c with
      | some x => some x
      | none => if k = c then some v else none := by
  induction m with
  | nil => simp [hmap_get]
  | cons e rest ih =>
    obtain ⟨k1, v1⟩ := e
    by_cases h : k1 = c
    · simp [hmap_get, h]
    · simp [hmap_get, h, ih]

theorem hmap_get_insert {α : Type} (m : HashMap α) (k : String) (v : α) (c : String)
    (h : hmap_get m k = none) :
    hmap_get (hmap_insert m k v) c = if c = k then some v else hmap_get m c := by
  unfold hmap_insert
  rw [h]
  simp only [Option.isSome_none, Bool.false_eq_true, if_false]
  rw [hmap_get_append_single]
  by_cases hc : c = k
  · subst hc; simp [h]
  · have hc2 : ¬ k = c := fun e => hc e.symm
    simp only [hc, hc2, if_false]
    cases hmap_get m c <;> rfl

theorem hmap_get_remove {α : Type} (m : HashMap α) (k c : String) :
    hmap_get (hmap_remove m k) c = if c = k then none else hmap_get m c := by
  induction m with
  | nil => simp [hmap_remove, hmap_get]
  | cons e rest ih =>
    obtain ⟨k1, v1⟩ := e
    unfold hmap_remove at ih ⊢
    by_cases h1 : k1 = k
    · subst h1
      by_cases h2 : c = k1
      · subst h2; simpa [List.filter, hmap_get] using ih
      · have h3 : ¬ k1 = c := fun e => h2 e.symm
        simpa [List.filter, hmap_get, h2, h3] using ih
    · by_cases h2 : k1 = c
      · subst h2; simp [List.filter, hmap_get, h1]
      · simpa [List.filter, hmap_get, h1, h2] using ih

theorem hmap_get_rebind {α : Type} (m : HashMap α) (k : String) (new : α) (c : String) :
    hmap_get (hmap_rebind m k new) c =
      if c = k then (hmap_get m k).map (fun _ => new) else hmap_get m c := by
  induction m with
  | nil => simp [hmap_rebind, hmap_get]
  | cons e rest ih =>
    obtain ⟨k1, v1⟩ := e
    by_cases h1 : k1 = k
    · subst h1
      by_cases h2 : c = k1
      · subst h2; simp [hmap_rebind, hmap_get]
      · have h3 : ¬ k1 = c := fun e => h2 e.symm
        simp [hmap_rebind, hmap_get, h2, h3]
    · by_cases h2 : k1 = c
      · subst h2
        have h3 : ¬ k1 = k := h1
        simp [hmap_rebind, hmap_get, h1]
      · simp [hmap_rebind, hmap_get, h1, h2, ih]

theorem hmap_get_isSome_iff_mem_keys {α : Type} (m : HashMap α) (c : String) :
    (hmap_get m c).isSome = true ↔ c ∈ hmap_keys m := by
  induction m with
  | nil => simp [hmap_get, hmap_keys]
  | cons e rest ih =>
    obtain ⟨k1, v1⟩ := e
    by_cases h : k1 = c
    · simp [hmap_get, hmap_keys, h]
    · have h2 : ¬ c = k1 := fun e => h e.symm
      simp only [hmap_get, h, if_false, ih]
      simp [hmap_keys, h2]

/-! ## Lemmas on the descent -/

theorem node_find_eq (tree : Tree) (path : Path) (write : Bool) :
    node_find tree path write = node_find_safe tree path := by
  induction path generalizing tree with
  | nil => rfl
  | cons c rest ih =>
    simp only [node_find, node_find_safe]
    cases hmap_get tree.hmap c with
    | none => rfl
    | some child => exact ih child

theorem node_find_split_path (tree : Tree) (path : Path) (write : Bool) :
    node_find tree path write =
      match split_path path with
      | none => some tree
      | some (component, subpath) =>
        match hmap_get tree.hmap component with
        | none => none
        | some current => node_find current subpath write := by
  cases path <;> rfl

theorem node_find_safe_append (tree : Tree) (p q : Path) :
    node_find_safe tree (p ++ q) = (node_find_safe tree p).bind (fun n => node_find_safe n q) := by
  induction p generalizing tree with
  | nil => simp [node_find_safe]
  | cons c rest ih =>
    simp only [List.cons_append, node_find_safe]
    cases hmap_get tree.hmap c with
    | none => rfl
    | some child => exact ih child

theorem find_modify_append (tree : Tree) (p r : Path) (f : HashMap Tree → HashMap Tree)
    (node : Tree) (h : node_find_safe tree p = some node) :
    node_find_safe (node_modify tree p f) (p ++ r) = node_find_safe (Tree.mk (f node.hmap)) r := by
  induction p generalizing tree with
  | nil =>
    simp only [node_find_safe, Option.some.injEq] at h
    subst h
    simp [node_modify]
  | cons c rest ih =>
    simp only [node_find_safe] at h
    cases hc : hmap_get tree.hmap c with
    | none => rw [hc] at h; simp at h
    | some child =>
      rw [hc] at h
      simp only at h
      simp only [node_modify, hc, List.cons_append, node_find_safe, Tree.hmap_mk,
        hmap_get_rebind, if_true, Option.map_some']
      exact ih child h

theorem find_modify_other (tree : Tree) (p q : Path) (f : HashMap Tree → HashMap Tree)
    (h1 : ∀ r, q ≠ p ++ r) (h2 : ∀ r, p ≠ q ++ r) :
    node_find_safe (node_modify tree p f) q = node_find_safe tree q := by
  induction p generalizing tree q with
  | nil => exact absurd rfl (h1 q)
  | cons c rest ih =>
    cases q with
    | nil => exact absurd rfl (h2 (c :: rest))
    | cons d q1 =>
      simp only [node_modify]
      cases hc : hmap_get tree.hmap c with
      | none => rfl
      | some child =>
        simp only [node_find_safe, Tree.hmap_mk, hmap_get_rebind]
        by_cases hd : d = c
        · subst hd
          simp only [if_true, hc, Option.map_some']
          apply ih
          · intro r e; exact h1 r (by rw [e]; rfl)
          · intro r e; exact h2 r (by rw [e]; rfl)
        · simp only [hd, if_false]

theorem exists_modify_other (tree : Tree) (p q : Path) (f : HashMap Tree → HashMap Tree)
    (h1 : ∀ r, q ≠ p ++ r) :
    path_exists (node_modify tree p f) q ↔ path_exists tree q := by
  induction p generalizing tree q with
  | nil => exact absurd rfl (h1 q)
  | cons c rest ih =>
    cases q with
    | nil => simp [path_exists, node_find_safe]
    | cons d q1 =>
      simp only [node_modify]
      cases hc : hmap_get tree.hmap c with
      | none => rfl
      | some child =>
        simp only [path_exists, node_find_safe, Tree.hmap_mk, hmap_get_rebind]
        by_cases hd : d = c
        · subst hd
          simp only [if_true, hc, Option.map_some']
          apply ih
          intro r e; exact h1 r (by rw [e]; rfl)
        · simp only [hd, if_false]

theorem exists_modify_insert (tree : Tree) (p q : Path) (k : String) (v node : Tree)
    (h : node_find_safe tree p = some node) (hk : hmap_get node.hmap k = none) :
    path_exists (node_modify tree p (fun m => hmap_insert m k v)) q ↔
      path_exists tree q ∨ ∃ r, q = p ++ k :: r ∧ path_exists v r := by
  by_cases hq : ∃ r, q = p ++ r
  · obtain ⟨r, rfl⟩ := hq
    unfold path_exists
    rw [find_modify_append tree p r _ node h, node_find_safe_append, h]
    cases r with
    | nil => simp [node_find_safe]
    | cons d r1 =>
      simp only [node_find_safe, Option.some_bind, Tree.hmap_mk, hmap_get_insert _ _ _ _ hk]
      by_cases hd : d = k
      · subst hd
        simp [hk]
      · simp only [hd, if_false]
        constructor
        · intro hx; exact Or.inl hx
        · rintro (hx | ⟨r, e, _⟩)
          · exact hx
          · have e2 := List.append_cancel_left e
            simp only [List.cons.injEq] at e2
            exact absurd e2.1 hd
  · rw [exists_modify_other tree p q _ (fun r e => hq ⟨r, e⟩)]
    constructor
    · intro hx; exact Or.inl hx
    · rintro (hx | ⟨r, e, _⟩)
      · exact hx
      · exact absurd ⟨k :: r, e⟩ hq

theorem exists_modify_remove (tree : Tree) (p q : Path) (k : String) (node : Tree)
    (h : node_find_safe tree p = some node) :
    path_exists (node_modify tree p (fun m => hmap_remove m k)) q ↔
      path_exists tree q ∧ ¬ ∃ r, q = p ++ k :: r := by
  by_cases hq : ∃ r, q = p ++ r
  · obtain ⟨r, rfl⟩ := hq
    unfold path_exists
    rw [find_modify_append tree p r _ node h, node_find_safe_append, h]
    cases r with
    | nil =>
      simp only [node_find_safe, Option.some_bind, Option.isSome_some, true_and, true_iff]
      rintro ⟨r, e⟩
      have e2 := List.append_cancel_left e
      simp at e2
    | cons d r1 =>
      simp only [node_find_safe, Option.some_bind, Tree.hmap_mk, hmap_get_remove]
      by_cases hd : d = k
      · subst hd
        simp
      · simp only [hd, if_false]
        constructor
        · intro hx
          refine ⟨hx, ?_⟩
          rintro ⟨r, e⟩
          have e2 := List.append_cancel_left e
          simp only [List.cons.injEq] at e2
          exact hd e2.1
        · intro hx; exact hx.1
  · rw [exists_modify_other tree p q _ (fun r e => hq ⟨r, e⟩)]
    constructor
    · intro hx
      exact ⟨hx, fun ⟨r, e⟩ => hq ⟨k :: r, e⟩⟩
    · intro hx; exact hx.1

theorem path_exists_of_append (tree : Tree) (p r : Path) (h : path_exists tree (p ++ r)) :
    path_exists tree p := by
  unfold path_exists at h ⊢
  rw [node_find_safe_append] at h
  cases hp : node_find_safe tree p with
  | none => rw [hp] at h; simp at h
  | some n => rfl

theorem path_exists_root (tree : Tree) : path_exists tree [] := rfl

theorem make_path_to_parent_concat (p : Path) (c : String) :
    make_path_to_parent (p ++ [c]) = some (p, c) := by
  simp [make_path_to_parent]

theorem make_path_to_parent_eq_none (p : Path) :
    make_path_to_parent p = none ↔ p = [] := by
  unfold make_path_to_parent
  cases h : p.getLast? with
  | none => simpa using h
  | some c =>
    constructor
    · intro e; simp at e
    · intro e; subst e; simp at h

theorem make_path_to_parent_eq_some (p pp : Path) (c : String) :
    make_path_to_parent p = some (pp, c) ↔ p = pp ++ [c] := by
  constructor
  · intro h
    unfold make_path_to_parent at h
    cases hl : p.getLast? with
    | none => rw [hl] at h; simp at h
    | some d =>
      rw [hl] at h
      simp only [Option.some.injEq, Prod.mk.injEq] at h
      obtain ⟨h1, h2⟩ := h
      subst h1; subst h2
      have hne : p ≠ [] := by intro e; subst e; simp at hl
      rw [List.getLast?_eq_getLast _ hne] at hl
      simp only [Option.some.injEq] at hl
      rw [← hl]
      exact (List.dropLast_append_getLast hne).symm
  · intro h; subst h; exact make_path_to_parent_concat pp c

/-! ## Lemmas on path strings -/

theorem split_slash_ne_nil (l : List Char) : split_slash l ≠ [] := by
  cases l with
  | nil => simp [split_slash]
  | cons c cs =>
    simp only [split_slash]
    split
    · simp
    · split <;> simp

theorem split_slash_eq_single_nil (l : List Char) (h : split_slash l = [[]]) : l = [] := by
  cases l with
  | nil => rfl
  | cons c cs =>
    simp only [split_slash] at h
    split at h
    · simp only [List.cons.injEq, true_and] at h
      exact absurd h (split_slash_ne_nil cs)
    · split at h <;> simp at h

theorem split_slash_eq_root (l : List Char) (h : split_slash l = [[], []]) : l = ['/'] := by
  cases l with
  | nil => simp [split_slash] at h
  | cons c cs =>
    simp only [split_slash] at h
    split at h
    · next hc =>
      simp only [List.cons.injEq, true_and] at h
      rw [hc, split_slash_eq_single_nil cs h]
    · split at h <;> simp at h

theorem components_root : components "/" = [] := by decide

theorem eq_root_of_components_eq_nil (MAX MAX_DEPTH : Nat) (p : String)
    (hv : is_path_valid MAX MAX_DEPTH p = true) (hc : components p = []) : p = "/" := by
  unfold is_path_valid at hv
  unfold components at hc
  simp only [Bool.and_eq_true, decide_eq_true_eq] at hv
  obtain ⟨⟨⟨⟨hlen, hhead⟩, hlast⟩, _⟩, _⟩ := hv
  simp only [List.map_eq_nil_iff] at hc
  have hparts : split_slash p.data = [[], []] := by
    generalize split_slash p.data = parts at hlen hhead hlast hc
    match parts, hlen, hhead, hlast, hc with
    | [], hlen, _, _, _ => simp at hlen
    | [_], hlen, _, _, _ => simp at hlen
    | [a, b], _, hhead, hlast, _ =>
      simp only [List.head?_cons, Option.some.injEq] at hhead
      simp only [List.getLast?_cons_cons, List.getLast?_singleton, Option.some.injEq] at hlast
      rw [hhead, hlast]
    | a :: b :: c :: rest, _, _, _, hc => simp [List.dropLast] at hc
  have hd := split_slash_eq_root p.data hparts
  cases p with
  | mk data =>
    simp only at hd
    subst hd
    rfl

/-! ## create and remove in terms of components -/

theorem tree_create_root (MAX MAX_DEPTH : Nat) (tree : Tree) (p : String)
    (hv : is_path_valid MAX MAX_DEPTH p = true) (hc : components p = []) :
    tree_create MAX MAX_DEPTH tree p = (EEXIST, tree) := by
  simp [tree_create, hv, hc, make_path_to_parent]

theorem tree_create_concat (MAX MAX_DEPTH : Nat) (tree : Tree) (p : String) (pp : Path)
    (c : String) (hv : is_path_valid MAX MAX_DEPTH p = true) (hc : components p = pp ++ [c]) :
    tree_create MAX MAX_DEPTH tree p =
      match node_find_safe tree pp with
      | none => (ENOENT, tree)
      | some parent =>
        if (hmap_get parent.hmap c).isSome then (EEXIST, tree)
        else (0, node_modify tree pp (fun m => hmap_insert m c tree_new)) := by
  simp only [tree_create, hv, hc, make_path_to_parent_concat, node_find_eq]
  rfl

theorem tree_remove_root (MAX MAX_DEPTH : Nat) (tree : Tree) (p : String)
    (hv : is_path_valid MAX MAX_DEPTH p = true) (hc : components p = []) :
    tree_remove MAX MAX_DEPTH tree p = (EBUSY, tree) := by
  simp [tree_remove, hv, hc, make_path_to_parent]

theorem tree_remove_concat (MAX MAX_DEPTH : Nat) (tree : Tree) (p : String) (pp : Path)
    (c : String) (hv : is_path_valid MAX MAX_DEPTH p = true) (hc : components p = pp ++ [c]) :
    tree_remove MAX MAX_DEPTH tree p =
      match node_find_safe tree pp with
      | none => (ENOENT, tree)
      | some parent =>
        match hmap_get parent.hmap c with
        | none => (ENOENT, tree)
        | some node =>
          if hmap_size node.hmap ≠ 0 then (ENOTEMPTY, tree)
          else (0, node_modify tree pp (fun m => hmap_remove m c)) := by
  simp only [tree_remove, hv, hc, make_path_to_parent_concat, node_find_eq]
  rfl

theorem path_exists_concat (tree : Tree) (pp : Path) (c : String) :
    path_exists tree (pp ++ [c]) ↔
      ∃ parent node, node_find_safe tree pp = some parent ∧ hmap_get parent.hmap c = some node := by
  unfold path_exists
  rw [node_find_safe_append]
  cases hp : node_find_safe tree pp with
  | none => simp
  | some parent =>
    simp only [Option.some_bind, node_find_safe, Option.some.injEq, exists_and_left,
      exists_eq_left']
    cases hmap_get parent.hmap c with
    | none => simp
    | some node => simp

theorem path_exists_tree_new (r : Path) : path_exists tree_new r ↔ r = [] := by
  cases r with
  | nil => simp [path_exists, node_find_safe]
  | cons d r1 => simp [path_exists, node_find_safe, tree_new, hmap_new, hmap_get]

theorem path_exists_of_hmap_nil (node : Tree) (h : node.hmap = []) (r : Path) :
    path_exists node r ↔ r = [] := by
  cases r with
  | nil => simp [path_exists, node_find_safe]
  | cons d r1 => simp [path_exists, node_find_safe, h, hmap_get]

theorem hmap_ne_nil_iff {α : Type} (m : HashMap α) :
    m ≠ [] ↔ ∃ name, (hmap_get m name).isSome = true := by
  cases m with
  | nil => simp [hmap_get]
  | cons e rest =>
    simp only [ne_eq, reduceCtorEq, not_false_eq_true, true_iff]
    exact ⟨e.1, by simp [hmap_get]⟩

theorem has_child_iff (tree : Tree) (p : Path) (node : Tree)
    (h : node_find_safe tree p = some node) :
    (∃ name, path_exists tree (p ++ [name])) ↔ node.hmap ≠ [] := by
  rw [hmap_ne_nil_iff]
  constructor
  · rintro ⟨name, hx⟩
    rw [path_exists_concat] at hx
    obtain ⟨parent, n, h1, h2⟩ := hx
    rw [h] at h1
    simp only [Option.some.injEq] at h1
    subst h1
    exact ⟨name, by rw [h2]; rfl⟩
  · rintro ⟨name, hx⟩
    refine ⟨name, ?_⟩
    rw [path_exists_concat]
    cases hg : hmap_get node.hmap name with
    | none => rw [hg] at hx; simp at hx
    | some n => exact ⟨node, n, h, hg⟩

theorem path_nil_or_concat (p : Path) : p = [] ∨ ∃ pp c, p = pp ++ [c] := by
  rcases List.eq_nil_or_concat p with h | ⟨pp, c, h⟩
  · exact Or.inl h
  · exact Or.inr ⟨pp, c, by rw [h, List.concat_eq_append]⟩

theorem components_ne_nil_of_ne_root (MAX MAX_DEPTH : Nat) (p : String)
    (hv : is_path_valid MAX MAX_DEPTH p = true) (hp : p ≠ "/") : components p ≠ [] :=
  fun hc => hp (eq_root_of_components_eq_nil MAX MAX_DEPTH p hv hc)

theorem ne_root_of_components_concat (p : String) (pp : Path) (c : String)
    (hc : components p = pp ++ [c]) : p ≠ "/" := by
  intro e
  subst e
  rw [components_root] at hc
  simp at hc

/-- The result of a successful insertion of an empty node under `pp`. -/
theorem create_post (tree : Tree) (pp : Path) (c : String) (parent : Tree)
    (hp : node_find_safe tree pp = some parent) (hg : hmap_get parent.hmap c = none) :
    node_find_safe (node_modify tree pp (fun m => hmap_insert m c tree_new)) (pp ++ [c])
        = some tree_new ∧
      ∀ q, q ≠ pp ++ [c] →
        (path_exists (node_modify tree pp (fun m => hmap_insert m c tree_new)) q ↔
          path_exists tree q) := by
  constructor
  · rw [find_modify_append tree pp [c] _ parent hp]
    simp [node_find_safe, hmap_get_insert _ _ _ _ hg]
  · intro q hq
    rw [exists_modify_insert tree pp q c tree_new parent hp hg]
    constructor
    · rintro (hx | ⟨r, e, hr⟩)
      · exact hx
      · rw [path_exists_tree_new] at hr
        subst hr
        exact absurd e hq
    · intro hx; exact Or.inl hx

/-- The result of a successful removal of the childless node `c` under `pp`. -/
theorem remove_post (tree : Tree) (pp : Path) (c : String) (parent node : Tree)
    (hp : node_find_safe tree pp = some parent) (hg : hmap_get parent.hmap c = some node)
    (he : node.hmap = []) :
    ¬ path_exists (node_modify tree pp (fun m => hmap_remove m c)) (pp ++ [c]) ∧
      ∀ q, q ≠ pp ++ [c] →
        (path_exists (node_modify tree pp (fun m => hmap_remove m c)) q ↔
          path_exists tree q) := by
  have hnode : node_find_safe tree (pp ++ [c]) = some node := by
    rw [node_find_safe_append, hp]
    simp [node_find_safe, hg]
  constructor
  · rw [exists_modify_remove tree pp _ c parent hp]
    rintro ⟨_, hx⟩
    exact hx ⟨[], rfl⟩
  · intro q hq
    rw [exists_modify_remove tree pp q c parent hp]
    constructor
    · intro hx; exact hx.1
    · intro hx
      refine ⟨hx, ?_⟩
      rintro ⟨r, e⟩
      subst e
      have h1 : path_exists node r := by
        have e2 : pp ++ c :: r = (pp ++ [c]) ++ r := by simp
        unfold path_exists at hx ⊢
        rw [e2, node_find_safe_append, hnode] at hx
        exact hx
      rw [path_exists_of_hmap_nil node he] at h1
      subst h1
      exact hq rfl

/-- C4: for a valid path `p`, `tree_create` returns EEXIST if `p` is `/` or
already exists, ENOENT if the parent of `p` does not exist, and 0 otherwise;
when it returns 0, afterwards the node at `p` exists and is an empty node (no
children), and every other path exists afterwards iff it existed before. -/
theorem tree_create_spec (MAX MAX_DEPTH : Nat) (tree : Tree) (p : String)
    (hv : is_path_valid MAX MAX_DEPTH p = true) :
    (tree_create MAX MAX_DEPTH tree p).1 =
        (if p = "/" ∨ path_exists tree (components p) then EEXIST
         else if ¬ path_exists tree (components p).dropLast then ENOENT
         else 0) ∧
      ((tree_create MAX MAX_DEPTH tree p).1 = 0 →
        node_find_safe (tree_create MAX MAX_DEPTH tree p).2 (components p) = some tree_new ∧
        (∀ name, ¬ path_exists (tree_create MAX MAX_DEPTH tree p).2 (components p ++ [name])) ∧
        ∀ q, q ≠ components p →
          (path_exists (tree_create MAX MAX_DEPTH tree p).2 q ↔ path_exists tree q)) := by
  rcases path_nil_or_concat (components p) with hc | ⟨pp, c, hc⟩
  · have hp := eq_root_of_components_eq_nil MAX MAX_DEPTH p hv hc
    rw [tree_create_root MAX MAX_DEPTH tree p hv hc]
    simp [hp, EEXIST]
  · have hp := ne_root_of_components_concat p pp c hc
    rw [tree_create_concat MAX MAX_DEPTH tree p pp c hv hc, hc]
    simp only [hp, false_or, List.dropLast_concat]
    cases hf : node_find_safe tree pp with
    | none =>
      have h1 : ¬ path_exists tree (pp ++ [c]) := by
        rw [path_exists_concat]; simp [hf]
      have h2 : ¬ path_exists tree pp := by simp [path_exists, hf]
      simp [h1, h2, ENOENT]
    | some parent =>
      have h2 : path_exists tree pp := by simp [path_exists, hf]
      cases hg : hmap_get parent.hmap c with
      | some node =>
        have h1 : path_exists tree (pp ++ [c]) := by
          rw [path_exists_concat]; exact ⟨parent, node, hf, hg⟩
        simp [h1, hg, EEXIST]
      | none =>
        have h1 : ¬ path_exists tree (pp ++ [c]) := by
          rw [path_exists_concat]; simp [hf, hg]
        obtain ⟨hpost1, hpost2⟩ := create_post tree pp c parent hf hg
        simp only [hg, Option.isSome_none, Bool.false_eq_true, if_false, h1, h2,
          not_true_eq_false, true_and, forall_const]
        refine ⟨hpost1, ?_, hpost2⟩
        intro name hx
        have e2 : pp ++ [c] ++ [name] = (pp ++ [c]) ++ [name] := rfl
        unfold path_exists at hx
        rw [node_find_safe_append, hpost1] at hx
        simp [node_find_safe, tree_new, hmap_new, hmap_get] at hx

/-- C5: for a valid path `p`, `tree_remove` returns EBUSY if `p` is `/`;
otherwise ENOENT if `p` does not exist; otherwise ENOTEMPTY if `p` has at
least one child; otherwise 0, and then afterwards `p` does not exist and every
other path exists iff it existed before. -/
theorem tree_remove_spec (MAX MAX_DEPTH : Nat) (tree : Tree) (p : String)
    (hv : is_path_valid MAX MAX_DEPTH p = true) :
    (p = "/" → (tree_remove MAX MAX_DEPTH tree p).1 = EBUSY) ∧
      (p ≠ "/" → ¬ path_exists tree (components p) →
        (tree_remove MAX MAX_DEPTH tree p).1 = ENOENT) ∧
      (p ≠ "/" → path_exists tree (components p) →
        (∃ name, path_exists tree (components p ++ [name])) →
        (tree_remove MAX MAX_DEPTH tree p).1 = ENOTEMPTY) ∧
      (p ≠ "/" → path_exists tree (components p) →
        (¬ ∃ name, path_exists tree (components p ++ [name])) →
        (tree_remove MAX MAX_DEPTH tree p).1 = 0) ∧
      ((tree_remove MAX MAX_DEPTH tree p).1 = 0 →
        ¬ path_exists (tree_remove MAX MAX_DEPTH tree p).2 (components p) ∧
        ∀ q, q ≠ components p →
          (path_exists (tree_remove MAX MAX_DEPTH tree p).2 q ↔ path_exists tree q)) := by
  rcases path_nil_or_concat (components p) with hc | ⟨pp, c, hc⟩
  · have hp := eq_root_of_components_eq_nil MAX MAX_DEPTH p hv hc
    rw [tree_remove_root MAX MAX_DEPTH tree p hv hc]
    simp [hp, EBUSY]
  · have hp := ne_root_of_components_concat p pp c hc
    rw [tree_remove_concat MAX MAX_DEPTH tree p pp c hv hc, hc]
    simp only [hp, false_implies, true_and, ne_eq, not_false_eq_true, true_implies]
    cases hf : node_find_safe tree pp with
    | none =>
      have h1 : ¬ path_exists tree (pp ++ [c]) := by
        rw [path_exists_concat]; simp [hf]
      simp [h1, ENOENT]
    | some parent =>
      cases hg : hmap_get parent.hmap c with
      | none =>
        have h1 : ¬ path_exists tree (pp ++ [c]) := by
          rw [path_exists_concat]; simp [hf, hg]
        simp [h1, hg, ENOENT]
      | some node =>
        have h1 : path_exists tree (pp ++ [c]) := by
          rw [path_exists_concat]; exact ⟨parent, node, hf, hg⟩
        have hnode : node_find_safe tree (pp ++ [c]) = some node := by
          rw [node_find_safe_append, hf]
          simp [node_find_safe, hg]
        have hch := has_child_iff tree (pp ++ [c]) node hnode
        by_cases he : node.hmap = []
        · have hsz : hmap_size node.hmap = 0 := by simp [hmap_size, he]
          have hno : ¬ ∃ name, path_exists tree (pp ++ [c] ++ [name]) := by
            rw [hch]; simp [he]
          obtain ⟨hpost1, hpost2⟩ := remove_post tree pp c parent node hf hg he
          simp only [hg, hsz, ne_eq, not_true_eq_false, if_false, h1, hno, not_false_eq_true,
            true_implies, false_implies, true_and, forall_const]
          exact ⟨hpost1, hpost2⟩
        · have hsz : hmap_size node.hmap ≠ 0 := by
            simp only [hmap_size, ne_eq, List.length_eq_zero]; exact he
          have hyes : ∃ name, path_exists tree (pp ++ [c] ++ [name]) := by
            rw [hch]; exact he
          have hyes2 : ∃ x, path_exists tree (pp ++ [c, x]) := by
            obtain ⟨x, hx⟩ := hyes
            exact ⟨x, by simpa using hx⟩
          simp [hg, hsz, h1, hyes2, ENOTEMPTY]

/-! ## Lemmas on the common part of two paths -/

theorem common_components_self_append (s r : Path) : common_components s (s ++ r) = s := by
  induction s with
  | nil => cases r <;> rfl
  | cons a s ih => simp [common_components, ih]

theorem common_components_append_self (t r : Path) : common_components (t ++ r) t = t := by
  induction t with
  | nil => cases r <;> rfl
  | cons a t ih => simp [common_components, ih]

theorem common_components_separate (c : Path) (a b : String) (s t : Path) (hab : a ≠ b) :
    common_components (c ++ a :: s) (c ++ b :: t) = c := by
  induction c with
  | nil => simp [common_components, hab]
  | cons x c ih => simp [common_components, ih]

theorem path_trichotomy (s t : Path) :
    (∃ r, t = s ++ r) ∨ (∃ r, s = t ++ r) ∨
      ∃ c a b s1 t1, a ≠ b ∧ s = c ++ a :: s1 ∧ t = c ++ b :: t1 := by
  induction s generalizing t with
  | nil => exact Or.inl ⟨t, rfl⟩
  | cons a s ih =>
    cases t with
    | nil => exact Or.inr (Or.inl ⟨a :: s, rfl⟩)
    | cons b t =>
      by_cases hab : a = b
      · subst hab
        rcases ih t with ⟨r, h⟩ | ⟨r, h⟩ | ⟨c, x, y, s1, t1, hxy, h1, h2⟩
        · exact Or.inl ⟨r, by rw [h]; rfl⟩
        · exact Or.inr (Or.inl ⟨r, by rw [h]; rfl⟩)
        · exact Or.inr (Or.inr ⟨a :: c, x, y, s1, t1, hxy, by rw [h1]; rfl, by rw [h2]; rfl⟩)
      · exact Or.inr (Or.inr ⟨[], a, b, s, t, hab, rfl, rfl⟩)

theorem separate_not_extension (c : Path) (a b : String) (s t r : Path) (hab : a ≠ b) :
    c ++ a :: s ≠ (c ++ b :: t) ++ r := by
  intro e
  rw [List.append_assoc] at e
  have e2 := List.append_cancel_left e
  simp only [List.cons_append, List.cons.injEq] at e2
  exact hab e2.1

/-! ## `move_check_cases` -/

theorem move_check_cases_separate (tree : Tree) (c : Path) (a b : String) (s t : Path) :
    move_check_cases tree (c ++ a :: s) (c ++ b :: t) c.length = 0 := by
  simp [move_check_cases, ROOT]

theorem move_check_cases_source_inside (tree : Tree) (s r : Path) (hs : s ≠ []) (hr : r ≠ []) :
    move_check_cases tree s (s ++ r) s.length = ENOENT := by
  simp [move_check_cases, ROOT, hs, hr]

theorem move_check_cases_same (tree : Tree) (s : Path) (hs : s ≠ []) :
    move_check_cases tree s s s.length =
      if path_exists tree s then EEXIST else ENOENT := by
  simp only [move_check_cases, ROOT, hs, if_false, List.drop_length, decide_True, Bool.and_self,
    if_true, node_find_eq, path_exists]
  by_cases hx : (node_find_safe tree s).isSome = true
  · rw [if_pos hx]
    obtain ⟨n, hn⟩ := Option.isSome_iff_exists.mp hx
    rw [hn]
  · rw [if_neg hx]
    have hn : node_find_safe tree s = none := by simpa using hx
    rw [hn]

theorem move_check_cases_target_inside (tree : Tree) (t r : Path) (ht : t ≠ []) (hr : r ≠ []) :
    move_check_cases tree (t ++ r) t t.length =
      if path_exists tree t then EEXIST else ENOENT := by
  simp only [move_check_cases, ROOT, ht, if_false, List.drop_length, decide_True,
    List.append_eq_nil, false_and, List.drop_left, hr, decide_False, Bool.false_and,
    Bool.false_eq_true, if_true, node_find_eq, path_exists]
  by_cases hx : (node_find_safe tree t).isSome = true
  · rw [if_pos hx]
    obtain ⟨n, hn⟩ := Option.isSome_iff_exists.mp hx
    rw [hn]
  · rw [if_neg hx]
    have hn : node_find_safe tree t = none := by simpa using hx
    rw [hn]

/-! ## `tree_move` case by case -/

theorem node_find_safe_single (node : Tree) (c : String) :
    node_find_safe node [c] = hmap_get node.hmap c := by
  simp only [node_find_safe]
  cases hmap_get node.hmap c <;> rfl

theorem tree_move_invalid (MAX MAX_DEPTH : Nat) (tree : Tree) (source target : String)
    (h : is_path_valid MAX MAX_DEPTH source = false ∨ is_path_valid MAX MAX_DEPTH target = false) :
    tree_move MAX MAX_DEPTH tree source target = (EINVAL, tree) := by
  rcases h with h | h <;> simp [tree_move, h]

theorem tree_move_special (MAX MAX_DEPTH : Nat) (tree : Tree) (source target : String)
    (hs : is_path_valid MAX MAX_DEPTH source = true)
    (ht : is_path_valid MAX MAX_DEPTH target = true)
    (hc : move_check_cases tree (components source) (components target)
      (common_components (components source) (components target)).length ≠ 0) :
    tree_move MAX MAX_DEPTH tree source target =
      (move_check_cases tree (components source) (components target)
        (common_components (components source) (components target)).length, tree) := by
  simp [tree_move, hs, ht, find_common_path, hc]

theorem tree_move_separate (MAX MAX_DEPTH : Nat) (tree : Tree) (source target : String)
    (c : Path) (a b : String) (s1 t1 : Path)
    (hs : is_path_valid MAX MAX_DEPTH source = true)
    (ht : is_path_valid MAX MAX_DEPTH target = true)
    (hS : components source = c ++ a :: s1) (hT : components target = c ++ b :: t1)
    (hab : a ≠ b) :
    ∃ sp s_last tp t_last, a :: s1 = sp ++ [s_last] ∧ b :: t1 = tp ++ [t_last] ∧
      tree_move MAX MAX_DEPTH tree source target =
        move_separate tree (c ++ sp) s_last (c ++ tp) t_last := by
  rcases path_nil_or_concat (a :: s1) with h | ⟨sp, s_last, hsp⟩
  · simp at h
  rcases path_nil_or_concat (b :: t1) with h | ⟨tp, t_last, htp⟩
  · simp at h
  refine ⟨sp, s_last, tp, t_last, hsp, htp, ?_⟩
  have hcc : common_components (components source) (components target) = c := by
    rw [hS, hT]; exact common_components_separate c a b s1 t1 hab
  have hmc : move_check_cases tree (components source) (components target) c.length = 0 := by
    rw [hS, hT]; exact move_check_cases_separate tree c a b s1 t1
  have hds : (components source).drop c.length = sp ++ [s_last] := by
    rw [hS, List.drop_left, hsp]
  have hdt : (components target).drop c.length = tp ++ [t_last] := by
    rw [hT, List.drop_left, htp]
  simp only [tree_move, hs, ht, Bool.not_true, Bool.or_self, Bool.false_eq_true, if_false,
    find_common_path, hcc, hmc, hds, hdt, ne_eq, not_true_eq_false,
    make_path_to_parent_concat, node_find_eq, move_separate, List.append_assoc]
  rw [node_find_safe_append tree c (sp ++ [s_last]), node_find_safe_append tree c tp]
  cases hl : node_find_safe tree c with
  | none => rfl
  | some lca =>
    simp only [Option.some_bind]
    rw [node_find_safe_append lca sp [s_last]]
    simp only [node_find_safe_single]

theorem tree_move_root_source (MAX MAX_DEPTH : Nat) (tree : Tree) (source target : String)
    (hs : is_path_valid MAX MAX_DEPTH source = true)
    (ht : is_path_valid MAX MAX_DEPTH target = true)
    (hS : components source = []) :
    tree_move MAX MAX_DEPTH tree source target = (EBUSY, tree) := by
  have h : ∀ idx, move_check_cases tree (components source) (components target) idx = EBUSY := by
    intro idx; simp [move_check_cases, ROOT, hS]
  rw [tree_move_special MAX MAX_DEPTH tree source target hs ht (by rw [h]; decide), h]

theorem tree_move_root_target (MAX MAX_DEPTH : Nat) (tree : Tree) (source target : String)
    (hs : is_path_valid MAX MAX_DEPTH source = true)
    (ht : is_path_valid MAX MAX_DEPTH target = true)
    (hS : components source ≠ []) (hT : components target = []) :
    tree_move MAX MAX_DEPTH tree source target = (EEXIST, tree) := by
  have h : ∀ idx, move_check_cases tree (components source) (components target) idx = EEXIST := by
    intro idx; simp [move_check_cases, ROOT, hS, hT]
  rw [tree_move_special MAX MAX_DEPTH tree source target hs ht (by rw [h]; decide), h]

theorem tree_move_same (MAX MAX_DEPTH : Nat) (tree : Tree) (source target : String)
    (hs : is_path_valid MAX MAX_DEPTH source = true)
    (ht : is_path_valid MAX MAX_DEPTH target = true)
    (hS : components source ≠ []) (hT : components target = components source) :
    tree_move MAX MAX_DEPTH tree source target =
      (if path_exists tree (components source) then EEXIST else ENOENT, tree) := by
  have h : move_check_cases tree (components source) (components target)
      (common_components (components source) (components target)).length =
      if path_exists tree (components source) then EEXIST else ENOENT := by
    rw [hT]
    have e := common_components_self_append (components source) []
    rw [List.append_nil] at e
    rw [e]
    exact move_check_cases_same tree (components source) hS
  rw [tree_move_special MAX MAX_DEPTH tree source target hs ht (by rw [h]; split <;> decide), h]

theorem tree_move_source_inside (MAX MAX_DEPTH : Nat) (tree : Tree) (source target : String)
    (r : Path)
    (hs : is_path_valid MAX MAX_DEPTH source = true)
    (ht : is_path_valid MAX MAX_DEPTH target = true)
    (hS : components source ≠ []) (hT : components target = components source ++ r)
    (hr : r ≠ []) :
    tree_move MAX MAX_DEPTH tree source target = (ENOENT, tree) := by
  have h : move_check_cases tree (components source) (components target)
      (common_components (components source) (components target)).length = ENOENT := by
    rw [hT, common_components_self_append]
    exact move_check_cases_source_inside tree (components source) r hS hr
  rw [tree_move_special MAX MAX_DEPTH tree source target hs ht (by rw [h]; decide), h]

theorem tree_move_target_inside (MAX MAX_DEPTH : Nat) (tree : Tree) (source target : String)
    (r : Path)
    (hs : is_path_valid MAX MAX_DEPTH source = true)
    (ht : is_path_valid MAX MAX_DEPTH target = true)
    (hT : components target ≠ []) (hS : components source = components target ++ r)
    (hr : r ≠ []) :
    tree_move MAX MAX_DEPTH tree source target =
      (if path_exists tree (components target) then EEXIST else ENOENT, tree) := by
  have h : move_check_cases tree (components source) (components target)
      (common_components (components source) (components target)).length =
      if path_exists tree (components target) then EEXIST else ENOENT := by
    rw [hS, common_components_append_self]
    exact move_check_cases_target_inside tree (components target) r hT hr
  rw [tree_move_special MAX MAX_DEPTH tree source target hs ht (by rw [h]; split <;> decide), h]

/-- When one path continues the other (or they are equal, or one is the
root) the move fails and the tree is not touched. -/
theorem tree_move_nested (MAX MAX_DEPTH : Nat) (tree : Tree) (source target : String)
    (hs : is_path_valid MAX MAX_DEPTH source = true)
    (ht : is_path_valid MAX MAX_DEPTH target = true)
    (h : (∃ r, components target = components source ++ r) ∨
      (∃ r, components source = components target ++ r)) :
    (tree_move MAX MAX_DEPTH tree source target).1 ≠ 0 ∧
      (tree_move MAX MAX_DEPTH tree source target).2 = tree := by
  by_cases hS : components source = []
  · rw [tree_move_root_source MAX MAX_DEPTH tree source target hs ht hS]
    exact ⟨by simp [EBUSY, EEXIST, ENOENT], rfl⟩
  by_cases hT : components target = []
  · rw [tree_move_root_target MAX MAX_DEPTH tree source target hs ht hS hT]
    exact ⟨by simp [EBUSY, EEXIST, ENOENT], rfl⟩
  rcases h with ⟨r, h⟩ | ⟨r, h⟩
  · by_cases hr : r = []
    · subst hr
      rw [List.append_nil] at h
      rw [tree_move_same MAX MAX_DEPTH tree source target hs ht hS h]
      exact ⟨by dsimp only; split <;> decide, rfl⟩
    · rw [tree_move_source_inside MAX MAX_DEPTH tree source target r hs ht hS h hr]
      exact ⟨by simp [EBUSY, EEXIST, ENOENT], rfl⟩
  · by_cases hr : r = []
    · subst hr
      rw [List.append_nil] at h
      rw [tree_move_same MAX MAX_DEPTH tree source target hs ht hS h.symm]
      exact ⟨by dsimp only; split <;> decide, rfl⟩
    · rw [tree_move_target_inside MAX MAX_DEPTH tree source target r hs ht hT h hr]
      exact ⟨by dsimp only; split <;> decide, rfl⟩

/-! ## The main case of a move -/

theorem move_separate_code (tree : Tree) (sp : Path) (s_last : String) (tp : Path)
    (t_last : String) :
    (move_separate tree sp s_last tp t_last).1 =
      if ¬ path_exists tree (sp ++ [s_last]) then ENOENT
      else if ¬ path_exists tree tp then ENOENT
      else if path_exists tree (tp ++ [t_last]) then EEXIST
      else 0 := by
  unfold move_separate
  cases hsn : node_find_safe tree (sp ++ [s_last]) with
  | none => simp [path_exists, hsn]
  | some s_node =>
    have h1 : path_exists tree (sp ++ [s_last]) := by simp [path_exists, hsn]
    cases htp : node_find_safe tree tp with
    | none => simp [path_exists, hsn, htp]
    | some t_parent =>
      have h2 : path_exists tree tp := by simp [path_exists, htp]
      have h3 : path_exists tree (tp ++ [t_last]) ↔ (hmap_get t_parent.hmap t_last).isSome := by
        unfold path_exists
        rw [node_find_safe_append, htp, Option.some_bind, node_find_safe_single]
      by_cases hg : (hmap_get t_parent.hmap t_last).isSome = true
      · simp [h1, h2, h3, hg]
      · simp [h1, h2, h3, hg]

theorem move_separate_unchanged (tree : Tree) (sp : Path) (s_last : String) (tp : Path)
    (t_last : String) (h : (move_separate tree sp s_last tp t_last).1 ≠ 0) :
    (move_separate tree sp s_last tp t_last).2 = tree := by
  unfold move_separate at h ⊢
  cases hsn : node_find_safe tree (sp ++ [s_last]) with
  | none => rfl
  | some s_node =>
    cases htp : node_find_safe tree tp with
    | none => rfl
    | some t_parent =>
      by_cases hg : (hmap_get t_parent.hmap t_last).isSome = true
      · simp [hg]
      · simp [hsn, htp, hg] at h

theorem separate_apart (c : Path) (a b : String) (s1 t1 : Path) (hab : a ≠ b) (r r2 : Path) :
    (c ++ a :: s1) ++ r ≠ (c ++ b :: t1) ++ r2 := by
  intro e
  rw [List.append_assoc, List.append_assoc] at e
  have e2 := List.append_cancel_left e
  simp only [List.cons_append, List.cons.injEq] at e2
  exact hab e2.1

/-- A successful main-case move: the result tree and the facts found on the way. -/
theorem move_separate_ok (tree : Tree) (sp : Path) (s_last : String) (tp : Path)
    (t_last : String) (h : (move_separate tree sp s_last tp t_last).1 = 0) :
    ∃ s_node t_parent, node_find_safe tree (sp ++ [s_last]) = some s_node ∧
      node_find_safe tree tp = some t_parent ∧ hmap_get t_parent.hmap t_last = none ∧
      (move_separate tree sp s_last tp t_last).2 =
        node_modify (node_modify tree tp (fun m => hmap_insert m t_last s_node)) sp
          (fun m => hmap_remove m s_last) := by
  unfold move_separate at h ⊢
  cases hsn : node_find_safe tree (sp ++ [s_last]) with
  | none => simp [hsn, ENOENT] at h
  | some s_node =>
    cases htp : node_find_safe tree tp with
    | none => simp [hsn, htp, ENOENT] at h
    | some t_parent =>
      cases hg : hmap_get t_parent.hmap t_last with
      | some x => simp [hsn, htp, hg, EEXIST] at h
      | none => exact ⟨s_node, t_parent, rfl, rfl, hg, by simp [hg]⟩

theorem move_separate_paths (tree : Tree) (sp : Path) (s_last : String) (tp : Path)
    (t_last : String)
    (hsep : ∀ r r2, (sp ++ [s_last]) ++ r ≠ (tp ++ [t_last]) ++ r2)
    (h : (move_separate tree sp s_last tp t_last).1 = 0) (q : Path) :
    path_exists (move_separate tree sp s_last tp t_last).2 q ↔
      (path_exists tree q ∧ ¬ ∃ r, q = (sp ++ [s_last]) ++ r) ∨
      ∃ r, q = (tp ++ [t_last]) ++ r ∧ path_exists tree ((sp ++ [s_last]) ++ r) := by
  obtain ⟨s_node, t_parent, hsn, htp, hg, htree⟩ := move_separate_ok tree sp s_last tp t_last h
  rw [htree]
  have hsub : ∀ r, path_exists s_node r ↔ path_exists tree ((sp ++ [s_last]) ++ r) := by
    intro r
    unfold path_exists
    rw [node_find_safe_append tree (sp ++ [s_last]) r, hsn, Option.some_bind]
  have h1 : ∀ q, path_exists (node_modify tree tp (fun m => hmap_insert m t_last s_node)) q ↔
      path_exists tree q ∨ ∃ r, q = tp ++ t_last :: r ∧ path_exists s_node r :=
    fun q => exists_modify_insert tree tp q t_last s_node t_parent htp hg
  have hsp : path_exists (node_modify tree tp (fun m => hmap_insert m t_last s_node)) sp := by
    rw [h1]
    exact Or.inl (path_exists_of_append tree sp [s_last] (by simp [path_exists, hsn]))
  obtain ⟨s_parent1, hsp1⟩ := Option.isSome_iff_exists.mp hsp
  rw [exists_modify_remove _ sp q s_last s_parent1 hsp1, h1]
  constructor
  · rintro ⟨hx | ⟨r, e, hr⟩, hno⟩
    · refine Or.inl ⟨hx, ?_⟩
      rintro ⟨r, e⟩
      exact hno ⟨r, by rw [e]; simp⟩
    · exact Or.inr ⟨r, by rw [e]; simp, (hsub r).mp hr⟩
  · rintro (⟨hx, hno⟩ | ⟨r, e, hr⟩)
    · refine ⟨Or.inl hx, ?_⟩
      rintro ⟨r, e⟩
      exact hno ⟨r, by rw [e]; simp⟩
    · refine ⟨Or.inr ⟨r, by rw [e]; simp, (hsub r).mpr hr⟩, ?_⟩
      rintro ⟨r2, e2⟩
      apply hsep r2 r
      rw [← e, e2]; simp

theorem move_separate_subtree (tree : Tree) (sp : Path) (s_last : String) (tp : Path)
    (t_last : String)
    (hsep : ∀ r r2, (sp ++ [s_last]) ++ r ≠ (tp ++ [t_last]) ++ r2)
    (h : (move_separate tree sp s_last tp t_last).1 = 0) :
    node_find_safe (move_separate tree sp s_last tp t_last).2 (tp ++ [t_last]) =
      node_find_safe tree (sp ++ [s_last]) := by
  obtain ⟨s_node, t_parent, hsn, htp, hg, htree⟩ := move_separate_ok tree sp s_last tp t_last h
  rw [htree, hsn]
  have h1 : node_find_safe (node_modify tree tp (fun m => hmap_insert m t_last s_node))
      (tp ++ [t_last]) = some s_node := by
    rw [find_modify_append tree tp [t_last] _ t_parent htp]
    simp [node_find_safe, hmap_get_insert _ _ _ _ hg]
  have hsp : path_exists (node_modify tree tp (fun m => hmap_insert m t_last s_node)) sp := by
    rw [exists_modify_insert tree tp sp t_last s_node t_parent htp hg]
    exact Or.inl (path_exists_of_append tree sp [s_last] (by simp [path_exists, hsn]))
  obtain ⟨s_parent1, hsp1⟩ := Option.isSome_iff_exists.mp hsp
  by_cases hext : ∃ r, tp ++ [t_last] = sp ++ r
  · obtain ⟨r, e⟩ := hext
    rw [e, find_modify_append _ sp r _ s_parent1 hsp1]
    rw [e, node_find_safe_append _ sp r, hsp1, Option.some_bind] at h1
    rw [← h1]
    cases r with
    | nil =>
      exfalso
      apply hsep [] [s_last]
      rw [e]; simp
    | cons d r1 =>
      have hd : d ≠ s_last := by
        intro hd
        subst hd
        apply hsep r1 []
        rw [e]; simp
      simp [node_find_safe, hmap_get_remove, hd]
  · rw [find_modify_other _ sp (tp ++ [t_last]) _ (fun r e => hext ⟨r, e⟩) ?_, h1]
    intro r e
    apply hsep [] (r ++ [s_last])
    rw [e]; simp

theorem concat_inj (p q : Path) (x y : String) (h : p ++ [x] = q ++ [y]) : p = q ∧ x = y := by
  have h2 := List.append_inj' h rfl
  exact ⟨h2.1, by simpa using h2.2⟩

theorem apart_of_not_nested (s t : Path) (h1 : ¬ ∃ r, t = s ++ r) (h2 : ¬ ∃ r, s = t ++ r) :
    ∀ r r2, s ++ r ≠ t ++ r2 := by
  rcases path_trichotomy s t with h | h | ⟨c, a, b, s1, t1, hab, hs, ht⟩
  · exact absurd h h1
  · exact absurd h h2
  · intro r r2
    rw [hs, ht]
    exact separate_apart c a b s1 t1 hab r r2

theorem not_nested_of_apart (s t : Path) (h : ∀ r r2, s ++ r ≠ t ++ r2) :
    (¬ ∃ r, t = s ++ r) ∧ ¬ ∃ r, s = t ++ r := by
  constructor
  · rintro ⟨r, e⟩
    exact h r [] (by rw [e]; simp)
  · rintro ⟨r, e⟩
    exact h [] r (by rw [e]; simp)

/-- The main case of `tree_move`: valid paths none of which continues the other. -/
theorem tree_move_apart (MAX MAX_DEPTH : Nat) (tree : Tree) (source target : String)
    (sp : Path) (s_last : String) (tp : Path) (t_last : String)
    (hs : is_path_valid MAX MAX_DEPTH source = true)
    (ht : is_path_valid MAX MAX_DEPTH target = true)
    (hS : components source = sp ++ [s_last]) (hT : components target = tp ++ [t_last])
    (h1 : ¬ ∃ r, components target = components source ++ r)
    (h2 : ¬ ∃ r, components source = components target ++ r) :
    tree_move MAX MAX_DEPTH tree source target = move_separate tree sp s_last tp t_last := by
  rcases path_trichotomy (components source) (components target) with
    h | h | ⟨c, a, b, s1, t1, hab, hs1, ht1⟩
  · exact absurd h h1
  · exact absurd h h2
  · obtain ⟨sp2, sl2, tp2, tl2, e1, e2, hmv⟩ :=
      tree_move_separate MAX MAX_DEPTH tree source target c a b s1 t1 hs ht hs1 ht1 hab
    rw [hmv]
    have e3 : sp ++ [s_last] = (c ++ sp2) ++ [sl2] := by
      rw [← hS, hs1, e1, List.append_assoc]
    have e4 : tp ++ [t_last] = (c ++ tp2) ++ [tl2] := by
      rw [← hT, ht1, e2, List.append_assoc]
    obtain ⟨e5, e6⟩ := concat_inj _ _ _ _ e3
    obtain ⟨e7, e8⟩ := concat_inj _ _ _ _ e4
    rw [e5, e6, e7, e8]

/-- A move that returns 0 is a main-case move of two valid paths. -/
theorem tree_move_zero (MAX MAX_DEPTH : Nat) (tree : Tree) (source target : String)
    (h : (tree_move MAX MAX_DEPTH tree source target).1 = 0) :
    is_path_valid MAX MAX_DEPTH source = true ∧ is_path_valid MAX MAX_DEPTH target = true ∧
      (¬ ∃ r, components target = components source ++ r) ∧
      (¬ ∃ r, components source = components target ++ r) ∧
      ∃ sp s_last tp t_last, components source = sp ++ [s_last] ∧
        components target = tp ++ [t_last] := by
  have hs : is_path_valid MAX MAX_DEPTH source = true := by
    by_contra hn
    rw [tree_move_invalid MAX MAX_DEPTH tree source target (Or.inl (by simpa using hn))] at h
    simp [EINVAL] at h
  have ht : is_path_valid MAX MAX_DEPTH target = true := by
    by_contra hn
    rw [tree_move_invalid MAX MAX_DEPTH tree source target (Or.inr (by simpa using hn))] at h
    simp [EINVAL] at h
  have h1 : ¬ ∃ r, components target = components source ++ r := fun hx =>
    (tree_move_nested MAX MAX_DEPTH tree source target hs ht (Or.inl hx)).1 h
  have h2 : ¬ ∃ r, components source = components target ++ r := fun hx =>
    (tree_move_nested MAX MAX_DEPTH tree source target hs ht (Or.inr hx)).1 h
  refine ⟨hs, ht, h1, h2, ?_⟩
  rcases path_nil_or_concat (components source) with e | ⟨sp, s_last, hS⟩
  · exact absurd ⟨components target, by rw [e]; rfl⟩ h1
  rcases path_nil_or_concat (components target) with e | ⟨tp, t_last, hT⟩
  · exact absurd ⟨components source, by rw [e]; rfl⟩ h2
  exact ⟨sp, s_last, tp, t_last, hS, hT⟩

theorem move_separate_zero_iff (tree : Tree) (sp : Path) (s_last : String) (tp : Path)
    (t_last : String) :
    (move_separate tree sp s_last tp t_last).1 = 0 ↔
      path_exists tree (sp ++ [s_last]) ∧ path_exists tree tp ∧
        ¬ path_exists tree (tp ++ [t_last]) := by
  rw [move_separate_code]
  by_cases h1 : path_exists tree (sp ++ [s_last]) <;>
    by_cases h2 : path_exists tree tp <;>
    by_cases h3 : path_exists tree (tp ++ [t_last]) <;>
    simp [h1, h2, h3, ENOENT, EEXIST]

/-- C1: when `tree_move` returns 0, the paths that exist afterwards are the
old paths that do not continue `source`, together with `target` followed by
`r` for every `r` such that `source` followed by `r` existed before; the node
now at `target` is the node formerly at `source` (same contents), and
`source` no longer exists. -/
theorem tree_move_paths (MAX MAX_DEPTH : Nat) (tree : Tree) (source target : String)
    (h : (tree_move MAX MAX_DEPTH tree source target).1 = 0) :
    (∀ q, path_exists (tree_move MAX MAX_DEPTH tree source target).2 q ↔
        (path_exists tree q ∧ ¬ ∃ r, q = components source ++ r) ∨
        ∃ r, q = components target ++ r ∧ path_exists tree (components source ++ r)) ∧
      node_find_safe (tree_move MAX MAX_DEPTH tree source target).2 (components target) =
        node_find_safe tree (components source) ∧
      ¬ path_exists (tree_move MAX MAX_DEPTH tree source target).2 (components source) := by
  obtain ⟨hs, ht, h1, h2, sp, s_last, tp, t_last, hS, hT⟩ :=
    tree_move_zero MAX MAX_DEPTH tree source target h
  have hmv := tree_move_apart MAX MAX_DEPTH tree source target sp s_last tp t_last hs ht hS hT h1 h2
  have hsep := apart_of_not_nested (components source) (components target) h1 h2
  rw [hmv] at h ⊢
  rw [hS, hT] at hsep ⊢
  have hpaths := move_separate_paths tree sp s_last tp t_last hsep h
  refine ⟨hpaths, move_separate_subtree tree sp s_last tp t_last hsep h, ?_⟩
  rw [hpaths]
  rintro (⟨_, hno⟩ | ⟨r, e, _⟩)
  · exact hno ⟨[], by simp⟩
  · exact hsep [] r (by rw [← e]; simp)

/-- C3: for valid paths none of which continues the other (as component
sequences; in particular both differ from the root), `tree_move` returns
ENOENT if source does not exist, otherwise ENOENT if the parent of target does
not exist, otherwise EEXIST if target exists, otherwise 0; so it returns 0
exactly when source exists, the parent of target exists and target does not. -/
theorem tree_move_code (MAX MAX_DEPTH : Nat) (tree : Tree) (source target : String)
    (hs : is_path_valid MAX MAX_DEPTH source = true)
    (ht : is_path_valid MAX MAX_DEPTH target = true)
    (h1 : ¬ ∃ r, components target = components source ++ r)
    (h2 : ¬ ∃ r, components source = components target ++ r) :
    (tree_move MAX MAX_DEPTH tree source target).1 =
        (if ¬ path_exists tree (components source) then ENOENT
         else if ¬ path_exists tree (components target).dropLast then ENOENT
         else if path_exists tree (components target) then EEXIST
         else 0) ∧
      ((tree_move MAX MAX_DEPTH tree source target).1 = 0 ↔
        path_exists tree (components source) ∧
          path_exists tree (components target).dropLast ∧
          ¬ path_exists tree (components target)) := by
  rcases path_nil_or_concat (components source) with e | ⟨sp, s_last, hS⟩
  · exact absurd ⟨components target, by rw [e]; rfl⟩ h1
  rcases path_nil_or_concat (components target) with e | ⟨tp, t_last, hT⟩
  · exact absurd ⟨components source, by rw [e]; rfl⟩ h2
  rw [tree_move_apart MAX MAX_DEPTH tree source target sp s_last tp t_last hs ht hS hT h1 h2,
    hS, hT, List.dropLast_concat]
  exact ⟨move_separate_code tree sp s_last tp t_last,
    move_separate_zero_iff tree sp s_last tp t_last⟩

/-- C10: for valid non-root paths, when target properly continues source
`tree_move` returns ENOENT (whether or not source exists); when source
properly continues target it returns EEXIST if target exists and ENOENT if
not (whether or not source exists). -/
theorem tree_move_nested_code (MAX MAX_DEPTH : Nat) (tree : Tree) (source target : String)
    (hs : is_path_valid MAX MAX_DEPTH source = true)
    (ht : is_path_valid MAX MAX_DEPTH target = true)
    (hsr : source ≠ "/") (htr : target ≠ "/") :
    (∀ r, r ≠ [] → components target = components source ++ r →
        (tree_move MAX MAX_DEPTH tree source target).1 = ENOENT) ∧
      (∀ r, r ≠ [] → components source = components target ++ r →
        (tree_move MAX MAX_DEPTH tree source target).1 =
          if path_exists tree (components target) then EEXIST else ENOENT) := by
  have hS := components_ne_nil_of_ne_root MAX MAX_DEPTH source hs hsr
  have hT := components_ne_nil_of_ne_root MAX MAX_DEPTH target ht htr
  constructor
  · intro r hr e
    rw [tree_move_source_inside MAX MAX_DEPTH tree source target r hs ht hS e hr]
  · intro r hr e
    rw [tree_move_target_inside MAX MAX_DEPTH tree source target r hs ht hT e hr]

theorem mem_child_names (tree : Tree) (q : Path) (name : String) :
    name ∈ child_names tree q ↔ path_exists tree (q ++ [name]) := by
  rw [path_exists_concat]
  unfold child_names
  cases hq : node_find_safe tree q with
  | none => simp
  | some node =>
    simp only [Option.some.injEq, exists_and_left, exists_eq_left']
    rw [← hmap_get_isSome_iff_mem_keys, Option.isSome_iff_exists]

theorem child_names_congr (t1 t2 : Tree) (h : ∀ q, path_exists t1 q ↔ path_exists t2 q)
    (q : Path) (name : String) : name ∈ child_names t1 q ↔ name ∈ child_names t2 q := by
  rw [mem_child_names, mem_child_names, h]

/-- C8: when `tree_move(a, b)` returns 0, the immediately following
`tree_move(b, a)` returns 0 as well, and afterwards exactly the paths of the
original tree exist and every node has the child names it had (the tree is
the original one up to the order of the children inside a node). -/
theorem tree_move_there_and_back (MAX MAX_DEPTH : Nat) (tree : Tree) (a b : String)
    (h : (tree_move MAX MAX_DEPTH tree a b).1 = 0) :
    (tree_move MAX MAX_DEPTH (tree_move MAX MAX_DEPTH tree a b).2 b a).1 = 0 ∧
      (∀ q, path_exists (tree_move MAX MAX_DEPTH (tree_move MAX MAX_DEPTH tree a b).2 b a).2 q ↔
        path_exists tree q) ∧
      ∀ q name,
        name ∈ child_names (tree_move MAX MAX_DEPTH (tree_move MAX MAX_DEPTH tree a b).2 b a).2 q ↔
          name ∈ child_names tree q := by
  obtain ⟨hs, ht, h1, h2, sp, s_last, tp, t_last, hS, hT⟩ :=
    tree_move_zero MAX MAX_DEPTH tree a b h
  have hmv := tree_move_apart MAX MAX_DEPTH tree a b sp s_last tp t_last hs ht hS hT h1 h2
  have hsep := apart_of_not_nested (components a) (components b) h1 h2
  rw [hS, hT] at hsep
  rw [hmv] at h ⊢
  have hsep2 : ∀ r r2, (tp ++ [t_last]) ++ r ≠ (sp ++ [s_last]) ++ r2 :=
    fun r r2 e => hsep r2 r e.symm
  have hE1 := move_separate_paths tree sp s_last tp t_last hsep h
  obtain ⟨hsrc, htpar, hntgt⟩ := (move_separate_zero_iff tree sp s_last tp t_last).mp h
  generalize (move_separate tree sp s_last tp t_last).2 = tree1 at hE1 ⊢
  rw [tree_move_apart MAX MAX_DEPTH tree1 b a tp t_last sp s_last ht hs hT hS h2 h1]
  have hback : (move_separate tree1 tp t_last sp s_last).1 = 0 := by
    rw [move_separate_zero_iff]
    refine ⟨?_, ?_, ?_⟩
    · rw [hE1]
      exact Or.inr ⟨[], by simp, by simpa using hsrc⟩
    · rw [hE1]
      refine Or.inl ⟨path_exists_of_append tree sp [s_last] hsrc, ?_⟩
      rintro ⟨r, e⟩
      have hl := congrArg List.length e
      simp at hl
    · rw [hE1]
      rintro (⟨_, hno⟩ | ⟨r, e, _⟩)
      · exact hno ⟨[], by simp⟩
      · exact hsep [] r (by rw [← e]; simp)
  have hE2 := move_separate_paths tree1 tp t_last sp s_last hsep2 hback
  have hpaths : ∀ q, path_exists (move_separate tree1 tp t_last sp s_last).2 q ↔
      path_exists tree q := by
    intro q
    rw [hE2]
    constructor
    · rintro (⟨hq, hno⟩ | ⟨r, e, hr⟩)
      · rw [hE1] at hq
        rcases hq with ⟨hq, _⟩ | ⟨r, e, _⟩
        · exact hq
        · exact absurd ⟨r, e⟩ hno
      · rw [hE1] at hr
        rcases hr with ⟨hr, _⟩ | ⟨r2, e2, hr2⟩
        · exact absurd (path_exists_of_append tree _ r hr) hntgt
        · have e3 := List.append_cancel_left e2
          subst e3
          rw [e]; exact hr2
    · intro hq
      by_cases hext : ∃ r, q = (sp ++ [s_last]) ++ r
      · obtain ⟨r, e⟩ := hext
        refine Or.inr ⟨r, e, ?_⟩
        rw [hE1]
        exact Or.inr ⟨r, rfl, by rw [← e]; exact hq⟩
      · refine Or.inl ⟨?_, ?_⟩
        · rw [hE1]
          exact Or.inl ⟨hq, hext⟩
        · rintro ⟨r, e⟩
          rw [e] at hq
          exact hntgt (path_exists_of_append tree _ r hq)
  exact ⟨hback, hpaths, child_names_congr _ _ hpaths⟩

/-- C9: for a valid path `p` whose parent exists and which does not exist
itself, `tree_create(p)` returns 0, the immediately following `tree_remove(p)`
returns 0, and afterwards exactly the paths of the original tree exist and
every node has the child names it had (the tree is the original one up to the
order of the children inside a node). -/
theorem tree_create_remove (MAX MAX_DEPTH : Nat) (tree : Tree) (p : String)
    (hv : is_path_valid MAX MAX_DEPTH p = true)
    (hpar : path_exists tree (components p).dropLast)
    (hnew : ¬ path_exists tree (components p)) :
    (tree_create MAX MAX_DEPTH tree p).1 = 0 ∧
      (tree_remove MAX MAX_DEPTH (tree_create MAX MAX_DEPTH tree p).2 p).1 = 0 ∧
      (∀ q, path_exists (tree_remove MAX MAX_DEPTH (tree_create MAX MAX_DEPTH tree p).2 p).2 q ↔
        path_exists tree q) ∧
      ∀ q name,
        name ∈ child_names (tree_remove MAX MAX_DEPTH (tree_create MAX MAX_DEPTH tree p).2 p).2 q ↔
          name ∈ child_names tree q := by
  rcases path_nil_or_concat (components p) with hc | ⟨pp, c, hc⟩
  · rw [hc] at hnew
    exact absurd (path_exists_root tree) hnew
  rw [hc] at hnew
  rw [hc, List.dropLast_concat] at hpar
  obtain ⟨parent, hf⟩ := Option.isSome_iff_exists.mp hpar
  have hg : hmap_get parent.hmap c = none := by
    cases hg : hmap_get parent.hmap c with
    | none => rfl
    | some node => exact absurd ((path_exists_concat tree pp c).mpr ⟨parent, node, hf, hg⟩) hnew
  obtain ⟨hpost1, hpost2⟩ := create_post tree pp c parent hf hg
  have hcreate : tree_create MAX MAX_DEPTH tree p =
      (0, node_modify tree pp (fun m => hmap_insert m c tree_new)) := by
    rw [tree_create_concat MAX MAX_DEPTH tree p pp c hv hc, hf]
    simp [hg]
  rw [hcreate]
  generalize node_modify tree pp (fun m => hmap_insert m c tree_new) = tree1 at hpost1 hpost2 ⊢
  have hpp1 : path_exists tree1 pp := by
    rw [hpost2 pp (by intro e; have hl := congrArg List.length e; simp at hl)]
    exact hpar
  obtain ⟨parent1, hf1⟩ := Option.isSome_iff_exists.mp hpp1
  have hg1 : hmap_get parent1.hmap c = some tree_new := by
    rw [node_find_safe_append, hf1, Option.some_bind, node_find_safe_single] at hpost1
    exact hpost1
  obtain ⟨hrem1, hrem2⟩ := remove_post tree1 pp c parent1 tree_new hf1 hg1 rfl
  have hremove : tree_remove MAX MAX_DEPTH tree1 p =
      (0, node_modify tree1 pp (fun m => hmap_remove m c)) := by
    rw [tree_remove_concat MAX MAX_DEPTH tree1 p pp c hv hc, hf1]
    simp [hg1, hmap_size, tree_new, hmap_new]
  rw [hremove]
  have hpaths : ∀ q, path_exists (node_modify tree1 pp (fun m => hmap_remove m c)) q ↔
      path_exists tree q := by
    intro q
    by_cases hq : q = pp ++ [c]
    · subst hq
      exact ⟨fun hx => absurd hx hrem1, fun hx => absurd hx hnew⟩
    · rw [hrem2 q hq, hpost2 q hq]
  exact ⟨rfl, rfl, hpaths, child_names_congr _ _ hpaths⟩

/-! ## Failed calls do not touch the tree -/

theorem tree_create_error_tree (MAX MAX_DEPTH : Nat) (tree : Tree) (p : String)
    (h : (tree_create MAX MAX_DEPTH tree p).1 ≠ 0) :
    (tree_create MAX MAX_DEPTH tree p).2 = tree := by
  unfold tree_create at h ⊢
  split
  · rfl
  · split
    · rfl
    · split
      · rfl
      · split
        · rfl
        · rename_i hv _ _ _ hpar _ _ hfind hg
          simp [hv, hpar, hfind, hg] at h

theorem tree_remove_error_tree (MAX MAX_DEPTH : Nat) (tree : Tree) (p : String)
    (h : (tree_remove MAX MAX_DEPTH tree p).1 ≠ 0) :
    (tree_remove MAX MAX_DEPTH tree p).2 = tree := by
  unfold tree_remove at h ⊢
  split
  · rfl
  · split
    · rfl
    · split
      · rfl
      · split
        · rfl
        · split
          · rfl
          · rename_i hv _ _ _ hpar _ _ hfind _ _ hg hsz
            simp [hv, hpar, hfind, hg, hsz] at h

theorem tree_move_error_tree (MAX MAX_DEPTH : Nat) (tree : Tree) (source target : String)
    (h : (tree_move MAX MAX_DEPTH tree source target).1 ≠ 0) :
    (tree_move MAX MAX_DEPTH tree source target).2 = tree := by
  by_cases hs : is_path_valid MAX MAX_DEPTH source = true
  · by_cases ht : is_path_valid MAX MAX_DEPTH target = true
    · by_cases hn : (∃ r, components target = components source ++ r) ∨
          (∃ r, components source = components target ++ r)
      · exact (tree_move_nested MAX MAX_DEPTH tree source target hs ht hn).2
      · have h1 : ¬ ∃ r, components target = components source ++ r := fun hx => hn (Or.inl hx)
        have h2 : ¬ ∃ r, components source = components target ++ r := fun hx => hn (Or.inr hx)
        rcases path_nil_or_concat (components source) with e | ⟨sp, s_last, hS⟩
        · exact absurd ⟨components target, by rw [e]; rfl⟩ h1
        rcases path_nil_or_concat (components target) with e | ⟨tp, t_last, hT⟩
        · exact absurd ⟨components source, by rw [e]; rfl⟩ h2
        rw [tree_move_apart MAX MAX_DEPTH tree source target sp s_last tp t_last hs ht hS hT
          h1 h2] at h ⊢
        exact move_separate_unchanged tree sp s_last tp t_last h
    · rw [tree_move_invalid MAX MAX_DEPTH tree source target (Or.inr (by simpa using ht))]
  · rw [tree_move_invalid MAX MAX_DEPTH tree source target (Or.inl (by simpa using hs))]

theorem tree_list_tree (MAX MAX_DEPTH : Nat) (tree : Tree) (path : String) :
    (tree_list MAX MAX_DEPTH tree path).2 = tree := by
  unfold tree_list
  split
  · rfl
  · split <;> rfl

theorem tree_create_twice (MAX MAX_DEPTH : Nat) (tree : Tree) (p : String)
    (h : (tree_create MAX MAX_DEPTH tree p).1 = 0) :
    tree_create MAX MAX_DEPTH (tree_create MAX MAX_DEPTH tree p).2 p =
      (EEXIST, (tree_create MAX MAX_DEPTH tree p).2) := by
  have hv : is_path_valid MAX MAX_DEPTH p = true := by
    by_contra hn
    simp [tree_create, hn, EINVAL] at h
  rcases path_nil_or_concat (components p) with hc | ⟨pp, c, hc⟩
  · rw [tree_create_root MAX MAX_DEPTH tree p hv hc] at h
    simp [EEXIST] at h
  rw [tree_create_concat MAX MAX_DEPTH tree p pp c hv hc] at h ⊢
  cases hf : node_find_safe tree pp with
  | none => rw [hf] at h; simp [ENOENT] at h
  | some parent =>
    rw [hf] at h
    cases hg : hmap_get parent.hmap c with
    | some node => simp [hg, EEXIST] at h
    | none =>
      simp only [hg, Option.isSome_none, Bool.false_eq_true, if_false]
      obtain ⟨hpost1, hpost2⟩ := create_post tree pp c parent hf hg
      generalize node_modify tree pp (fun m => hmap_insert m c tree_new) = tree1 at hpost1 hpost2 ⊢
      rw [tree_create_concat MAX MAX_DEPTH tree1 p pp c hv hc]
      rw [node_find_safe_append] at hpost1
      cases hf1 : node_find_safe tree1 pp with
      | none => rw [hf1] at hpost1; simp at hpost1
      | some parent1 =>
        rw [hf1, Option.some_bind, node_find_safe_single] at hpost1
        simp [hpost1]

theorem tree_remove_not_empty (MAX MAX_DEPTH : Nat) (tree : Tree) (p : String)
    (hv : is_path_valid MAX MAX_DEPTH p = true) (hp : p ≠ "/")
    (hex : path_exists tree (components p))
    (hch : ∃ name, path_exists tree (components p ++ [name])) :
    tree_remove MAX MAX_DEPTH tree p = (ENOTEMPTY, tree) := by
  rcases path_nil_or_concat (components p) with hc | ⟨pp, c, hc⟩
  · exact absurd (eq_root_of_components_eq_nil MAX MAX_DEPTH p hv hc) hp
  rw [tree_remove_concat MAX MAX_DEPTH tree p pp c hv hc]
  rw [hc] at hex hch
  obtain ⟨parent, node, hf, hg⟩ := (path_exists_concat tree pp c).mp hex
  have hnode : node_find_safe tree (pp ++ [c]) = some node := by
    rw [node_find_safe_append, hf, Option.some_bind, node_find_safe_single, hg]
  have hne := (has_child_iff tree (pp ++ [c]) node hnode).mp hch
  have hsz : hmap_size node.hmap ≠ 0 := by
    simp only [hmap_size, ne_eq, List.length_eq_zero]; exact hne
  simp [hf, hg, hsz]

/-- C7: a call of `tree_create`, `tree_remove` or `tree_move` that returns a
non-zero code leaves the tree exactly as it was, and `tree_list` never changes
the tree. In particular a second `tree_create(p)` right after a successful one
returns EEXIST and changes nothing, and `tree_remove` of an existing non-root
directory that has a child returns ENOTEMPTY and changes nothing. -/
theorem failed_call_keeps_tree (MAX MAX_DEPTH : Nat) (tree : Tree) :
    (∀ p, (tree_create MAX MAX_DEPTH tree p).1 ≠ 0 →
        (tree_create MAX MAX_DEPTH tree p).2 = tree) ∧
      (∀ p, (tree_remove MAX MAX_DEPTH tree p).1 ≠ 0 →
        (tree_remove MAX MAX_DEPTH tree p).2 = tree) ∧
      (∀ s t, (tree_move MAX MAX_DEPTH tree s t).1 ≠ 0 →
        (tree_move MAX MAX_DEPTH tree s t).2 = tree) ∧
      (∀ p, (tree_list MAX MAX_DEPTH tree p).2 = tree) ∧
      (∀ p, (tree_create MAX MAX_DEPTH tree p).1 = 0 →
        tree_create MAX MAX_DEPTH (tree_create MAX MAX_DEPTH tree p).2 p =
          (EEXIST, (tree_create MAX MAX_DEPTH tree p).2)) ∧
      (∀ p, is_path_valid MAX MAX_DEPTH p = true → p ≠ "/" →
        path_exists tree (components p) →
        (∃ name, path_exists tree (components p ++ [name])) →
        tree_remove MAX MAX_DEPTH tree p = (ENOTEMPTY, tree)) :=
  ⟨tree_create_error_tree MAX MAX_DEPTH tree, tree_remove_error_tree MAX MAX_DEPTH tree,
    tree_move_error_tree MAX MAX_DEPTH tree, tree_list_tree MAX MAX_DEPTH tree,
    tree_create_twice MAX MAX_DEPTH tree, tree_remove_not_empty MAX MAX_DEPTH tree⟩

/-! ## Child names stay unique -/

theorem hmap_keys_rebind {α : Type} (m : HashMap α) (k : String) (new : α) :
    hmap_keys (hmap_rebind m k new) = hmap_keys m := by
  induction m with
  | nil => rfl
  | cons e rest ih =>
    obtain ⟨k1, v1⟩ := e
    by_cases h : k1 = k
    · simp [hmap_rebind, hmap_keys, h]
    · simp only [hmap_rebind, h, if_false]
      simp only [hmap_keys, List.map_cons] at ih ⊢
      rw [ih]

theorem hmap_keys_insert_nodup {α : Type} (m : HashMap α) (k : String) (v : α)
    (h : (hmap_keys m).Nodup) : (hmap_keys (hmap_insert m k v)).Nodup := by
  unfold hmap_insert
  by_cases hg : (hmap_get m k).isSome = true
  · simp only [hg, if_true]; exact h
  · have hk : k ∉ hmap_keys m := fun hx => hg ((hmap_get_isSome_iff_mem_keys m k).mpr hx)
    simp only [hg, Bool.false_eq_true, if_false, hmap_keys, List.map_append, List.map_cons,
      List.map_nil] at hk h ⊢
    refine List.Nodup.append h (List.nodup_singleton k) ?_
    intro x hx1 hx2
    simp only [List.mem_singleton] at hx2
    subst hx2
    exact hk hx1

theorem hmap_keys_remove_nodup {α : Type} (m : HashMap α) (k : String)
    (h : (hmap_keys m).Nodup) : (hmap_keys (hmap_remove m k)).Nodup := by
  unfold hmap_remove hmap_keys
  exact List.Nodup.sublist ((List.filter_sublist m).map Prod.fst) h

theorem unique_names_sub (tree : Tree) (p : Path) (node : Tree) (hu : unique_names tree)
    (hf : node_find_safe tree p = some node) : unique_names node := by
  intro q n hq
  apply hu (p ++ q) n
  rw [node_find_safe_append, hf]
  exact hq

theorem unique_names_child (node : Tree) (k : String) (v : Tree) (hu : unique_names node)
    (hg : hmap_get node.hmap k = some v) : unique_names v :=
  unique_names_sub node [k] v hu (by rw [node_find_safe_single]; exact hg)

theorem unique_names_modify (tree : Tree) (p : Path) (f : HashMap Tree → HashMap Tree)
    (node : Tree) (hu : unique_names tree) (hf : node_find_safe tree p = some node)
    (hk : (hmap_keys (f node.hmap)).Nodup)
    (hv : ∀ k v, hmap_get (f node.hmap) k = some v → unique_names v) :
    unique_names (node_modify tree p f) := by
  induction p generalizing tree with
  | nil =>
    simp only [node_find_safe, Option.some.injEq] at hf
    subst hf
    intro q n hq
    cases q with
    | nil =>
      simp only [node_modify, node_find_safe, Option.some.injEq] at hq
      subst hq
      exact hk
    | cons d q1 =>
      simp only [node_modify, node_find_safe, Tree.hmap_mk] at hq
      cases hd : hmap_get (f tree.hmap) d with
      | none => rw [hd] at hq; simp at hq
      | some v =>
        rw [hd] at hq
        exact hv d v hd q1 n hq
  | cons c rest ih =>
    simp only [node_find_safe] at hf
    cases hc : hmap_get tree.hmap c with
    | none => rw [hc] at hf; simp at hf
    | some child =>
      rw [hc] at hf
      simp only at hf
      have huc : unique_names child := unique_names_child tree c child hu hc
      have hrec := ih child huc hf
      intro q n hq
      simp only [node_modify, hc] at hq
      cases q with
      | nil =>
        simp only [node_find_safe, Option.some.injEq] at hq
        subst hq
        simp only [Tree.hmap_mk, hmap_keys_rebind]
        exact hu [] tree rfl
      | cons d q1 =>
        simp only [node_find_safe, Tree.hmap_mk, hmap_get_rebind] at hq
        by_cases hd : d = c
        · subst hd
          simp only [if_true, hc, Option.map_some'] at hq
          exact hrec q1 n hq
        · simp only [hd, if_false] at hq
          apply hu (d :: q1) n
          simp only [node_find_safe]
          exact hq

theorem unique_names_insert (tree : Tree) (p : Path) (k : String) (v node : Tree)
    (hu : unique_names tree) (hf : node_find_safe tree p = some node)
    (hg : hmap_get node.hmap k = none) (huv : unique_names v) :
    unique_names (node_modify tree p (fun m => hmap_insert m k v)) := by
  apply unique_names_modify tree p _ node hu hf
  · exact hmap_keys_insert_nodup node.hmap k v (hu p node hf)
  · intro k2 v2 h2
    rw [hmap_get_insert _ _ _ _ hg] at h2
    by_cases hk : k2 = k
    · simp only [hk, if_true, Option.some.injEq] at h2
      subst h2
      exact huv
    · simp only [hk, if_false] at h2
      exact unique_names_child node k2 v2 (unique_names_sub tree p node hu hf) h2

theorem unique_names_remove (tree : Tree) (p : Path) (k : String) (node : Tree)
    (hu : unique_names tree) (hf : node_find_safe tree p = some node) :
    unique_names (node_modify tree p (fun m => hmap_remove m k)) := by
  apply unique_names_modify tree p _ node hu hf
  · exact hmap_keys_remove_nodup node.hmap k (hu p node hf)
  · intro k2 v2 h2
    rw [hmap_get_remove] at h2
    by_cases hk : k2 = k
    · simp [hk] at h2
    · simp only [hk, if_false] at h2
      exact unique_names_child node k2 v2 (unique_names_sub tree p node hu hf) h2

theorem unique_names_tree_new : unique_names tree_new := by
  intro q n hq
  cases q with
  | nil =>
    simp only [node_find_safe, Option.some.injEq] at hq
    subst hq
    simp [tree_new, hmap_new, hmap_keys]
  | cons d q1 => simp [node_find_safe, tree_new, hmap_new, hmap_get] at hq

theorem unique_names_create (MAX MAX_DEPTH : Nat) (tree : Tree) (p : String)
    (hu : unique_names tree) : unique_names (tree_create MAX MAX_DEPTH tree p).2 := by
  by_cases h : (tree_create MAX MAX_DEPTH tree p).1 = 0
  · have hv : is_path_valid MAX MAX_DEPTH p = true := by
      by_contra hn
      simp [tree_create, hn, EINVAL] at h
    rcases path_nil_or_concat (components p) with hc | ⟨pp, c, hc⟩
    · rw [tree_create_root MAX MAX_DEPTH tree p hv hc]; exact hu
    rw [tree_create_concat MAX MAX_DEPTH tree p pp c hv hc]
    cases hf : node_find_safe tree pp with
    | none => exact hu
    | some parent =>
      cases hg : hmap_get parent.hmap c with
      | some node => simp only [hg, Option.isSome_some, if_true]; exact hu
      | none =>
        simp only [hg, Option.isSome_none, Bool.false_eq_true, if_false]
        exact unique_names_insert tree pp c tree_new parent hu hf hg unique_names_tree_new
  · rw [tree_create_error_tree MAX MAX_DEPTH tree p h]; exact hu

theorem unique_names_tree_remove (MAX MAX_DEPTH : Nat) (tree : Tree) (p : String)
    (hu : unique_names tree) : unique_names (tree_remove MAX MAX_DEPTH tree p).2 := by
  by_cases h : (tree_remove MAX MAX_DEPTH tree p).1 = 0
  · have hv : is_path_valid MAX MAX_DEPTH p = true := by
      by_contra hn
      simp [tree_remove, hn, EINVAL] at h
    rcases path_nil_or_concat (components p) with hc | ⟨pp, c, hc⟩
    · rw [tree_remove_root MAX MAX_DEPTH tree p hv hc]; exact hu
    rw [tree_remove_concat MAX MAX_DEPTH tree p pp c hv hc]
    cases hf : node_find_safe tree pp with
    | none => exact hu
    | some parent =>
      cases hg : hmap_get parent.hmap c with
      | none => simp only [hg]; exact hu
      | some node =>
        simp only [hg]
        split
        · exact hu
        · exact unique_names_remove tree pp c parent hu hf
  · rw [tree_remove_error_tree MAX MAX_DEPTH tree p h]; exact hu

theorem unique_names_tree_move (MAX MAX_DEPTH : Nat) (tree : Tree) (source target : String)
    (hu : unique_names tree) : unique_names (tree_move MAX MAX_DEPTH tree source target).2 := by
  by_cases h : (tree_move MAX MAX_DEPTH tree source target).1 = 0
  · obtain ⟨hs, ht, h1, h2, sp, s_last, tp, t_last, hS, hT⟩ :=
      tree_move_zero MAX MAX_DEPTH tree source target h
    rw [tree_move_apart MAX MAX_DEPTH tree source target sp s_last tp t_last hs ht hS hT h1
      h2] at h ⊢
    obtain ⟨s_node, t_parent, hsn, htp, hg, htree⟩ := move_separate_ok tree sp s_last tp t_last h
    rw [htree]
    have hu1 := unique_names_insert tree tp t_last s_node t_parent hu htp hg
      (unique_names_sub tree (sp ++ [s_last]) s_node hu hsn)
    have hsp : path_exists (node_modify tree tp (fun m => hmap_insert m t_last s_node)) sp := by
      rw [exists_modify_insert tree tp sp t_last s_node t_parent htp hg]
      exact Or.inl (path_exists_of_append tree sp [s_last] (by simp [path_exists, hsn]))
    obtain ⟨s_parent1, hsp1⟩ := Option.isSome_iff_exists.mp hsp
    exact unique_names_remove _ sp s_last s_parent1 hu1 hsp1
  · rw [tree_move_error_tree MAX MAX_DEPTH tree source target h]; exact hu

theorem unique_names_of_reachable (MAX MAX_DEPTH : Nat) (tree : Tree)
    (h : TreeReachable MAX MAX_DEPTH tree) : unique_names tree := by
  induction h with
  | new => exact unique_names_tree_new
  | list tree path _ ih => rw [tree_list_tree]; exact ih
  | create tree path _ ih => exact unique_names_create MAX MAX_DEPTH tree path ih
  | remove tree path _ ih => exact unique_names_tree_remove MAX MAX_DEPTH tree path ih
  | move tree source target _ ih => exact unique_names_tree_move MAX MAX_DEPTH tree source target ih

theorem is_path_valid_root (MAX MAX_DEPTH : Nat) : is_path_valid MAX MAX_DEPTH "/" = true := by
  simp [is_path_valid, split_slash]

/-- C6: `tree_list` returns null iff the path is not valid or does not exist;
otherwise it returns the contents string (the comma-joined keys) of the child
map of the node at the path, whose keys are exactly the names of the children
of that node, each once in every tree built by the operations. In particular
`tree_list("/")` on a fresh tree is the empty listing, not null. -/
theorem tree_list_spec (MAX MAX_DEPTH : Nat) (tree : Tree) (path : String) :
    ((tree_list MAX MAX_DEPTH tree path).1 = none ↔
        (is_path_valid MAX MAX_DEPTH path = false ∨ ¬ path_exists tree (components path))) ∧
      (∀ node, is_path_valid MAX MAX_DEPTH path = true →
        node_find_safe tree (components path) = some node →
        (tree_list MAX MAX_DEPTH tree path).1 = some (make_map_contents_string node.hmap) ∧
          make_map_contents_string node.hmap = ",".intercalate (hmap_keys node.hmap) ∧
          (∀ name, name ∈ hmap_keys node.hmap ↔
            path_exists tree (components path ++ [name])) ∧
          (TreeReachable MAX MAX_DEPTH tree → (hmap_keys node.hmap).Nodup)) ∧
      (tree_list MAX MAX_DEPTH tree_new "/").1 = some "" := by
  refine ⟨?_, ?_, ?_⟩
  · unfold tree_list
    by_cases hv : is_path_valid MAX MAX_DEPTH path = true
    · simp only [hv, Bool.not_true, Bool.false_eq_true, if_false, node_find_eq, false_or,
        path_exists]
      cases hf : node_find_safe tree (components path) with
      | none => simp
      | some node => simp
    · have hv2 : is_path_valid MAX MAX_DEPTH path = false := by simpa using hv
      simp [hv2]
  · intro node hv hf
    refine ⟨?_, rfl, ?_, ?_⟩
    · simp [tree_list, hv, node_find_eq, hf]
    · intro name
      have h := mem_child_names tree (components path) name
      simp only [child_names, hf] at h
      exact h
    · intro hr
      exact unique_names_of_reachable MAX MAX_DEPTH tree hr (components path) node hf
  · simp [tree_list, is_path_valid_root, components_root, node_find, tree_new, hmap_new,
      make_map_contents_string, hmap_keys]
    rfl

/-! ## The monitor as a transition system -/

/-- A reader alone on an idle monitor is admitted at once and leaves it idle. -/
theorem monitor_read_alone :
    begin_read_test init_monitor = { init_monitor with read_count := 1 } ∧
      end_read (begin_read_test init_monitor) = init_monitor := by
  constructor <;> rfl

/-- A writer alone on an idle monitor is admitted at once and leaves it idle. -/
theorem monitor_write_alone :
    begin_write_test init_monitor = { init_monitor with write_count := 1 } ∧
      end_write (begin_write_test init_monitor) = init_monitor := by
  constructor <;> rfl

theorem monitor_inv_init : monitor_inv init_monitor := by
  simp [monitor_inv, init_monitor]

theorem monitor_inv_step (m m2 : Monitor) (hi : monitor_inv m) (hs : MonitorStep m m2) :
    monitor_inv m2 := by
  obtain ⟨rc, wc, rw, ww, kw, kr⟩ := m
  simp only [monitor_inv] at hi
  obtain ⟨h1, h2, h3, h4, h5⟩ := hi
  cases hs with
  | begin_read_call =>
    simp only [begin_read_test, monitor_inv]
    split
    · refine ⟨h1, h2, by simp only; omega, h4, h5⟩
    · rename_i hc
      refine ⟨h1, by simp only; omega, h3, h4, ?_⟩
      intro hk
      have := h5 hk
      simp only at this ⊢
      omega
  | begin_read_wakeup hg =>
    simp only at hg
    simp only [begin_read_wake, begin_read_test, monitor_inv]
    split
    · rename_i hc
      refine ⟨h1, by simp only; omega, by simp only; omega, by simp only; omega, ?_⟩
      intro hk
      have := h5 hk
      simp only at this ⊢
      omega
    · rename_i hc
      split
      · refine ⟨h1, h2, by simp only; omega, h4, ?_⟩
        intro hk
        have := h5 hk
        simp only at this ⊢
        omega
      · rename_i hc2
        refine ⟨h1, by simp only; omega, by simp only; omega, h4, ?_⟩
        intro hk
        have := h5 hk
        simp only at this ⊢
        omega
  | begin_write_call =>
    simp only [begin_write_test, monitor_inv]
    split
    · refine ⟨h1, h2, h3, h4, ?_⟩
      intro hk
      have := h5 hk
      simp only at this ⊢
      omega
    · rename_i hc
      refine ⟨by simp only; omega, by simp only; omega, h3, by simp only; omega, ?_⟩
      intro hk
      have := h5 hk
      simp only at this ⊢
      omega
  | begin_write_wakeup hg =>
    simp only at hg
    simp only [begin_write_wake, begin_write_test, monitor_inv]
    cases kw with
    | true =>
      have := h5 rfl
      simp only at this h2 h3 h4
      simp only [if_true]
      refine ⟨by omega, by intro; omega, h3, by intro; omega, ?_⟩
      intro hk
      simp at hk
    | false =>
      simp only [Bool.false_eq_true, if_false]
      split
      · refine ⟨h1, h2, h3, h4, ?_⟩
        intro hk
        simp at hk
      · rename_i hc
        refine ⟨by simp only; omega, by simp only; omega, h3, by simp only; omega, ?_⟩
        intro hk
        simp at hk
  | end_read_call hg =>
    simp only at hg h1 h2 h3 h4
    have hkw : kw = false := by
      cases kw with
      | false => rfl
      | true => have := h5 rfl; simp only at this; omega
    subst hkw
    simp only [end_read, monitor_inv]
    split
    · rename_i hc
      refine ⟨h1, by simp only; omega, h3, h4, ?_⟩
      intro _
      simp only
      omega
    · split
      · rename_i hc hc2
        refine ⟨h1, by simp only; omega, by simp only; omega, by simp only; omega, ?_⟩
        intro hk
        simp at hk
      · refine ⟨h1, by simp only; omega, h3, h4, ?_⟩
        intro hk
        simp at hk
  | end_write_call hg =>
    simp only at hg h1 h2 h3 h4
    have hkw : kw = false := by
      cases kw with
      | false => rfl
      | true => have := h5 rfl; simp only at this; omega
    subst hkw
    simp only [end_write, monitor_inv]
    split
    · rename_i hc
      refine ⟨by simp only; omega, by simp only; omega, by simp only; omega,
        by simp only; omega, ?_⟩
      intro hk
      simp at hk
    · split
      · rename_i hc hc2
        refine ⟨by simp only; omega, by simp only; omega, h3, by simp only; omega, ?_⟩
        intro _
        simp only
        omega
      · refine ⟨by simp only; omega, by simp only; omega, h3, by simp only; omega, ?_⟩
        intro hk
        simp at hk

theorem monitor_inv_of_reachable (m : Monitor) (h : MonitorReachable m) : monitor_inv m := by
  induction h with
  | init => exact monitor_inv_init
  | step m m2 _ hs ih => exact monitor_inv_step m m2 ih hs

/-- C2: in every reachable state of the monitor, `write_count ≤ 1`, and a
positive `write_count` implies `read_count = 0`: a writer is never admitted
alongside a reader or another writer. -/
theorem writer_exclusion (m : Monitor) (h : MonitorReachable m) :
    m.write_count ≤ 1 ∧ (0 < m.write_count → m.read_count = 0) :=
  ⟨(monitor_inv_of_reachable m h).1, (monitor_inv_of_reachable m h).2.1⟩

/-! ## Concrete instances -/

theorem tree_move_paths_witness :
    (tree_move 255 2047 example_tree "/a/b/" "/b/x/").1 = 0 ∧
      ((path_exists (tree_move 255 2047 example_tree "/a/b/" "/b/x/").2 ["b", "x", "c"] ↔
        (path_exists example_tree ["b", "x", "c"] ∧
          ¬ ∃ r, ["b", "x", "c"] = components "/a/b/" ++ r) ∨
        ∃ r, ["b", "x", "c"] = components "/b/x/" ++ r ∧
          path_exists example_tree (components "/a/b/" ++ r)) ∧
      node_find_safe (tree_move 255 2047 example_tree "/a/b/" "/b/x/").2 (components "/b/x/") =
        node_find_safe example_tree (components "/a/b/") ∧
      ¬ path_exists (tree_move 255 2047 example_tree "/a/b/" "/b/x/").2 (components "/a/b/")) :=
  ⟨by decide,
    (tree_move_paths 255 2047 example_tree "/a/b/" "/b/x/" (by decide)).1 ["b", "x", "c"],
    (tree_move_paths 255 2047 example_tree "/a/b/" "/b/x/" (by decide)).2⟩

theorem tree_move_code_witness :
    (is_path_valid 255 2047 "/x/" = true ∧ is_path_valid 255 2047 "/y/" = true ∧
      (¬ ∃ r, components "/y/" = components "/x/" ++ r) ∧
      (¬ ∃ r, components "/x/" = components "/y/" ++ r)) ∧
      (tree_move 255 2047 tree_new "/x/" "/y/").1 =
        (if ¬ path_exists tree_new (components "/x/") then ENOENT
         else if ¬ path_exists tree_new (components "/y/").dropLast then ENOENT
         else if path_exists tree_new (components "/y/") then EEXIST
         else 0) ∧
      (tree_move 255 2047 tree_new "/x/" "/y/").1 = ENOENT :=
  have h1 : ¬ ∃ r, components "/y/" = components "/x/" ++ r := by
    rintro ⟨r, e⟩
    rw [show components "/y/" = ["y"] by decide, show components "/x/" = ["x"] by decide] at e
    simp at e
  have h2 : ¬ ∃ r, components "/x/" = components "/y/" ++ r := by
    rintro ⟨r, e⟩
    rw [show components "/y/" = ["y"] by decide, show components "/x/" = ["x"] by decide] at e
    simp at e
  ⟨⟨by decide, by decide, h1, h2⟩,
    (tree_move_code 255 2047 tree_new "/x/" "/y/" (by decide) (by decide) h1 h2).1, by decide⟩

theorem tree_create_spec_witness :
    is_path_valid 255 2047 "/a/" = true ∧
      (tree_create 255 2047 tree_new "/a/").1 = 0 ∧
      node_find_safe (tree_create 255 2047 tree_new "/a/").2 (components "/a/") = some tree_new :=
  ⟨by decide, by decide,
    ((tree_create_spec 255 2047 tree_new "/a/" (by decide)).2 (by decide)).1⟩

theorem tree_remove_spec_witness :
    is_path_valid 255 2047 "/a/" = true ∧
      (tree_remove 255 2047 one_dir_tree "/a/").1 = 0 ∧
      ¬ path_exists (tree_remove 255 2047 one_dir_tree "/a/").2 (components "/a/") ∧
      (tree_remove 255 2047 two_dir_tree "/a/").1 = ENOTEMPTY :=
  ⟨by decide, by decide,
    ((tree_remove_spec 255 2047 one_dir_tree "/a/" (by decide)).2.2.2.2 (by decide)).1,
    (tree_remove_spec 255 2047 two_dir_tree "/a/" (by decide)).2.2.1 (by decide) (by decide)
      ⟨"b", by decide⟩⟩

theorem tree_move_there_and_back_witness :
    (tree_move 255 2047 example_tree "/a/b/" "/b/x/").1 = 0 ∧
      (tree_move 255 2047 (tree_move 255 2047 example_tree "/a/b/" "/b/x/").2 "/b/x/" "/a/b/").1
        = 0 ∧
      (path_exists
          (tree_move 255 2047 (tree_move 255 2047 example_tree "/a/b/" "/b/x/").2 "/b/x/"
            "/a/b/").2 ["a", "b", "d"] ↔
        path_exists example_tree ["a", "b", "d"]) :=
  ⟨by decide, (tree_move_there_and_back 255 2047 example_tree "/a/b/" "/b/x/" (by decide)).1,
    (tree_move_there_and_back 255 2047 example_tree "/a/b/" "/b/x/" (by decide)).2.1
      ["a", "b", "d"]⟩

theorem tree_create_remove_witness :
    (is_path_valid 255 2047 "/a/b/" = true ∧
      path_exists one_dir_tree (components "/a/b/").dropLast ∧
      ¬ path_exists one_dir_tree (components "/a/b/")) ∧
      (tree_create 255 2047 one_dir_tree "/a/b/").1 = 0 ∧
      (tree_remove 255 2047 (tree_create 255 2047 one_dir_tree "/a/b/").2 "/a/b/").1 = 0 ∧
      (path_exists
          (tree_remove 255 2047 (tree_create 255 2047 one_dir_tree "/a/b/").2 "/a/b/").2 ["a"] ↔
        path_exists one_dir_tree ["a"]) :=
  ⟨⟨by decide, by decide, by decide⟩,
    (tree_create_remove 255 2047 one_dir_tree "/a/b/" (by decide) (by decide) (by decide)).1,
    (tree_create_remove 255 2047 one_dir_tree "/a/b/" (by decide) (by decide) (by decide)).2.1,
    (tree_create_remove 255 2047 one_dir_tree "/a/b/" (by decide) (by decide) (by decide)).2.2.1
      ["a"]⟩

theorem tree_move_nested_code_witness :
    (is_path_valid 255 2047 "/a/" = true ∧ is_path_valid 255 2047 "/a/b/" = true ∧
      "/a/" ≠ "/" ∧ "/a/b/" ≠ "/") ∧
      (tree_move 255 2047 example_tree "/a/" "/a/b/").1 = ENOENT ∧
      (tree_move 255 2047 example_tree "/a/b/" "/a/").1 =
        (if path_exists example_tree (components "/a/") then EEXIST else ENOENT) :=
  ⟨⟨by decide, by decide, by decide, by decide⟩,
    (tree_move_nested_code 255 2047 example_tree "/a/" "/a/b/" (by decide) (by decide)
      (by decide) (by decide)).1 ["b"] (by decide) (by decide),
    (tree_move_nested_code 255 2047 example_tree "/a/b/" "/a/" (by decide) (by decide)
      (by decide) (by decide)).2 ["b"] (by decide) (by decide)⟩

theorem writer_exclusion_witness :
    MonitorReachable (begin_write_test init_monitor) ∧
      (begin_write_test init_monitor).write_count = 1 ∧
      ((begin_write_test init_monitor).write_count ≤ 1 ∧
        (0 < (begin_write_test init_monitor).write_count →
          (begin_write_test init_monitor).read_count = 0)) :=
  ⟨MonitorReachable.step _ _ MonitorReachable.init (MonitorStep.begin_write_call _), by decide,
    writer_exclusion (begin_write_test init_monitor)
      (MonitorReachable.step _ _ MonitorReachable.init (MonitorStep.begin_write_call _))⟩

theorem tree_list_spec_witness :
    (tree_list 255 2047 example_tree "/a/b/").1 = some "c,d" ∧
      (tree_list 255 2047 example_tree "/c/").1 = none ∧
      (tree_list 255 2047 example_tree "a").1 = none ∧
      (tree_list 255 2047 tree_new "/").1 = some "" :=
  ⟨by decide, (tree_list_spec 255 2047 example_tree "/c/").1.mpr (Or.inr (by decide)),
    (tree_list_spec 255 2047 example_tree "a").1.mpr (Or.inl (by decide)),
    (tree_list_spec 255 2047 tree_new "/").2.2⟩

theorem failed_call_keeps_tree_witness :
    tree_create 255 2047 (tree_create 255 2047 tree_new "/a/").2 "/a/" =
        (EEXIST, (tree_create 255 2047 tree_new "/a/").2) ∧
      tree_remove 255 2047 two_dir_tree "/a/" = (ENOTEMPTY, two_dir_tree) ∧
      (tree_move 255 2047 tree_new "/x/" "/y/").2 = tree_new :=
  ⟨(failed_call_keeps_tree 255 2047 tree_new).2.2.2.2.1 "/a/" (by decide),
    (failed_call_keeps_tree 255 2047 two_dir_tree).2.2.2.2.2 "/a/" (by decide) (by decide)
      (by decide) ⟨"b", by decide⟩,
    (failed_call_keeps_tree 255 2047 tree_new).2.2.1 "/x/" "/y/" (by decide)⟩

/-- Scenario 1 of the specification (`example_move_test` of `main.c`): the
listings after `move("/a/b/", "/b/x/")`. -/
theorem example_move_test_listings :
    (tree_list 255 2047 (tree_move 255 2047 example_tree "/a/b/" "/b/x/").2 "/").1 = some "a,b" ∧
      (tree_list 255 2047 (tree_move 255 2047 example_tree "/a/b/" "/b/x/").2 "/b/").1
        = some "a,x" ∧
      (tree_list 255 2047 (tree_move 255 2047 example_tree "/a/b/" "/b/x/").2 "/b/x/").1
        = some "c,d" ∧
      (tree_list 255 2047 (tree_move 255 2047 example_tree "/a/b/" "/b/x/").2 "/a/").1
        = some "" := by
  refine ⟨by decide, by decide, by decide, by decide⟩

theorem handoff_reserved_init : handoff_reserved init_monitor := by
  simp [handoff_reserved, init_monitor]

theorem handoff_reserved_step (m m2 : Monitor) (hi : monitor_inv m) (hr : handoff_reserved m)
    (hs : MonitorStep m m2) : handoff_reserved m2 := by
  obtain ⟨rc, wc, rw, ww, kw, kr⟩ := m
  simp only [monitor_inv, handoff_reserved] at hi hr
  obtain ⟨h1, h2, h3, h4, h5⟩ := hi
  cases kw <;> cases hs <;>
    simp only [handoff_reserved, begin_read_test, begin_read_wake, begin_write_test,
      begin_write_wake, end_read, end_write] <;>
    (repeat' split) <;> simp_all <;> omega

theorem handoff_reserved_of_reachable (m : Monitor) (h : MonitorReachable m) :
    handoff_reserved m := by
  induction h with
  | init => exact handoff_reserved_init
  | step m m2 hm hs ih => exact handoff_reserved_step m m2 (monitor_inv_of_reachable m hm) ih hs

/-- C17: no lost wake-up. In every reachable state of the monitor, when no
thread holds it (`read_count = 0` and `write_count = 0`) and some thread is
enqueued (`read_wait > 0` or `write_wait > 0`), a hand-off is reserved
(`woke_read > 0` or `woke_write`). -/
theorem no_lost_wakeup (m : Monitor) (h : MonitorReachable m) (hr : m.read_count = 0)
    (hw : m.write_count = 0) (hq : 0 < m.read_wait ∨ 0 < m.write_wait) :
    0 < m.woke_read ∨ m.woke_write = true :=
  handoff_reserved_of_reachable m h hr hw hq

/-- C18: on a state with `read_count = 1` and `write_count = 0`, `end_read`
sets `read_count` to 0 and then: with a writer waiting and `woke_read = 0` it
sets `woke_write` and changes nothing else; with no writer waiting it sets
`woke_read` to `read_wait` and changes nothing else; with `woke_read > 0` it
leaves `woke_write` as it was. On a state with `read_count > 1` it only
decrements `read_count`. -/
theorem end_read_handoff (m : Monitor) :
    (m.read_count = 1 → m.write_count = 0 →
        (end_read m).read_count = 0 ∧
        (0 < m.write_wait → m.woke_read = 0 →
          end_read m = { m with read_count := 0, woke_write := true }) ∧
        (m.write_wait = 0 →
          end_read m = { m with read_count := 0, woke_read := m.read_wait }) ∧
        (0 < m.woke_read → (end_read m).woke_write = m.woke_write)) ∧
      (1 < m.read_count → end_read m = { m with read_count := m.read_count - 1 }) := by
  obtain ⟨rc, wc, rw, ww, kw, kr⟩ := m
  refine ⟨?_, ?_⟩
  · intro h1 h2
    simp only at h1 h2
    subst h1; subst h2
    refine ⟨?_, ?_, ?_, ?_⟩
    · simp only [end_read]
      split
      · rfl
      · split <;> rfl
    · intro h3 h4
      simp only at h3 h4
      simp [end_read, h3, h4]
    · intro h3
      simp only at h3
      simp [end_read, h3]
    · intro h3
      simp only at h3
      have h4 : kr ≠ 0 := by omega
      simp [end_read, h4]
  · intro h1
    simp only at h1
    have h2 : rc - 1 ≠ 0 := by omega
    simp [end_read, h2]

/-- C19: on a state with `write_count = 1` and `read_count = 0`, `end_write`
sets `write_count` to 0 and then: with readers waiting it sets `woke_read` to
`read_wait` and changes nothing else; otherwise with a writer waiting it sets
`woke_write` and changes nothing else; otherwise it changes nothing else.
`read_count`, `read_wait` and `write_wait` are never modified. -/
theorem end_write_handoff (m : Monitor) (hw : m.write_count = 1) (hr : m.read_count = 0) :
    (0 < m.read_wait →
        end_write m = { m with write_count := 0, woke_read := m.read_wait }) ∧
      (m.read_wait = 0 → 0 < m.write_wait →
        end_write m = { m with write_count := 0, woke_write := true }) ∧
      (m.read_wait = 0 → m.write_wait = 0 → end_write m = { m with write_count := 0 }) ∧
      (end_write m).write_count = 0 ∧ (end_write m).read_count = m.read_count ∧
      (end_write m).read_wait = m.read_wait ∧ (end_write m).write_wait = m.write_wait := by
  obtain ⟨rc, wc, rw, ww, kw, kr⟩ := m
  simp only at hw hr
  subst hw; subst hr
  refine ⟨?_, ?_, ?_, ?_⟩
  · intro h1
    simp only at h1
    simp [end_write, h1]
  · intro h1 h2
    simp only at h1 h2
    simp [end_write, h1, h2]
  · intro h1 h2
    simp only at h1 h2
    simp [end_write, h1, h2]
  · simp only [end_write]
    split
    · exact ⟨rfl, rfl, rfl, rfl⟩
    · split <;> exact ⟨rfl, rfl, rfl, rfl⟩

/-- C20: in every reachable state of the monitor `woke_read ≤ read_wait`, and
`woke_write` implies `write_wait ≥ 1`, `woke_read = 0`, `read_count = 0` and
`write_count = 0`; so a reader batch and a writer hand-off are never reserved
at the same time. -/
theorem handoff_bounded (m : Monitor) (h : MonitorReachable m) :
    m.woke_read ≤ m.read_wait ∧
      (m.woke_write = true →
        1 ≤ m.write_wait ∧ m.woke_read = 0 ∧ m.read_count = 0 ∧ m.write_count = 0) ∧
      ¬ (0 < m.woke_read ∧ m.woke_write = true) := by
  obtain ⟨_, _, h3, _, h5⟩ := monitor_inv_of_reachable m h
  refine ⟨h3, h5, ?_⟩
  rintro ⟨h6, h7⟩
  have := (h5 h7).2.1
  omega

/-- Two writers arrive and the first one leaves: the second is enqueued on
an idle monitor. -/
theorem reachable_writer_handoff :
    MonitorReachable (end_write (begin_write_test (begin_write_test init_monitor))) :=
  MonitorReachable.step _ _
    (MonitorReachable.step _ _
      (MonitorReachable.step _ _ MonitorReachable.init (MonitorStep.begin_write_call _))
      (MonitorStep.begin_write_call _))
    (MonitorStep.end_write_call _ (by decide))

theorem no_lost_wakeup_witness :
    (MonitorReachable (end_write (begin_write_test (begin_write_test init_monitor))) ∧
      (end_write (begin_write_test (begin_write_test init_monitor))).read_count = 0 ∧
      (end_write (begin_write_test (begin_write_test init_monitor))).write_count = 0 ∧
      (0 < (end_write (begin_write_test (begin_write_test init_monitor))).read_wait ∨
        0 < (end_write (begin_write_test (begin_write_test init_monitor))).write_wait)) ∧
      (0 < (end_write (begin_write_test (begin_write_test init_monitor))).woke_read ∨
        (end_write (begin_write_test (begin_write_test init_monitor))).woke_write = true) :=
  ⟨⟨reachable_writer_handoff, by decide, by decide, by decide⟩,
    no_lost_wakeup _ reachable_writer_handoff (by decide) (by decide) (by decide)⟩

theorem end_write_handoff_witness :
    ((begin_read_test (begin_write_test init_monitor)).write_count = 1 ∧
      (begin_read_test (begin_write_test init_monitor)).read_count = 0) ∧
      (end_write (begin_read_test (begin_write_test init_monitor))).woke_read = 1 ∧
      (end_write (begin_read_test (begin_write_test init_monitor))).write_count = 0 :=
  ⟨⟨by decide, by decide⟩, by decide,
    (end_write_handoff (begin_read_test (begin_write_test init_monitor)) (by decide)
      (by decide)).2.2.2.1⟩

theorem handoff_bounded_witness :
    MonitorReachable (end_write (begin_write_test (begin_write_test init_monitor))) ∧
      (end_write (begin_write_test (begin_write_test init_monitor))).woke_write = true ∧
      (end_write (begin_write_test (begin_write_test init_monitor))).woke_read ≤
        (end_write (begin_write_test (begin_write_test init_monitor))).read_wait ∧
      1 ≤ (end_write (begin_write_test (begin_write_test init_monitor))).write_wait :=
  ⟨reachable_writer_handoff, by decide, (handoff_bounded _ reachable_writer_handoff).1,
    ((handoff_bounded _ reachable_writer_handoff).2.1 (by decide)).1⟩

theorem end_read_handoff_witness :
    ((begin_write_test (begin_read_test init_monitor)).read_count = 1 ∧
      (begin_write_test (begin_read_test init_monitor)).write_count = 0) ∧
      (end_read (begin_write_test (begin_read_test init_monitor))).read_count = 0 ∧
      (end_read (begin_write_test (begin_read_test init_monitor))).woke_write = true :=
  ⟨⟨by decide, by decide⟩,
    ((end_read_handoff (begin_write_test (begin_read_test init_monitor))).1 (by decide)
      (by decide)).1, by decide⟩

/-- Counterexample to C11 as stated: `/` is a valid path that exists, and
`tree_move("/", "/")` returns EBUSY, not EEXIST. -/
theorem tree_move_same_root_counterexample :
    is_path_valid 255 2047 "/" = true ∧ path_exists tree_new (components "/") ∧
      (tree_move 255 2047 tree_new "/" "/").1 = EBUSY ∧
      (tree_move 255 2047 tree_new "/" "/").1 ≠ EEXIST := by
  refine ⟨by decide, by decide, by decide, by decide⟩

/-- C11 (amended): for a valid path `p` other than `/`, `tree_move(p, p)`
returns EEXIST if `p` exists and ENOENT otherwise; `tree_move("/", "/")`
returns EBUSY. -/
theorem tree_move_same_path (MAX MAX_DEPTH : Nat) (tree : Tree) (p : String)
    (hv : is_path_valid MAX MAX_DEPTH p = true) :
    (p ≠ "/" → (tree_move MAX MAX_DEPTH tree p p).1 =
        if path_exists tree (components p) then EEXIST else ENOENT) ∧
      (p = "/" → (tree_move MAX MAX_DEPTH tree p p).1 = EBUSY) := by
  constructor
  · intro hp
    rw [tree_move_same MAX MAX_DEPTH tree p p hv hv
      (components_ne_nil_of_ne_root MAX MAX_DEPTH p hv hp) rfl]
  · intro hp
    subst hp
    rw [tree_move_root_source MAX MAX_DEPTH tree "/" "/" hv hv components_root]

theorem tree_move_same_path_witness :
    is_path_valid 255 2047 "/a/" = true ∧
      (tree_move 255 2047 one_dir_tree "/a/" "/a/").1 = EEXIST ∧
      (tree_move 255 2047 tree_new "/a/" "/a/").1 =
        (if path_exists tree_new (components "/a/") then EEXIST else ENOENT) ∧
      (tree_move 255 2047 tree_new "/a/" "/a/").1 = ENOENT :=
  ⟨by decide, by decide,
    (tree_move_same_path 255 2047 tree_new "/a/" (by decide)).1 (by decide), by decide⟩

/-- C12: the root is protected, whatever the tree holds: `tree_remove("/")`
returns EBUSY, `tree_move("/", x)` returns EBUSY for every valid `x`, and
`tree_move(x, "/")` returns EEXIST for every valid `x` other than `/`. -/
theorem root_protected (MAX MAX_DEPTH : Nat) (tree : Tree) :
    (tree_remove MAX MAX_DEPTH tree "/").1 = EBUSY ∧
      (∀ x, is_path_valid MAX MAX_DEPTH x = true →
        (tree_move MAX MAX_DEPTH tree "/" x).1 = EBUSY) ∧
      (∀ x, is_path_valid MAX MAX_DEPTH x = true → x ≠ "/" →
        (tree_move MAX MAX_DEPTH tree x "/").1 = EEXIST) := by
  have hroot := is_path_valid_root MAX MAX_DEPTH
  refine ⟨?_, ?_, ?_⟩
  · rw [tree_remove_root MAX MAX_DEPTH tree "/" hroot components_root]
  · intro x hx
    rw [tree_move_root_source MAX MAX_DEPTH tree "/" x hroot hx components_root]
  · intro x hx hne
    rw [tree_move_root_target MAX MAX_DEPTH tree x "/" hx hroot
      (components_ne_nil_of_ne_root MAX MAX_DEPTH x hx hne) components_root]

theorem root_protected_witness :
    (tree_remove 255 2047 example_tree "/").1 = EBUSY ∧
      (tree_move 255 2047 example_tree "/" "/c/").1 = EBUSY ∧
      (tree_move 255 2047 example_tree "/a/" "/").1 = EEXIST :=
  ⟨(root_protected 255 2047 example_tree).1,
    (root_protected 255 2047 example_tree).2.1 "/c/" (by decide),
    (root_protected 255 2047 example_tree).2.2 "/a/" (by decide) (by decide)⟩

/-- C13: validation comes first. For a string `p` that is not a valid path,
`tree_create` and `tree_remove` return EINVAL and `tree_list` returns null,
and `tree_move` returns EINVAL with `p` as source or as target, whatever the
other argument and the tree are. -/
theorem validation_first (MAX MAX_DEPTH : Nat) (tree : Tree) (p : String)
    (hp : is_path_valid MAX MAX_DEPTH p = false) :
    (tree_create MAX MAX_DEPTH tree p).1 = EINVAL ∧
      (tree_remove MAX MAX_DEPTH tree p).1 = EINVAL ∧
      (tree_list MAX MAX_DEPTH tree p).1 = none ∧
      (∀ other, (tree_move MAX MAX_DEPTH tree p other).1 = EINVAL) ∧
      (∀ other, (tree_move MAX MAX_DEPTH tree other p).1 = EINVAL) := by
  refine ⟨by simp [tree_create, hp], by simp [tree_remove, hp], by simp [tree_list, hp], ?_, ?_⟩
  · intro other
    rw [tree_move_invalid MAX MAX_DEPTH tree p other (Or.inl hp)]
  · intro other
    rw [tree_move_invalid MAX MAX_DEPTH tree other p (Or.inr hp)]

theorem validation_first_witness :
    is_path_valid 255 2047 "/a" = false ∧
      (tree_create 255 2047 example_tree "/a").1 = EINVAL ∧
      (tree_list 255 2047 example_tree "/a").1 = none ∧
      (tree_move 255 2047 example_tree "/a" "/").1 = EINVAL ∧
      (tree_move 255 2047 example_tree "/" "/a").1 = EINVAL :=
  ⟨by decide, (validation_first 255 2047 example_tree "/a" (by decide)).1,
    (validation_first 255 2047 example_tree "/a" (by decide)).2.2.1,
    (validation_first 255 2047 example_tree "/a" (by decide)).2.2.2.1 "/",
    (validation_first 255 2047 example_tree "/a" (by decide)).2.2.2.2 "/"⟩

/-! ## The calls of the descent -/

theorem path_nodes_ne_nil (here p : Path) : path_nodes here p ≠ [] := by
  cases p <;> simp [path_nodes]

theorem path_nodes_head (here p : Path) :
    path_nodes here p = here :: (path_nodes here p).tail := by
  cases p <;> simp [path_nodes]

theorem path_nodes_concat (here p : Path) :
    path_nodes here p = (path_nodes here p).dropLast ++ [here ++ p] := by
  induction p generalizing here with
  | nil => simp [path_nodes]
  | cons c rest ih =>
    have h := ih (here ++ [c])
    simp only [path_nodes]
    rw [List.dropLast_cons_of_ne_nil (path_nodes_ne_nil _ _)]
    simp only [List.cons_append, List.cons.injEq, true_and]
    rw [List.append_assoc] at h
    exact h

theorem path_nodes_getLast (here p : Path) :
    (path_nodes here p).getLast? = some (here ++ p) := by
  rw [path_nodes_concat]; simp

theorem free_mon_path_eq_release (nodes : List Path) (w : Bool) :
    free_mon_path nodes w = release nodes w := by
  rcases List.eq_nil_or_concat nodes with h | ⟨init, last, h⟩
  · subst h; rfl
  · rw [List.concat_eq_append] at h
    subst h
    simp [free_mon_path, release]

theorem node_find_trace_spec (current : Tree) (here : Path) (mon_path : List Path)
    (path : Path) (write : Bool) :
    node_find_trace current here mon_path path write =
      match node_find_safe current path with
      | some node =>
        ((path_nodes here path).dropLast.map Event.begin_read ++
            [if write then Event.begin_write (here ++ path) else Event.begin_read (here ++ path)],
          some (node, mon_path ++ (path_nodes here path).tail))
      | none =>
        ((path_nodes here (descended current path)).map Event.begin_read ++
            free_mon_path (mon_path ++ (path_nodes here (descended current path)).tail) false,
          none) := by
  induction path generalizing current here mon_path with
  | nil => simp [node_find_trace, node_find_safe, path_nodes]
  | cons c rest ih =>
    simp only [node_find_trace, node_find_safe, descended]
    cases hc : hmap_get current.hmap c with
    | none => simp [path_nodes]
    | some child =>
      simp only [ih child (here ++ [c]) (mon_path ++ [here ++ [c]])]
      cases hf : node_find_safe child rest with
      | some node =>
        simp only [path_nodes, List.dropLast_cons_of_ne_nil (path_nodes_ne_nil _ _),
          List.map_cons, List.cons_append, List.tail_cons, List.append_assoc,
          List.singleton_append, List.nil_append]
        rw [← path_nodes_head]
      | none =>
        simp only [path_nodes, List.map_cons, List.cons_append, List.tail_cons,
          List.append_assoc, List.singleton_append, List.nil_append]
        rw [← path_nodes_head]

theorem descended_of_found (tree : Tree) (path : Path) (node : Tree)
    (h : node_find_safe tree path = some node) : descended tree path = path := by
  induction path generalizing tree with
  | nil => rfl
  | cons c rest ih =>
    simp only [node_find_safe] at h
    simp only [descended]
    cases hc : hmap_get tree.hmap c with
    | none => rw [hc] at h; simp at h
    | some child =>
      rw [hc] at h
      simp only [ih child h]

theorem descended_of_missing (tree : Tree) (path : Path)
    (h : node_find_safe tree path = none) : descended tree path ≠ path := by
  induction path generalizing tree with
  | nil => simp [node_find_safe] at h
  | cons c rest ih =>
    simp only [node_find_safe] at h
    simp only [descended]
    cases hc : hmap_get tree.hmap c with
    | none => simp
    | some child =>
      rw [hc] at h
      simp only [ne_eq, List.cons.injEq, true_and]
      exact ih child h

/-- The descent from the root that finds its node: the calls are the acquiring
half of the discipline, and `mon_path` holds the nodes passed. -/
theorem node_find_trace_found (tree : Tree) (path : Path) (write : Bool) (node : Tree)
    (h : node_find_safe tree path = some node) :
    node_find_trace tree [] [[]] path write =
      (acquire (path_nodes [] path) write, some (node, path_nodes [] path)) := by
  rw [node_find_trace_spec, h]
  simp only [acquire, path_nodes_getLast, List.nil_append, List.singleton_append,
    ← path_nodes_head]

/-- The descent from the root that misses a component: the calls are the whole
discipline, as reader, on the nodes that exist. -/
theorem node_find_trace_missing (tree : Tree) (path : Path) (write : Bool)
    (h : node_find_safe tree path = none) :
    node_find_trace tree [] [[]] path write =
      (lock_discipline (path_nodes [] (descended tree path)) false, none) := by
  rw [node_find_trace_spec, h]
  simp only [List.singleton_append, ← path_nodes_head, free_mon_path_eq_release,
    lock_discipline, acquire, path_nodes_getLast, Bool.false_eq_true, if_false]
  congr 1
  congr 1
  conv_lhs => rw [path_nodes_concat]
  simp

theorem node_find_trace_node (tree : Tree) (path : Path) (write : Bool) :
    (node_find_trace tree [] [[]] path write).2.map Prod.fst = node_find tree path write := by
  rw [node_find_eq]
  cases h : node_find_safe tree path with
  | none => rw [node_find_trace_missing tree path write h]; rfl
  | some node => rw [node_find_trace_found tree path write node h]; rfl

/-! ## The traced operations are the operations -/

theorem tree_list_trace_result (MAX MAX_DEPTH : Nat) (tree : Tree) (path : String) :
    (tree_list_trace MAX MAX_DEPTH tree path).1 = tree_list MAX MAX_DEPTH tree path := by
  unfold tree_list_trace tree_list
  split
  · rfl
  · rw [node_find_eq]
    cases h : node_find_safe tree (components path) with
    | none => rw [node_find_trace_missing tree _ false h]
    | some node => rw [node_find_trace_found tree _ false node h]

theorem tree_create_trace_result (MAX MAX_DEPTH : Nat) (tree : Tree) (path : String) :
    (tree_create_trace MAX MAX_DEPTH tree path).1 = tree_create MAX MAX_DEPTH tree path := by
  unfold tree_create_trace tree_create
  split
  · rfl
  · split
    · rfl
    · rename_i parent_path component _
      rw [node_find_eq]
      cases h : node_find_safe tree parent_path with
      | none => rw [node_find_trace_missing tree _ true h]
      | some parent =>
        rw [node_find_trace_found tree _ true parent h]
        simp only
        split <;> rfl

theorem tree_remove_trace_result (MAX MAX_DEPTH : Nat) (tree : Tree) (path : String) :
    (tree_remove_trace MAX MAX_DEPTH tree path).1 = tree_remove MAX MAX_DEPTH tree path := by
  unfold tree_remove_trace tree_remove
  split
  · rfl
  · split
    · rfl
    · rename_i parent_path component _
      rw [node_find_eq]
      cases h : node_find_safe tree parent_path with
      | none => rw [node_find_trace_missing tree _ true h]
      | some parent =>
        rw [node_find_trace_found tree _ true parent h]
        simp only
        split
        · rfl
        · split <;> rfl

theorem move_check_cases_trace_result (tree : Tree) (source target : Path) (idx : Nat) :
    (move_check_cases_trace tree source target idx).1 =
      move_check_cases tree source target idx := by
  unfold move_check_cases_trace move_check_cases
  split
  · rfl
  · split
    · rfl
    · simp only
      split
      · rw [node_find_eq]
        cases h : node_find_safe tree source with
        | none => rw [node_find_trace_missing tree _ false h]
        | some node => rw [node_find_trace_found tree _ false node h]
      · split
        · rfl
        · split
          · rw [node_find_eq]
            cases h : node_find_safe tree target with
            | none => rw [node_find_trace_missing tree _ false h]
            | some node => rw [node_find_trace_found tree _ false node h]
          · rfl

theorem tree_move_trace_result (MAX MAX_DEPTH : Nat) (tree : Tree) (source target : String) :
    (tree_move_trace MAX MAX_DEPTH tree source target).1 =
      tree_move MAX MAX_DEPTH tree source target := by
  unfold tree_move_trace tree_move
  split
  · rfl
  · simp only [find_common_path, move_check_cases_trace_result]
    split
    · rfl
    · rw [node_find_eq]
      cases h : node_find_safe tree
          (common_components (components source) (components target)) with
      | none => rw [node_find_trace_missing tree _ true h]
      | some lca =>
        rw [node_find_trace_found tree _ true lca h]
        simp only
        split
        · rfl
        · split
          · rfl
          · split
            · rfl
            · split
              · rfl
              · split <;> rfl

/-! ## The events of each operation -/

theorem descent_discipline_found (tree : Tree) (p : Path) (node : Tree) (w : Bool)
    (h : node_find_safe tree p = some node) :
    descent_discipline tree p w = acquire (path_nodes [] p) w ++ release (path_nodes [] p) w := by
  simp [descent_discipline, lock_discipline, descended_of_found tree p node h]

theorem descent_discipline_missing (tree : Tree) (p : Path) (w : Bool)
    (h : node_find_safe tree p = none) :
    descent_discipline tree p w = lock_discipline (path_nodes [] (descended tree p)) false := by
  simp [descent_discipline, descended_of_missing tree p h]

theorem tree_list_trace_events (MAX MAX_DEPTH : Nat) (tree : Tree) (path : String) :
    (tree_list_trace MAX MAX_DEPTH tree path).2 =
      if is_path_valid MAX MAX_DEPTH path = true then
        descent_discipline tree (components path) false
      else [] := by
  unfold tree_list_trace
  by_cases hv : is_path_valid MAX MAX_DEPTH path = true
  · simp only [hv, Bool.not_true, Bool.false_eq_true, if_false, if_true]
    cases h : node_find_safe tree (components path) with
    | none =>
      rw [node_find_trace_missing tree _ false h, descent_discipline_missing tree _ false h]
    | some node =>
      rw [node_find_trace_found tree _ false node h, descent_discipline_found tree _ node false h]
      simp only [free_mon_path_eq_release]
  · simp [hv]

/-- The events of a descent as writer towards `target` that performs the
mutations `mutations` when it arrives. -/
theorem write_descent_shape (tree : Tree) (target : Path) (node : Tree)
    (mutations : List Event) (h : node_find_safe tree target = some node) :
    acquire (path_nodes [] target) true ++ mutations ++ free_mon_path (path_nodes [] target) true =
      acquire (path_nodes [] (descended tree target)) (decide (descended tree target = target)) ++
        mutations ++
        release (path_nodes [] (descended tree target))
          (decide (descended tree target = target)) := by
  simp [descended_of_found tree target node h, free_mon_path_eq_release]

theorem missing_descent_shape (tree : Tree) (target : Path)
    (h : node_find_safe tree target = none) :
    lock_discipline (path_nodes [] (descended tree target)) false =
      acquire (path_nodes [] (descended tree target)) (decide (descended tree target = target)) ++
        [] ++
        release (path_nodes [] (descended tree target))
          (decide (descended tree target = target)) := by
  simp [descended_of_missing tree target h, lock_discipline]

theorem tree_create_trace_events (MAX MAX_DEPTH : Nat) (tree : Tree) (path : String)
    (pp : Path) (c : String) (hv : is_path_valid MAX MAX_DEPTH path = true)
    (hc : components path = pp ++ [c]) :
    (tree_create_trace MAX MAX_DEPTH tree path).2 =
      acquire (path_nodes [] (descended tree pp)) (decide (descended tree pp = pp)) ++
        (if (tree_create_trace MAX MAX_DEPTH tree path).1.1 = 0 then [Event.hmap_insert pp c]
          else []) ++
        release (path_nodes [] (descended tree pp)) (decide (descended tree pp = pp)) := by
  unfold tree_create_trace
  simp only [hv, hc, make_path_to_parent_concat, Bool.not_true, Bool.false_eq_true, if_false]
  cases h : node_find_safe tree pp with
  | none =>
    rw [node_find_trace_missing tree _ true h]
    simp only [ENOENT, OfNat.ofNat_ne_zero, if_false]
    exact missing_descent_shape tree pp h
  | some parent =>
    rw [node_find_trace_found tree _ true parent h]
    simp only
    by_cases hg : (hmap_get parent.hmap c).isSome = true
    · simp only [hg, if_true, EEXIST, OfNat.ofNat_ne_zero, if_false]
      have := write_descent_shape tree pp parent [] h
      simpa using this
    · simp only [hg, Bool.false_eq_true, if_false, if_true]
      exact write_descent_shape tree pp parent _ h

theorem tree_remove_trace_events (MAX MAX_DEPTH : Nat) (tree : Tree) (path : String)
    (pp : Path) (c : String) (hv : is_path_valid MAX MAX_DEPTH path = true)
    (hc : components path = pp ++ [c]) :
    (tree_remove_trace MAX MAX_DEPTH tree path).2 =
      acquire (path_nodes [] (descended tree pp)) (decide (descended tree pp = pp)) ++
        (if (tree_remove_trace MAX MAX_DEPTH tree path).1.1 = 0 then [Event.hmap_remove pp c]
          else []) ++
        release (path_nodes [] (descended tree pp)) (decide (descended tree pp = pp)) := by
  unfold tree_remove_trace
  simp only [hv, hc, make_path_to_parent_concat, Bool.not_true, Bool.false_eq_true, if_false]
  cases h : node_find_safe tree pp with
  | none =>
    rw [node_find_trace_missing tree _ true h]
    simp only [ENOENT, OfNat.ofNat_ne_zero, if_false]
    exact missing_descent_shape tree pp h
  | some parent =>
    rw [node_find_trace_found tree _ true parent h]
    simp only
    obtain hg | ⟨node, hg⟩ := Option.eq_none_or_eq_some (hmap_get parent.hmap c)
    · simp only [hg, ENOENT, OfNat.ofNat_ne_zero, if_false]
      have := write_descent_shape tree pp parent [] h
      simpa using this
    · simp only [hg]
      by_cases hsz : hmap_size node.hmap ≠ 0
      · rw [if_pos hsz]
        simp only [ENOTEMPTY, OfNat.ofNat_ne_zero, if_false]
        have := write_descent_shape tree pp parent [] h
        simpa using this
      · rw [if_neg hsz]
        simp only [if_true]
        exact write_descent_shape tree pp parent _ h

theorem tree_create_trace_no_descent (MAX MAX_DEPTH : Nat) (tree : Tree) (path : String)
    (h : is_path_valid MAX MAX_DEPTH path = false ∨ components path = []) :
    (tree_create_trace MAX MAX_DEPTH tree path).2 = [] := by
  unfold tree_create_trace
  by_cases hv : is_path_valid MAX MAX_DEPTH path = true
  · rcases h with h | h
    · rw [h] at hv; simp at hv
    · simp [hv, h, make_path_to_parent]
  · simp [hv]

theorem tree_remove_trace_no_descent (MAX MAX_DEPTH : Nat) (tree : Tree) (path : String)
    (h : is_path_valid MAX MAX_DEPTH path = false ∨ components path = []) :
    (tree_remove_trace MAX MAX_DEPTH tree path).2 = [] := by
  unfold tree_remove_trace
  by_cases hv : is_path_valid MAX MAX_DEPTH path = true
  · rcases h with h | h
    · rw [h] at hv; simp at hv
    · simp [hv, h, make_path_to_parent]
  · simp [hv]

theorem read_descent_events (tree : Tree) (p : Path) (x y : Nat) :
    (match node_find_trace tree [] [[]] p false with
      | (calls, none) => (x, calls)
      | (calls, some (_, mon_path)) => (y, calls ++ free_mon_path mon_path false)).2 =
      descent_discipline tree p false := by
  cases h : node_find_safe tree p with
  | none =>
    rw [node_find_trace_missing tree _ false h, descent_discipline_missing tree _ false h]
  | some node =>
    rw [node_find_trace_found tree _ false node h, descent_discipline_found tree _ node false h]
    simp only [free_mon_path_eq_release]

theorem move_check_cases_trace_separate (tree : Tree) (c : Path) (a b : String) (s t : Path) :
    move_check_cases_trace tree (c ++ a :: s) (c ++ b :: t) c.length = (0, []) := by
  simp [move_check_cases_trace, ROOT]

theorem move_check_cases_trace_root (tree : Tree) (s t : Path) (idx : Nat)
    (h : s = [] ∨ t = []) : (move_check_cases_trace tree s t idx).2 = [] := by
  unfold move_check_cases_trace
  by_cases hs : s = []
  · simp [hs, ROOT]
  · rcases h with h | h
    · exact absurd h hs
    · simp [hs, h, ROOT]

theorem move_check_cases_trace_source_inside (tree : Tree) (s r : Path) (hs : s ≠ [])
    (hr : r ≠ []) : (move_check_cases_trace tree s (s ++ r) s.length).2 = [] := by
  simp [move_check_cases_trace, ROOT, hs, hr]

theorem move_check_cases_trace_same (tree : Tree) (s : Path) (hs : s ≠ []) :
    (move_check_cases_trace tree s s s.length).2 = descent_discipline tree s false := by
  simp only [move_check_cases_trace, ROOT, hs, if_false, List.drop_length, decide_True,
    Bool.and_self, if_true]
  exact read_descent_events tree s ENOENT EEXIST

theorem move_check_cases_trace_target_inside (tree : Tree) (t r : Path) (ht : t ≠ [])
    (hr : r ≠ []) :
    (move_check_cases_trace tree (t ++ r) t t.length).2 = descent_discipline tree t false := by
  simp only [move_check_cases_trace, ROOT, ht, if_false, List.drop_length, decide_True,
    List.append_eq_nil, false_and, List.drop_left, hr, decide_False, Bool.false_and,
    Bool.false_eq_true, if_true]
  exact read_descent_events tree t ENOENT EEXIST

theorem tree_move_trace_invalid (MAX MAX_DEPTH : Nat) (tree : Tree) (source target : String)
    (h : is_path_valid MAX MAX_DEPTH source = false ∨ is_path_valid MAX MAX_DEPTH target = false) :
    (tree_move_trace MAX MAX_DEPTH tree source target).2 = [] := by
  rcases h with h | h <;> simp [tree_move_trace, h]

theorem tree_move_trace_special (MAX MAX_DEPTH : Nat) (tree : Tree) (source target : String)
    (hs : is_path_valid MAX MAX_DEPTH source = true)
    (ht : is_path_valid MAX MAX_DEPTH target = true)
    (hc : move_check_cases tree (components source) (components target)
      (common_components (components source) (components target)).length ≠ 0) :
    (tree_move_trace MAX MAX_DEPTH tree source target).2 =
      (move_check_cases_trace tree (components source) (components target)
        (common_components (components source) (components target)).length).2 := by
  simp [tree_move_trace, hs, ht, find_common_path, move_check_cases_trace_result, hc]

/-- The events of a main-case move. -/
theorem tree_move_trace_separate (MAX MAX_DEPTH : Nat) (tree : Tree) (source target : String)
    (c : Path) (a b : String) (s1 t1 : Path)
    (hs : is_path_valid MAX MAX_DEPTH source = true)
    (ht : is_path_valid MAX MAX_DEPTH target = true)
    (hS : components source = c ++ a :: s1) (hT : components target = c ++ b :: t1)
    (hab : a ≠ b) :
    ∃ sp s_last tp t_last, a :: s1 = sp ++ [s_last] ∧ b :: t1 = tp ++ [t_last] ∧
      (tree_move_trace MAX MAX_DEPTH tree source target).2 =
        acquire (path_nodes [] (descended tree c)) (decide (descended tree c = c)) ++
          (if (tree_move_trace MAX MAX_DEPTH tree source target).1.1 = 0 then
            [Event.hmap_insert (c ++ tp) t_last, Event.hmap_remove (c ++ sp) s_last]
          else []) ++
          release (path_nodes [] (descended tree c)) (decide (descended tree c = c)) := by
  rcases path_nil_or_concat (a :: s1) with h | ⟨sp, s_last, hsp⟩
  · simp at h
  rcases path_nil_or_concat (b :: t1) with h | ⟨tp, t_last, htp⟩
  · simp at h
  refine ⟨sp, s_last, tp, t_last, hsp, htp, ?_⟩
  have hcc : common_components (components source) (components target) = c := by
    rw [hS, hT]; exact common_components_separate c a b s1 t1 hab
  have hmc : move_check_cases_trace tree (components source) (components target) c.length
      = (0, []) := by
    rw [hS, hT]; exact move_check_cases_trace_separate tree c a b s1 t1
  have hds : (components source).drop c.length = sp ++ [s_last] := by
    rw [hS, List.drop_left, hsp]
  have hdt : (components target).drop c.length = tp ++ [t_last] := by
    rw [hT, List.drop_left, htp]
  simp only [tree_move_trace, hs, ht, Bool.not_true, Bool.or_self, Bool.false_eq_true, if_false,
    find_common_path, hcc, hmc, hds, hdt, ne_eq, not_true_eq_false,
    make_path_to_parent_concat, List.nil_append]
  cases hl : node_find_safe tree c with
  | none =>
    rw [node_find_trace_missing tree _ true hl]
    simp only [ENOENT, OfNat.ofNat_ne_zero, if_false]
    exact missing_descent_shape tree c hl
  | some lca =>
    rw [node_find_trace_found tree _ true lca hl]
    simp only
    have hfail := write_descent_shape tree c lca [] hl
    simp only [List.append_nil] at hfail
    obtain hsn | ⟨s_node, hsn⟩ := Option.eq_none_or_eq_some
      ((node_find_safe lca sp).bind (fun s_parent => hmap_get s_parent.hmap s_last))
    · simp only [hsn, ENOENT, OfNat.ofNat_ne_zero, if_false, List.append_nil]
      exact hfail
    · simp only [hsn]
      obtain htp2 | ⟨t_parent, htp2⟩ := Option.eq_none_or_eq_some (node_find_safe lca tp)
      · simp only [htp2, ENOENT, OfNat.ofNat_ne_zero, if_false, List.append_nil]
        exact hfail
      · simp only [htp2]
        by_cases hg : (hmap_get t_parent.hmap t_last).isSome = true
        · rw [if_pos hg]
          simp only [EEXIST, OfNat.ofNat_ne_zero, if_false, List.append_nil]
          exact hfail
        · rw [if_neg hg]
          simp only [if_true]
          exact write_descent_shape tree c lca _ hl

/-! ## Properties of the discipline -/

theorem acquire_path_nodes (here p : Path) (w : Bool) :
    acquire (path_nodes here p) w =
      (path_nodes here p).dropLast.map Event.begin_read ++
        [if w then Event.begin_write (here ++ p) else Event.begin_read (here ++ p)] := by
  simp [acquire, path_nodes_getLast]

theorem release_path_nodes (here p : Path) (w : Bool) :
    release (path_nodes here p) w =
      (if w then Event.end_write (here ++ p) else Event.end_read (here ++ p)) ::
        (path_nodes here p).dropLast.reverse.map Event.end_read := by
  simp [release, path_nodes_getLast]

theorem is_lock_call_acquire (nodes : List Path) (w : Bool) :
    ∀ e ∈ acquire nodes w, is_lock_call e = true := by
  intro e he
  unfold acquire at he
  rcases List.mem_append.mp he with h | h
  · obtain ⟨n, _, rfl⟩ := List.mem_map.mp h
    rfl
  · cases hl : nodes.getLast? with
    | none => rw [hl] at h; simp at h
    | some d =>
      rw [hl] at h
      simp only [List.mem_singleton] at h
      subst h
      cases w <;> rfl

theorem is_lock_call_release (nodes : List Path) (w : Bool) :
    ∀ e ∈ release nodes w, is_lock_call e = true := by
  intro e he
  unfold release at he
  rcases List.mem_append.mp he with h | h
  · cases hl : nodes.getLast? with
    | none => rw [hl] at h; simp at h
    | some d =>
      rw [hl] at h
      simp only [List.mem_singleton] at h
      subst h
      cases w <;> rfl
  · obtain ⟨n, _, rfl⟩ := List.mem_map.mp h
    rfl

theorem lock_calls_of_all (events : List Event) (h : ∀ e ∈ events, is_lock_call e = true) :
    lock_calls events = events :=
  List.filter_eq_self.mpr h

theorem lock_calls_of_none (events : List Event) (h : ∀ e ∈ events, is_lock_call e = false) :
    lock_calls events = [] := by
  unfold lock_calls
  rw [List.filter_eq_nil_iff]
  intro e he
  rw [h e he]
  simp

theorem lock_calls_shape (nodes : List Path) (w : Bool) (mutations : List Event)
    (h : ∀ e ∈ mutations, is_lock_call e = false) :
    lock_calls (acquire nodes w ++ mutations ++ release nodes w) = lock_discipline nodes w := by
  have h1 := lock_calls_of_all _ (is_lock_call_acquire nodes w)
  have h2 := lock_calls_of_all _ (is_lock_call_release nodes w)
  have h3 := lock_calls_of_none _ h
  unfold lock_calls at h1 h2 h3 ⊢
  rw [List.filter_append, List.filter_append, h1, h2, h3]
  simp [lock_discipline]

theorem lock_calls_discipline (nodes : List Path) (w : Bool) :
    lock_calls (lock_discipline nodes w) = lock_discipline nodes w := by
  have h := lock_calls_shape nodes w [] (by simp)
  simpa [lock_discipline] using h

/-! ## The monitors of an operation that runs alone -/

theorem run_calls_append (monitors : Path → Monitor) (a b : List Event) :
    run_calls monitors (a ++ b) = (run_calls monitors a).bind (fun next => run_calls next b) := by
  induction a generalizing monitors with
  | nil => rfl
  | cons e rest ih =>
    simp only [List.cons_append, run_calls]
    cases monitor_call monitors e with
    | none => rfl
    | some next => exact ih next

theorem run_calls_lock_calls (monitors : Path → Monitor) (events : List Event) :
    run_calls monitors (lock_calls events) = run_calls monitors events := by
  induction events generalizing monitors with
  | nil => rfl
  | cons e rest ih =>
    have hstep : ∀ e2 : Event, is_lock_call e2 = true →
        run_calls monitors (e2 :: lock_calls rest) = run_calls monitors (e2 :: rest) := by
      intro e2 _
      simp only [run_calls]
      cases monitor_call monitors e2 with
      | none => rfl
      | some next => exact ih next
    cases e with
    | begin_read n => exact hstep _ rfl
    | begin_write n => exact hstep _ rfl
    | end_read n => exact hstep _ rfl
    | end_write n => exact hstep _ rfl
    | hmap_insert n k => exact ih monitors
    | hmap_remove n k => exact ih monitors

theorem lock_discipline_single (n : Path) (w : Bool) :
    lock_discipline [n] w =
      [if w then Event.begin_write n else Event.begin_read n,
        if w then Event.end_write n else Event.end_read n] := by
  simp [lock_discipline, acquire, release]

theorem lock_discipline_cons (n : Path) (nodes : List Path) (w : Bool) (h : nodes ≠ []) :
    lock_discipline (n :: nodes) w =
      Event.begin_read n :: (lock_discipline nodes w ++ [Event.end_read n]) := by
  have hl : (n :: nodes).getLast? = nodes.getLast? := by
    cases nodes with
    | nil => exact absurd rfl h
    | cons x xs => exact List.getLast?_cons_cons
  simp [lock_discipline, acquire, release, List.dropLast_cons_of_ne_nil h, hl]

theorem run_begin_end (monitors : Path → Monitor) (n : Path) (w : Bool)
    (inner : List Event) (hn : monitors n = init_monitor)
    (hin : ∀ next : Path → Monitor, next =
        Function.update monitors n
          (if w then begin_write_test init_monitor else begin_read_test init_monitor) →
      run_calls next inner = some next) :
    run_calls monitors
        ((if w then Event.begin_write n else Event.begin_read n) ::
          (inner ++ [if w then Event.end_write n else Event.end_read n])) = some monitors := by
  cases w with
  | false =>
    simp only [Bool.false_eq_true, if_false] at hin ⊢
    have hb : monitor_call monitors (Event.begin_read n) =
        some (Function.update monitors n (begin_read_test init_monitor)) := by
      simp only [monitor_call, hn]
      rfl
    simp only [run_calls, hb, run_calls_append, hin _ rfl, Option.some_bind]
    simp only [monitor_call, Function.update_same, monitor_read_alone.2,
      Function.update_idem]
    have hpos : 0 < (begin_read_test init_monitor).read_count := by decide
    simp only [hpos, if_true]
    rw [← hn, Function.update_eq_self]
  | true =>
    simp only [if_true] at hin ⊢
    have hb : monitor_call monitors (Event.begin_write n) =
        some (Function.update monitors n (begin_write_test init_monitor)) := by
      simp only [monitor_call, hn]
      rfl
    simp only [run_calls, hb, run_calls_append, hin _ rfl, Option.some_bind]
    simp only [monitor_call, Function.update_same, monitor_write_alone.2,
      Function.update_idem]
    have hpos : 0 < (begin_write_test init_monitor).write_count := by decide
    simp only [hpos, if_true]
    rw [← hn, Function.update_eq_self]

theorem run_discipline (here p : Path) (w : Bool) (monitors : Path → Monitor)
    (h : ∀ x, monitors (here ++ x) = init_monitor) :
    run_calls monitors (lock_discipline (path_nodes here p) w) = some monitors := by
  induction p generalizing here monitors with
  | nil =>
    simp only [path_nodes, lock_discipline_single]
    have hn : monitors here = init_monitor := by simpa using h []
    have := run_begin_end monitors here w [] hn (fun next _ => rfl)
    simpa using this
  | cons c rest ih =>
    simp only [path_nodes]
    rw [lock_discipline_cons here _ w (path_nodes_ne_nil _ _)]
    have hn : monitors here = init_monitor := by simpa using h []
    have := run_begin_end monitors here false
      (lock_discipline (path_nodes (here ++ [c]) rest) w) hn (by
        intro next hnext
        apply ih (here ++ [c]) next
        intro x
        rw [hnext, Function.update_noteq, List.append_assoc]
        · exact h _
        · intro e
          have hl := congrArg List.length e
          simp at hl)
    simpa using this

theorem run_descent_discipline (tree : Tree) (target : Path) (w : Bool) :
    run_calls idle_monitors (descent_discipline tree target w) = some idle_monitors :=
  run_discipline [] _ _ idle_monitors (fun _ => rfl)

/-! ## The lock calls of each operation -/

theorem tree_create_lock_calls (MAX MAX_DEPTH : Nat) (tree : Tree) (path : String) :
    lock_calls (tree_create_trace MAX MAX_DEPTH tree path).2 =
      if is_path_valid MAX MAX_DEPTH path = true ∧ path ≠ "/" then
        descent_discipline tree (components path).dropLast true
      else [] := by
  by_cases hv : is_path_valid MAX MAX_DEPTH path = true
  · rcases path_nil_or_concat (components path) with hc | ⟨pp, c, hc⟩
    · have hp := eq_root_of_components_eq_nil MAX MAX_DEPTH path hv hc
      rw [tree_create_trace_no_descent MAX MAX_DEPTH tree path (Or.inr hc)]
      simp [hp, lock_calls]
    · have hp := ne_root_of_components_concat path pp c hc
      rw [tree_create_trace_events MAX MAX_DEPTH tree path pp c hv hc, lock_calls_shape]
      · simp [hv, hp, hc, descent_discipline]
      · intro e he
        split at he
        · simp only [List.mem_singleton] at he; subst he; rfl
        · simp at he
  · have hv2 : is_path_valid MAX MAX_DEPTH path = false := by simpa using hv
    rw [tree_create_trace_no_descent MAX MAX_DEPTH tree path (Or.inl hv2)]
    simp [hv2, lock_calls]

theorem tree_remove_lock_calls (MAX MAX_DEPTH : Nat) (tree : Tree) (path : String) :
    lock_calls (tree_remove_trace MAX MAX_DEPTH tree path).2 =
      if is_path_valid MAX MAX_DEPTH path = true ∧ path ≠ "/" then
        descent_discipline tree (components path).dropLast true
      else [] := by
  by_cases hv : is_path_valid MAX MAX_DEPTH path = true
  · rcases path_nil_or_concat (components path) with hc | ⟨pp, c, hc⟩
    · have hp := eq_root_of_components_eq_nil MAX MAX_DEPTH path hv hc
      rw [tree_remove_trace_no_descent MAX MAX_DEPTH tree path (Or.inr hc)]
      simp [hp, lock_calls]
    · have hp := ne_root_of_components_concat path pp c hc
      rw [tree_remove_trace_events MAX MAX_DEPTH tree path pp c hv hc, lock_calls_shape]
      · simp [hv, hp, hc, descent_discipline]
      · intro e he
        split at he
        · simp only [List.mem_singleton] at he; subst he; rfl
        · simp at he
  · have hv2 : is_path_valid MAX MAX_DEPTH path = false := by simpa using hv
    rw [tree_remove_trace_no_descent MAX MAX_DEPTH tree path (Or.inl hv2)]
    simp [hv2, lock_calls]

theorem lock_calls_descent_discipline (tree : Tree) (target : Path) (w : Bool) :
    lock_calls (descent_discipline tree target w) = descent_discipline tree target w :=
  lock_calls_discipline _ _

theorem tree_list_lock_calls (MAX MAX_DEPTH : Nat) (tree : Tree) (path : String) :
    lock_calls (tree_list_trace MAX MAX_DEPTH tree path).2 =
      if is_path_valid MAX MAX_DEPTH path = true then
        descent_discipline tree (components path) false
      else [] := by
  rw [tree_list_trace_events]
  split
  · exact lock_calls_descent_discipline _ _ _
  · rfl

/-- The lock calls of a main-case move: the descent to the common part, as
writer on its last node (the lowest common ancestor). -/
theorem tree_move_lock_calls_apart (MAX MAX_DEPTH : Nat) (tree : Tree) (source target : String)
    (hs : is_path_valid MAX MAX_DEPTH source = true)
    (ht : is_path_valid MAX MAX_DEPTH target = true)
    (h1 : ¬ ∃ r, components target = components source ++ r)
    (h2 : ¬ ∃ r, components source = components target ++ r) :
    lock_calls (tree_move_trace MAX MAX_DEPTH tree source target).2 =
      descent_discipline tree (common_components (components source) (components target))
        true := by
  rcases path_trichotomy (components source) (components target) with
    h | h | ⟨c, a, b, s1, t1, hab, hs1, ht1⟩
  · exact absurd h h1
  · exact absurd h h2
  · obtain ⟨sp, s_last, tp, t_last, _, _, hev⟩ :=
      tree_move_trace_separate MAX MAX_DEPTH tree source target c a b s1 t1 hs ht hs1 ht1 hab
    have hcc : common_components (components source) (components target) = c := by
      rw [hs1, ht1]; exact common_components_separate c a b s1 t1 hab
    rw [hev, hcc, lock_calls_shape]
    · simp [descent_discipline]
    · intro e he
      split at he
      · simp only [List.mem_cons, List.mem_singleton, List.not_mem_nil, or_false] at he
        rcases he with he | he <;> subst he <;> rfl
      · simp at he

theorem move_check_cases_nested (tree : Tree) (s t : Path)
    (h : (∃ r, t = s ++ r) ∨ (∃ r, s = t ++ r)) :
    move_check_cases tree s t (common_components s t).length ≠ 0 := by
  by_cases hS : s = []
  · simp [move_check_cases, ROOT, hS, EBUSY]
  by_cases hT : t = []
  · simp [move_check_cases, ROOT, hS, hT, EEXIST]
  have hsame : ∀ p : Path, p ≠ [] →
      move_check_cases tree p p (common_components p p).length ≠ 0 := by
    intro p hp
    have e := common_components_self_append p []
    rw [List.append_nil] at e
    rw [e, move_check_cases_same tree p hp]
    split <;> simp [EEXIST, ENOENT]
  rcases h with ⟨r, h⟩ | ⟨r, h⟩
  · by_cases hr : r = []
    · subst hr
      rw [List.append_nil] at h
      rw [h]
      exact hsame s hS
    · subst h
      rw [common_components_self_append, move_check_cases_source_inside tree s r hS hr]
      simp [ENOENT]
  · by_cases hr : r = []
    · subst hr
      rw [List.append_nil] at h
      rw [h]
      exact hsame t hT
    · subst h
      rw [common_components_append_self, move_check_cases_target_inside tree t r hT hr]
      split <;> simp [EEXIST, ENOENT]

/-- The lock calls of a move in every case: none, or one descent. -/
theorem tree_move_lock_calls (MAX MAX_DEPTH : Nat) (tree : Tree) (source target : String) :
    lock_calls (tree_move_trace MAX MAX_DEPTH tree source target).2 = [] ∨
      ∃ p w, lock_calls (tree_move_trace MAX MAX_DEPTH tree source target).2 =
        descent_discipline tree p w := by
  by_cases hs : is_path_valid MAX MAX_DEPTH source = true
  swap
  · left
    rw [tree_move_trace_invalid MAX MAX_DEPTH tree source target (Or.inl (by simpa using hs))]
    rfl
  by_cases ht : is_path_valid MAX MAX_DEPTH target = true
  swap
  · left
    rw [tree_move_trace_invalid MAX MAX_DEPTH tree source target (Or.inr (by simpa using ht))]
    rfl
  by_cases hn : (∃ r, components target = components source ++ r) ∨
      (∃ r, components source = components target ++ r)
  · have hcode := move_check_cases_nested tree (components source) (components target) hn
    rw [tree_move_trace_special MAX MAX_DEPTH tree source target hs ht hcode]
    by_cases hS : components source = []
    · left
      rw [move_check_cases_trace_root tree _ _ _ (Or.inl hS)]; rfl
    by_cases hT : components target = []
    · left
      rw [move_check_cases_trace_root tree _ _ _ (Or.inr hT)]; rfl
    rcases hn with ⟨r, h⟩ | ⟨r, h⟩
    · by_cases hr : r = []
      · subst hr
        rw [List.append_nil] at h
        right
        refine ⟨components source, false, ?_⟩
        have e := common_components_self_append (components source) []
        rw [List.append_nil] at e
        rw [h, e, move_check_cases_trace_same tree _ hS]
        exact lock_calls_descent_discipline _ _ _
      · left
        rw [h, common_components_self_append,
          move_check_cases_trace_source_inside tree _ r hS hr]
        rfl
    · right
      by_cases hr : r = []
      · subst hr
        rw [List.append_nil] at h
        refine ⟨components target, false, ?_⟩
        have e := common_components_self_append (components target) []
        rw [List.append_nil] at e
        rw [h, e, move_check_cases_trace_same tree _ hT]
        exact lock_calls_descent_discipline _ _ _
      · refine ⟨components target, false, ?_⟩
        rw [h, common_components_append_self,
          move_check_cases_trace_target_inside tree _ r hT hr]
        exact lock_calls_descent_discipline _ _ _
  · right
    exact ⟨_, true, tree_move_lock_calls_apart MAX MAX_DEPTH tree source target hs ht
      (fun hx => hn (Or.inl hx)) (fun hx => hn (Or.inr hx))⟩

theorem run_calls_of_lock_calls (events : List Event)
    (h : lock_calls events = [] ∨ ∃ tree p w, lock_calls events = descent_discipline tree p w) :
    run_calls idle_monitors events = some idle_monitors := by
  rw [← run_calls_lock_calls]
  rcases h with h | ⟨tree, p, w, h⟩
  · rw [h]; rfl
  · rw [h]; exact run_descent_discipline tree p w

/-- C15: lock discipline of an operation that runs alone. The monitor calls
of `tree_list` are `begin_read` on the nodes of the descended path from the
root down followed by the `end_read` calls in the reverse order; those of
`tree_create` and `tree_remove` descend to the parent of the path, with
`begin_write` / `end_write` on the parent when it is reached; those of
`tree_move` in its main case descend to the common part of the two paths, with
`begin_write` / `end_write` on the lowest common ancestor when it is reached,
and in every case they are none or one such descent. A descent that misses a
component takes and gives back only read locks, on the nodes that exist. After
every operation all monitors are idle again. -/
theorem lock_discipline_followed (MAX MAX_DEPTH : Nat) (tree : Tree) :
    (∀ path, lock_calls (tree_list_trace MAX MAX_DEPTH tree path).2 =
        if is_path_valid MAX MAX_DEPTH path = true then
          descent_discipline tree (components path) false
        else []) ∧
      (∀ path, lock_calls (tree_create_trace MAX MAX_DEPTH tree path).2 =
        if is_path_valid MAX MAX_DEPTH path = true ∧ path ≠ "/" then
          descent_discipline tree (components path).dropLast true
        else []) ∧
      (∀ path, lock_calls (tree_remove_trace MAX MAX_DEPTH tree path).2 =
        if is_path_valid MAX MAX_DEPTH path = true ∧ path ≠ "/" then
          descent_discipline tree (components path).dropLast true
        else []) ∧
      (∀ source target, is_path_valid MAX MAX_DEPTH source = true →
        is_path_valid MAX MAX_DEPTH target = true →
        (¬ ∃ r, components target = components source ++ r) →
        (¬ ∃ r, components source = components target ++ r) →
        lock_calls (tree_move_trace MAX MAX_DEPTH tree source target).2 =
          descent_discipline tree
            (common_components (components source) (components target)) true) ∧
      (∀ source target,
        lock_calls (tree_move_trace MAX MAX_DEPTH tree source target).2 = [] ∨
          ∃ p w, lock_calls (tree_move_trace MAX MAX_DEPTH tree source target).2 =
            descent_discipline tree p w) ∧
      (∀ path, run_calls idle_monitors (tree_list_trace MAX MAX_DEPTH tree path).2 =
        some idle_monitors) ∧
      (∀ path, run_calls idle_monitors (tree_create_trace MAX MAX_DEPTH tree path).2 =
        some idle_monitors) ∧
      (∀ path, run_calls idle_monitors (tree_remove_trace MAX MAX_DEPTH tree path).2 =
        some idle_monitors) ∧
      (∀ source target,
        run_calls idle_monitors (tree_move_trace MAX MAX_DEPTH tree source target).2 =
          some idle_monitors) := by
  refine ⟨tree_list_lock_calls MAX MAX_DEPTH tree, tree_create_lock_calls MAX MAX_DEPTH tree,
    tree_remove_lock_calls MAX MAX_DEPTH tree, tree_move_lock_calls_apart MAX MAX_DEPTH tree,
    tree_move_lock_calls MAX MAX_DEPTH tree, ?_, ?_, ?_, ?_⟩
  · intro path
    apply run_calls_of_lock_calls
    rw [tree_list_lock_calls]
    split
    · exact Or.inr ⟨tree, _, _, rfl⟩
    · exact Or.inl rfl
  · intro path
    apply run_calls_of_lock_calls
    rw [tree_create_lock_calls]
    split
    · exact Or.inr ⟨tree, _, _, rfl⟩
    · exact Or.inl rfl
  · intro path
    apply run_calls_of_lock_calls
    rw [tree_remove_lock_calls]
    split
    · exact Or.inr ⟨tree, _, _, rfl⟩
    · exact Or.inl rfl
  · intro source target
    apply run_calls_of_lock_calls
    rcases tree_move_lock_calls MAX MAX_DEPTH tree source target with h | ⟨p, w, h⟩
    · exact Or.inl h
    · exact Or.inr ⟨tree, p, w, h⟩

theorem lock_discipline_followed_witness :
    lock_calls (tree_move_trace 255 2047 example_tree "/a/b/c/" "/a/b/x/").2 =
        [Event.begin_read [], Event.begin_read ["a"], Event.begin_write ["a", "b"],
          Event.end_write ["a", "b"], Event.end_read ["a"], Event.end_read []] ∧
      lock_calls (tree_move_trace 255 2047 example_tree "/a/b/c/" "/a/b/x/").2 =
        descent_discipline example_tree
          (common_components (components "/a/b/c/") (components "/a/b/x/")) true ∧
      lock_calls (tree_list_trace 255 2047 example_tree "/a/q/c/").2 =
        [Event.begin_read [], Event.begin_read ["a"], Event.end_read ["a"],
          Event.end_read []] ∧
      lock_calls (tree_create_trace 255 2047 example_tree "/a/q/c/").2 =
        (if is_path_valid 255 2047 "/a/q/c/" = true ∧ "/a/q/c/" ≠ "/" then
          descent_discipline example_tree (components "/a/q/c/").dropLast true
        else []) :=
  ⟨by decide,
    (lock_discipline_followed 255 2047 example_tree).2.2.2.1 "/a/b/c/" "/a/b/x/" (by decide)
      (by decide)
      (by
        rintro ⟨r, e⟩
        rw [show components "/a/b/x/" = ["a", "b", "x"] by decide,
          show components "/a/b/c/" = ["a", "b", "c"] by decide] at e
        simp at e)
      (by
        rintro ⟨r, e⟩
        rw [show components "/a/b/x/" = ["a", "b", "x"] by decide,
          show components "/a/b/c/" = ["a", "b", "c"] by decide] at e
        simp at e),
    by decide, (lock_discipline_followed 255 2047 example_tree).2.1 "/a/q/c/"⟩

/-! ## Lock coverage -/

theorem coverage_of_lock_calls (covered : List Path → Path → Bool) (held : List Path)
    (events : List Event) (h : ∀ e ∈ events, is_lock_call e = true) :
    coverage covered held events = true := by
  induction events generalizing held with
  | nil => rfl
  | cons e rest ih =>
    have hrest : ∀ e2 ∈ rest, is_lock_call e2 = true :=
      fun e2 he2 => h e2 (List.mem_cons_of_mem _ he2)
    cases e with
    | begin_read n => exact ih held hrest
    | begin_write n => exact ih _ hrest
    | end_read n => exact ih held hrest
    | end_write n => exact ih _ hrest
    | hmap_insert n k => exact absurd (h _ (List.mem_cons_self _ _)) (by simp [is_lock_call])
    | hmap_remove n k => exact absurd (h _ (List.mem_cons_self _ _)) (by simp [is_lock_call])

theorem coverage_reads (covered : List Path → Path → Bool) (held : List Path)
    (nodes : List Path) (rest : List Event) :
    coverage covered held (nodes.map Event.begin_read ++ rest) = coverage covered held rest := by
  induction nodes with
  | nil => rfl
  | cons n more ih => exact ih

theorem coverage_acquire_write (covered : List Path → Path → Bool) (held : List Path)
    (p : Path) (rest : List Event) :
    coverage covered held (acquire (path_nodes [] p) true ++ rest) =
      coverage covered (p :: held) rest := by
  rw [acquire_path_nodes, List.append_assoc, coverage_reads]
  rfl

theorem is_lock_call_discipline (nodes : List Path) (w : Bool) :
    ∀ e ∈ lock_discipline nodes w, is_lock_call e = true := by
  intro e he
  rcases List.mem_append.mp he with h | h
  · exact is_lock_call_acquire nodes w e h
  · exact is_lock_call_release nodes w e h

theorem coverage_descent_discipline (covered : List Path → Path → Bool) (tree : Tree)
    (p : Path) (w : Bool) : coverage covered [] (descent_discipline tree p w) = true :=
  coverage_of_lock_calls covered [] _ (is_lock_call_discipline _ _)

theorem starts_with_append (a r : Path) : starts_with a (a ++ r) = true := by
  simp [starts_with]

/-- The events of a descent as writer to `target` with the mutations done
there are covered when each mutation is covered by the write lock on `target`. -/
theorem coverage_write_descent (covered : List Path → Path → Bool) (tree : Tree)
    (target : Path) (mutations : List Event)
    (hfound : mutations ≠ [] → descended tree target = target)
    (hmut : coverage covered [target]
      (mutations ++ release (path_nodes [] target) true) = true) :
    coverage covered []
      (acquire (path_nodes [] (descended tree target)) (decide (descended tree target = target)) ++
        mutations ++
        release (path_nodes [] (descended tree target))
          (decide (descended tree target = target))) = true := by
  by_cases hd : descended tree target = target
  · rw [hd]
    simp only [decide_True, List.append_assoc]
    rw [coverage_acquire_write]
    exact hmut
  · have hm : mutations = [] := by
      by_contra hne
      exact hd (hfound hne)
    subst hm
    apply coverage_of_lock_calls
    intro e he
    simp only [List.append_nil] at he
    exact is_lock_call_discipline _ _ e he

theorem coverage_release (covered : List Path → Path → Bool) (held : List Path)
    (nodes : List Path) (w : Bool) : coverage covered held (release nodes w) = true :=
  coverage_of_lock_calls covered held _ (is_lock_call_release nodes w)

theorem tree_create_coverage (MAX MAX_DEPTH : Nat) (tree : Tree) (path : String) :
    coverage own_lock [] (tree_create_trace MAX MAX_DEPTH tree path).2 = true := by
  by_cases hv : is_path_valid MAX MAX_DEPTH path = true
  · rcases path_nil_or_concat (components path) with hc | ⟨pp, c, hc⟩
    · rw [tree_create_trace_no_descent MAX MAX_DEPTH tree path (Or.inr hc)]; rfl
    · rw [tree_create_trace_events MAX MAX_DEPTH tree path pp c hv hc]
      apply coverage_write_descent
      · intro hne
        by_contra hd
        apply hne
        have hcode : (tree_create_trace MAX MAX_DEPTH tree path).1.1 ≠ 0 := by
          rw [tree_create_trace_result, tree_create_concat MAX MAX_DEPTH tree path pp c hv hc]
          cases hf : node_find_safe tree pp with
          | none => simp [ENOENT]
          | some parent => exact absurd (descended_of_found tree pp parent hf) hd
        simp [hcode]
      · split
        · simp [coverage, own_lock, coverage_release]
        · simp [coverage_release]
  · rw [tree_create_trace_no_descent MAX MAX_DEPTH tree path (Or.inl (by simpa using hv))]; rfl

theorem tree_remove_coverage (MAX MAX_DEPTH : Nat) (tree : Tree) (path : String) :
    coverage own_lock [] (tree_remove_trace MAX MAX_DEPTH tree path).2 = true := by
  by_cases hv : is_path_valid MAX MAX_DEPTH path = true
  · rcases path_nil_or_concat (components path) with hc | ⟨pp, c, hc⟩
    · rw [tree_remove_trace_no_descent MAX MAX_DEPTH tree path (Or.inr hc)]; rfl
    · rw [tree_remove_trace_events MAX MAX_DEPTH tree path pp c hv hc]
      apply coverage_write_descent
      · intro hne
        by_contra hd
        apply hne
        have hcode : (tree_remove_trace MAX MAX_DEPTH tree path).1.1 ≠ 0 := by
          rw [tree_remove_trace_result, tree_remove_concat MAX MAX_DEPTH tree path pp c hv hc]
          cases hf : node_find_safe tree pp with
          | none => simp [ENOENT]
          | some parent => exact absurd (descended_of_found tree pp parent hf) hd
        simp [hcode]
      · split
        · simp [coverage, own_lock, coverage_release]
        · simp [coverage_release]
  · rw [tree_remove_trace_no_descent MAX MAX_DEPTH tree path (Or.inl (by simpa using hv))]; rfl

theorem tree_list_coverage (MAX MAX_DEPTH : Nat) (tree : Tree) (path : String) :
    coverage own_lock [] (tree_list_trace MAX MAX_DEPTH tree path).2 = true := by
  rw [tree_list_trace_events]
  split
  · exact coverage_descent_discipline _ _ _ _
  · rfl

theorem move_check_cases_trace_nested (tree : Tree) (s t : Path)
    (h : (∃ r, t = s ++ r) ∨ (∃ r, s = t ++ r)) :
    (move_check_cases_trace tree s t (common_components s t).length).2 = [] ∨
      ∃ p w, (move_check_cases_trace tree s t (common_components s t).length).2 =
        descent_discipline tree p w := by
  by_cases hS : s = []
  · exact Or.inl (move_check_cases_trace_root tree _ _ _ (Or.inl hS))
  by_cases hT : t = []
  · exact Or.inl (move_check_cases_trace_root tree _ _ _ (Or.inr hT))
  have hsame : ∀ p : Path, p ≠ [] →
      (move_check_cases_trace tree p p (common_components p p).length).2 =
        descent_discipline tree p false := by
    intro p hp
    have e := common_components_self_append p []
    rw [List.append_nil] at e
    rw [e, move_check_cases_trace_same tree p hp]
  rcases h with ⟨r, h⟩ | ⟨r, h⟩
  · by_cases hr : r = []
    · subst hr
      rw [List.append_nil] at h
      rw [h]
      exact Or.inr ⟨s, false, hsame s hS⟩
    · subst h
      rw [common_components_self_append, move_check_cases_trace_source_inside tree s r hS hr]
      exact Or.inl rfl
  · by_cases hr : r = []
    · subst hr
      rw [List.append_nil] at h
      rw [h]
      exact Or.inr ⟨t, false, hsame t hT⟩
    · subst h
      rw [common_components_append_self, move_check_cases_trace_target_inside tree t r hT hr]
      exact Or.inr ⟨t, false, rfl⟩

theorem tree_move_coverage_nested (MAX MAX_DEPTH : Nat) (tree : Tree) (source target : String)
    (covered : List Path → Path → Bool)
    (hs : is_path_valid MAX MAX_DEPTH source = true)
    (ht : is_path_valid MAX MAX_DEPTH target = true)
    (h : (∃ r, components target = components source ++ r) ∨
      (∃ r, components source = components target ++ r)) :
    coverage covered [] (tree_move_trace MAX MAX_DEPTH tree source target).2 = true := by
  rw [tree_move_trace_special MAX MAX_DEPTH tree source target hs ht
    (move_check_cases_nested tree _ _ h)]
  rcases move_check_cases_trace_nested tree _ _ h with h0 | ⟨p, w, h0⟩
  · rw [h0]; rfl
  · rw [h0]; exact coverage_descent_discipline _ _ _ _

theorem tree_move_coverage (MAX MAX_DEPTH : Nat) (tree : Tree) (source target : String) :
    coverage ancestor_lock [] (tree_move_trace MAX MAX_DEPTH tree source target).2 = true := by
  by_cases hs : is_path_valid MAX MAX_DEPTH source = true
  swap
  · rw [tree_move_trace_invalid MAX MAX_DEPTH tree source target (Or.inl (by simpa using hs))]
    rfl
  by_cases ht : is_path_valid MAX MAX_DEPTH target = true
  swap
  · rw [tree_move_trace_invalid MAX MAX_DEPTH tree source target (Or.inr (by simpa using ht))]
    rfl
  rcases path_trichotomy (components source) (components target) with
    h | h | ⟨c, a, b, s1, t1, hab, hs1, ht1⟩
  · exact tree_move_coverage_nested MAX MAX_DEPTH tree source target _ hs ht (Or.inl h)
  · exact tree_move_coverage_nested MAX MAX_DEPTH tree source target _ hs ht (Or.inr h)
  · obtain ⟨sp, s_last, tp, t_last, _, _, hev⟩ :=
      tree_move_trace_separate MAX MAX_DEPTH tree source target c a b s1 t1 hs ht hs1 ht1 hab
    rw [hev]
    apply coverage_write_descent
    · intro hne
      by_contra hd
      apply hne
      have hcode : (tree_move_trace MAX MAX_DEPTH tree source target).1.1 ≠ 0 := by
        rw [tree_move_trace_result]
        intro h0
        obtain ⟨_, _, h1, h2, sp2, sl2, tp2, tl2, hS2, hT2⟩ :=
          tree_move_zero MAX MAX_DEPTH tree source target h0
        rw [tree_move_apart MAX MAX_DEPTH tree source target sp2 sl2 tp2 tl2 hs ht hS2 hT2 h1 h2,
          move_separate_zero_iff] at h0
        have hsrc := h0.1
        rw [← hS2, hs1] at hsrc
        have hc := path_exists_of_append tree c (a :: s1) hsrc
        obtain ⟨lca, hl⟩ := Option.isSome_iff_exists.mp hc
        exact hd (descended_of_found tree c lca hl)
      simp [hcode]
    · split
      · simp [coverage, ancestor_lock, starts_with_append, coverage_release]
      · simp [coverage_release]

/-- Counterexample to C16 as stated: the successful `move("/a/b/", "/b/x/")` of
`example_move_test` inserts into the child map of `/b/` and removes from the
child map of `/a/` while the only monitor it holds as writer is the one of
the root, so neither mutated node has its own monitor held. -/
theorem lock_coverage_counterexample :
    (tree_move_trace 255 2047 example_tree "/a/b/" "/b/x/").1.1 = 0 ∧
      (tree_move_trace 255 2047 example_tree "/a/b/" "/b/x/").2 =
        [Event.begin_write [], Event.hmap_insert ["b"] "x", Event.hmap_remove ["a"] "b",
          Event.end_write []] ∧
      coverage own_lock [] (tree_move_trace 255 2047 example_tree "/a/b/" "/b/x/").2 = false := by
  refine ⟨by decide, by decide, by decide⟩

/-- C16 (amended): every mutation of a child map by `tree_create` and
`tree_remove` (and none by `tree_list`) happens while the monitor of that same
node is held as writer; every mutation by `tree_move` happens while the monitor
of that node or of one of its ancestors (the lowest common ancestor of the two
paths) is held as writer. -/
theorem lock_coverage (MAX MAX_DEPTH : Nat) (tree : Tree) :
    (∀ path, coverage own_lock [] (tree_create_trace MAX MAX_DEPTH tree path).2 = true) ∧
      (∀ path, coverage own_lock [] (tree_remove_trace MAX MAX_DEPTH tree path).2 = true) ∧
      (∀ path, coverage own_lock [] (tree_list_trace MAX MAX_DEPTH tree path).2 = true) ∧
      (∀ source target,
        coverage ancestor_lock [] (tree_move_trace MAX MAX_DEPTH tree source target).2 = true) :=
  ⟨tree_create_coverage MAX MAX_DEPTH tree, tree_remove_coverage MAX MAX_DEPTH tree,
    tree_list_coverage MAX MAX_DEPTH tree, tree_move_coverage MAX MAX_DEPTH tree⟩

theorem lock_coverage_witness :
    (tree_create_trace 255 2047 example_tree "/a/b/z/").2 =
        [Event.begin_read [], Event.begin_read ["a"], Event.begin_write ["a", "b"],
          Event.hmap_insert ["a", "b"] "z", Event.end_write ["a", "b"], Event.end_read ["a"],
          Event.end_read []] ∧
      coverage own_lock [] (tree_create_trace 255 2047 example_tree "/a/b/z/").2 = true ∧
      coverage ancestor_lock [] (tree_move_trace 255 2047 example_tree "/a/b/" "/b/x/").2 = true :=
  ⟨by decide, (lock_coverage 255 2047 example_tree).1 "/a/b/z/",
    (lock_coverage 255 2047 example_tree).2.2.2 "/a/b/" "/b/x/"⟩

end ConcurrentFS
